import Mathlib

/-!
# Layered disassembly of a 3D model

A shallow embedding of `components/DisassemblyFunctions.js`:
`initializeModelLayers`, `disassembleLayer`, `reassembleLayer`, `animateTargets`,
`smoothStep` and the class `ModelDisassemblyManager`.

## Modelling decisions

* The scene graph is a tree: three.js keeps `parent` the inverse of `children`.
  `Object3D` holds the fields the code only reads (`uuid`, `type`, `children`).
* A JavaScript reference to a scene object is an `Obj`: the node together with the chain of
  `parent` references that leads up to the root. Two references are the same object (`===`)
  when their chains of child indices agree (`Obj.same`). The root handed to the code has no
  parent inside the model.
* The fields the code writes (`position`, `rotation`, `scale`) live in a separate store
  `Transforms`, keyed by object identity.
* Numbers are elements of a linearly ordered field (exact arithmetic).
* A JavaScript `Map` is an insertion-ordered association list (`JSMap`), an array with holes is
  a list of options, and a call that may throw returns a `Completion`.
* The three.js and `Math` routines whose code is not part of the repository (`Math.sqrt`,
  `Math.cos`, `Math.sin`, `Math.PI`, `getWorldPosition`, `Box3.setFromObject`/`getCenter`,
  `Matrix4.invert` with `transformDirection`) are the fields of a parameter `Three`.
-/

namespace Disassembly

/-! ## Values of three.js -/

/-- A `THREE.Vector3`. -/
structure Vector3 (α : Type) where
  x : α
  y : α
  z : α
deriving DecidableEq

/-- A `THREE.Euler`: three angles and the rotation order. -/
structure Euler (α : Type) where
  x : α
  y : α
  z : α
  order : String
deriving DecidableEq

namespace Vector3

variable {α : Type}

/-- The JavaScript `a.add(b)`. -/
def add [Add α] (a b : Vector3 α) : Vector3 α := ⟨a.x + b.x, a.y + b.y, a.z + b.z⟩

/-- The JavaScript `new Vector3().subVectors(a, b)`. -/
def subVectors [Sub α] (a b : Vector3 α) : Vector3 α := ⟨a.x - b.x, a.y - b.y, a.z - b.z⟩

/-- The JavaScript `v.multiplyScalar(s)`. -/
def multiplyScalar [Mul α] (v : Vector3 α) (s : α) : Vector3 α := ⟨v.x * s, v.y * s, v.z * s⟩

/-- The JavaScript `v.divideScalar(s)`, which three.js computes as `v.multiplyScalar(1 / s)`. -/
def divideScalar [Mul α] [One α] [Div α] (v : Vector3 α) (s : α) : Vector3 α :=
  v.multiplyScalar (1 / s)

/-- The JavaScript `this.lerpVectors(v1, v2, alpha)`: each component is `v1 + (v2 - v1) * alpha`. -/
def lerpVectors [Add α] [Sub α] [Mul α] (v1 v2 : Vector3 α) (alpha : α) : Vector3 α :=
  ⟨v1.x + (v2.x - v1.x) * alpha, v1.y + (v2.y - v1.y) * alpha, v1.z + (v2.z - v1.z) * alpha⟩

end Vector3

/-! ## The scene graph -/

/-- The read-only part of a `THREE.Object3D`. -/
inductive Object3D where
  | mk (uuid : String) (type : String) (children : List Object3D)

namespace Object3D

/-- The JavaScript `obj.uuid`. -/
def uuid : Object3D → String
  | mk u _ _ => u

/-- The JavaScript `obj.type`. -/
def type : Object3D → String
  | mk _ t _ => t

/-- The JavaScript `obj.children`. -/
def children : Object3D → List Object3D
  | mk _ _ c => c

end Object3D

/-- A reference to an object of the scene graph, with its chain of parents. -/
inductive Obj where
  | root (node : Object3D)
  | child (node : Object3D) (index : Nat) (parent : Obj)

namespace Obj

/-- The object referred to. -/
def node : Obj → Object3D
  | root n => n
  | child n _ _ => n

/-- The JavaScript `obj.parent` (`none` is `null`). -/
def parent : Obj → Option Obj
  | root _ => none
  | child _ _ p => some p

/-- Identity of the object: the child indices from the object up to the root. -/
def path : Obj → List Nat
  | root _ => []
  | child _ i p => i :: p.path

/-- The JavaScript `a === b`. -/
def same (a b : Obj) : Bool := a.path == b.path

/-- The JavaScript `obj.uuid`. -/
def uuid (o : Obj) : String := o.node.uuid

/-- The JavaScript `obj.type`. -/
def type (o : Obj) : String := o.node.type

/-- The JavaScript `obj.children.length`. -/
def numChildren (o : Obj) : Nat := o.node.children.length

end Obj

/-- The mutable fields of the objects, keyed by object identity. -/
structure Transforms (α : Type) where
  position : List Nat → Vector3 α
  rotation : List Nat → Euler α
  scale : List Nat → Vector3 α

/-- The JavaScript `obj.position.copy(v)` (also the effect of `obj.position.lerpVectors`). -/
def Transforms.setPosition {α : Type} (s : Transforms α) (o : Obj) (v : Vector3 α) :
    Transforms α :=
  { s with position := Function.update s.position o.path v }

/-- The JavaScript `obj.rotation.copy(e)`. -/
def Transforms.setRotation {α : Type} (s : Transforms α) (o : Obj) (e : Euler α) :
    Transforms α :=
  { s with rotation := Function.update s.rotation o.path e }

/-- The JavaScript `obj.scale.copy(v)`. -/
def Transforms.setScale {α : Type} (s : Transforms α) (o : Obj) (v : Vector3 α) :
    Transforms α :=
  { s with scale := Function.update s.scale o.path v }

/-! ## JavaScript containers -/

/-- A JavaScript `Map`: entries in insertion order, keys pairwise different. -/
abbrev JSMap (κ ν : Type) := List (κ × ν)

namespace JSMap

variable {κ ν : Type} [DecidableEq κ]

/-- The JavaScript `map.has(k)`. -/
def has (m : JSMap κ ν) (k : κ) : Bool := m.any (fun e => e.1 = k)

/-- The JavaScript `map.get(k)` (`none` is `undefined`). -/
def get (m : JSMap κ ν) (k : κ) : Option ν := (m.find? (fun e => e.1 = k)).map Prod.snd

/-- The JavaScript `map.set(k, v)`: an existing key keeps its place, a new key goes last. -/
def set : JSMap κ ν → κ → ν → JSMap κ ν
  | [], k, v => [(k, v)]
  | e :: m, k, v => if e.1 = k then (e.1, v) :: m else e :: set m k v

/-- Update in place of the value stored under `k` (as `map.get(k).children.push(..)` does). -/
def modify : JSMap κ ν → κ → (ν → ν) → JSMap κ ν
  | [], _, _ => []
  | e :: m, k, f => if e.1 = k then (e.1, f e.2) :: m else e :: modify m k f

end JSMap

/-- How a call ends: it returns a value or it throws. -/
inductive Completion (τ : Type) where
  | returned (value : τ)
  | threw

/-! ## `initializeModelLayers` -/

mutual
/-- The closure `collectObjects` (and three.js `traverse`): the objects below `node`, whose
reference is `obj`, in the order they are pushed onto `allObjects`. -/
def collectObjects (node : Object3D) (obj : Obj) : List Obj :=
  match node with
  | .mk _ _ cs => obj :: collectChildren cs obj 0
/-- The loop `obj.children.forEach(child => collectObjects(child))`, from child `i` on. -/
def collectChildren (cs : List Object3D) (parent : Obj) (i : Nat) : List Obj :=
  match cs with
  | [] => []
  | c :: rest => collectObjects c (.child c i parent) ++ collectChildren rest parent (i + 1)
end

/-- The objects visited by `rootObject.traverse(callback)`, in visiting order. -/
def traverse (rootObject : Object3D) : List Obj := collectObjects rootObject (.root rootObject)

/-- The `while` loop of `getDepth`: `current` walks up while it is not `root` and has a
parent. -/
def getDepthLoop (root : Obj) : Obj → Nat → Nat
  | .root _, depth => depth
  | .child n i p, depth =>
    if (Obj.child n i p).same root then depth else getDepthLoop root p (depth + 1)

/-- The closure `getDepth(obj, root)`. -/
def getDepth (obj root : Obj) : Nat := getDepthLoop root obj 0

/-- The test that guards `layers[depth].push(obj)`. -/
def isLayerMember (obj : Obj) : Bool :=
  obj.type = "Mesh" || obj.type = "Group" || obj.type = "Object3D" || obj.numChildren > 0

/-- The read `array[i]` of an array with holes (`none` is `undefined`). -/
def sparseGet {τ : Type} (a : List (Option τ)) (i : Nat) : Option τ := (a.get? i).join

/-- The write `array[i] = v` of an array with holes: the array grows (with holes) when `i` is beyond
its end. -/
def sparseSet {τ : Type} (a : List (Option τ)) (i : Nat) (v : τ) : List (Option τ) :=
  if i < a.length then a.set i (some v)
  else a ++ List.replicate (i - a.length) none ++ [some v]

/-- The JavaScript `layers[depth].push(obj)`. -/
def pushAt (layers : List (Option (List Obj))) (depth : Nat) (obj : Obj) :
    List (Option (List Obj)) :=
  match sparseGet layers depth with
  | some l => sparseSet layers depth (l ++ [obj])
  | none => layers

/-- One round of `allObjects.forEach(obj => ...)` that fills `layers`. -/
def layerStep (rootObject : Obj) (layers : List (Option (List Obj))) (obj : Obj) :
    List (Option (List Obj)) :=
  if obj.same rootObject then layers
  else
    let depth := getDepth obj rootObject
    let layers := if (sparseGet layers depth).isNone then sparseSet layers depth [] else layers
    if isLayerMember obj then pushAt layers depth obj else layers

/-- The callback of `layers.filter(layer => layer && layer.length > 0)`, per slot. -/
def keepLayer : Option (List Obj) → Option (List Obj)
  | some l => if l.length > 0 then some l else none
  | none => none

/-- An entry of `originalPositions`. -/
structure Original (α : Type) where
  position : Vector3 α
  rotation : Euler α
  scale : Vector3 α

/-- The record `{ position: obj.position.clone(), rotation: obj.rotation.clone(),
scale: obj.scale.clone() }`. -/
def snapshotOf {α : Type} (s : Transforms α) (obj : Obj) : Original α :=
  { position := s.position obj.path
    rotation := s.rotation obj.path
    scale := s.scale obj.path }

/-- The result of `initializeModelLayers`. -/
structure ModelLayers (α : Type) where
  layers : List (List Obj)
  originalPositions : JSMap String (Original α)

/-- The function `initializeModelLayers(rootObject)`, reading the transforms `s`. -/
def initializeModelLayers {α : Type} (rootObject : Option Object3D) (s : Transforms α) :
    ModelLayers α :=
  match rootObject with
  | none => { layers := [], originalPositions := [] }
  | some r =>
    let allObjects := collectObjects r (.root r)
    let layers := allObjects.foldl (layerStep (.root r)) []
    let validLayers := layers.filterMap keepLayer
    let originalPositions : JSMap String (Original α) :=
      allObjects.foldl (fun m obj => m.set obj.uuid (snapshotOf s obj)) []
    { layers := validLayers, originalPositions := originalPositions }

/-! ## `disassembleLayer` -/

/-- The routines of three.js and `Math` that `disassembleLayer` calls and whose code is not
part of the repository. The geometric ones read the transforms of the scene. -/
structure Three (α : Type) where
  /-- The JavaScript `Math.sqrt`. -/
  sqrt : α → α
  /-- The JavaScript `Math.cos`. -/
  cos : α → α
  /-- The JavaScript `Math.sin`. -/
  sin : α → α
  /-- The JavaScript `Math.PI`. -/
  pi : α
  /-- The JavaScript `obj.getWorldPosition(new THREE.Vector3())`. -/
  getWorldPosition : Transforms α → Obj → Vector3 α
  /-- The JavaScript `new THREE.Box3().setFromObject(obj).getCenter(new THREE.Vector3())`. -/
  boxCenter : Transforms α → Obj → Vector3 α
  /-- The JavaScript `v.transformDirection(new THREE.Matrix4().copy(obj.matrixWorld).invert())`. -/
  transformDirectionInverse : Transforms α → Obj → Vector3 α → Vector3 α

/-- The JavaScript `v.length()`. -/
def Three.length {α : Type} [Add α] [Mul α] (T : Three α) (v : Vector3 α) : α :=
  T.sqrt (v.x * v.x + v.y * v.y + v.z * v.z)

/-- The JavaScript `v.normalize()`, which three.js computes as `v.divideScalar(v.length() || 1)`. -/
def Three.normalize {α : Type} [Field α] [DecidableEq α] (T : Three α) (v : Vector3 α) :
    Vector3 α :=
  v.divideScalar (if T.length v = 0 then 1 else T.length v)

/-- An element of the arrays returned by `disassembleLayer` and `reassembleLayer`. -/
structure AnimationTarget (α : Type) where
  object : Obj
  startPosition : Vector3 α
  targetPosition : Vector3 α
  uuid : String

/-- A value of the map `parentGroups`. -/
structure ParentGroup where
  parent : Obj
  children : List Obj

/-- The JavaScript `array.indexOf(obj)`: the first index holding the same object, `-1` when there is none. -/
def indexOf : List Obj → Obj → Int
  | [], _ => -1
  | o :: rest, obj =>
    if o.same obj then 0
    else
      let i := indexOf rest obj
      if i < 0 then -1 else i + 1

/-- One round of `layer.forEach(obj => ...)` that fills `parentGroups` and `rootObjects`. -/
def groupStep (rootObject : Option Object3D)
    (acc : JSMap String ParentGroup × List Obj) (obj : Obj) :
    JSMap String ParentGroup × List Obj :=
  match obj.parent with
  | some parent =>
    if !(match rootObject with
         | some r => parent.same (.root r)
         | none => false) then
      let parentId := parent.uuid
      let parentGroups :=
        if !acc.1.has parentId then acc.1.set parentId { parent := parent, children := [] }
        else acc.1
      (parentGroups.modify parentId (fun g => { g with children := g.children ++ [obj] }),
        acc.2)
    else (acc.1, acc.2 ++ [obj])
  | none => (acc.1, acc.2 ++ [obj])

/-- The animation target pushed for `obj` once its `direction` is known. -/
def makeTarget {α : Type} [Add α] [Mul α] (s : Transforms α) (obj : Obj)
    (direction : Vector3 α) (disassembleDistance : α) : AnimationTarget α :=
  { object := obj
    startPosition := s.position obj.path
    targetPosition := (s.position obj.path).add (direction.multiplyScalar disassembleDistance)
    uuid := obj.uuid }

/-- The radial direction `(cos angle, 0, sin angle)` with
`angle = (index / count) * Math.PI * 2`. -/
def radialDirection {α : Type} [Field α] (T : Three α) (index : Int) (count : Nat) :
    Vector3 α :=
  let angle := ((index : α) / (count : α)) * T.pi * 2
  ⟨T.cos angle, 0, T.sin angle⟩

/-- The body of `children.forEach(obj => ...)` for one parent group. -/
def parentGroupTarget {α : Type} [Field α] [DecidableEq α] (T : Three α) (s : Transforms α)
    (parent : Obj) (children : List Obj) (disassembleDistance : α) (obj : Obj) :
    AnimationTarget α :=
  let parentCenter := T.boxCenter s parent
  let objWorldPos := T.getWorldPosition s obj
  let direction := T.normalize (Vector3.subVectors objWorldPos parentCenter)
  let direction :=
    if T.length direction = 0 then
      let direction := T.normalize (s.position obj.path)
      if T.length direction = 0 then radialDirection T (indexOf children obj) children.length
      else direction
    else direction
  let direction := T.transformDirectionInverse s parent direction
  makeTarget s obj direction disassembleDistance

/-- The body of `rootObjects.forEach(obj => ...)` of the root-level group. -/
def rootGroupTarget {α : Type} [Field α] [DecidableEq α] (T : Three α) (s : Transforms α)
    (rootObjects : List Obj) (disassembleDistance : α) (obj : Obj) : AnimationTarget α :=
  let rootCenter :=
    (rootObjects.foldl (fun (c : Vector3 α) o => c.add (T.getWorldPosition s o))
      (⟨0, 0, 0⟩ : Vector3 α)).divideScalar
      (rootObjects.length : α)
  let objWorldPos := T.getWorldPosition s obj
  let direction := T.normalize (Vector3.subVectors objWorldPos rootCenter)
  let direction :=
    if T.length direction = 0 then
      radialDirection T (indexOf rootObjects obj) rootObjects.length
    else direction
  makeTarget s obj direction disassembleDistance

/-- The function `disassembleLayer(layer, rootObject, disassembleDistance)`; a `layer` that is
`null` or `undefined` is `none`. -/
def disassembleLayer {α : Type} [Field α] [DecidableEq α] (T : Three α) (s : Transforms α)
    (layer : Option (List Obj)) (rootObject : Option Object3D) (disassembleDistance : α) :
    List (AnimationTarget α) :=
  match layer with
  | none => []
  | some [] => []
  | some (o :: os) =>
    let groups := (o :: os).foldl (groupStep rootObject) ([], [])
    let parentGroups := groups.1
    let rootObjects := groups.2
    let animationTargets :=
      parentGroups.foldl
        (fun targets g =>
          targets ++
            g.2.children.map (parentGroupTarget T s g.2.parent g.2.children disassembleDistance))
        []
    if rootObjects.length > 0 then
      animationTargets ++ rootObjects.map (rootGroupTarget T s rootObjects disassembleDistance)
    else animationTargets

/-! ## `reassembleLayer`, `animateTargets`, `smoothStep` -/

/-- The search `rootObject.traverse(obj => { if (obj.uuid === uuid) foundObject = obj })`:
the last visited object with that uuid. -/
def findObject (rootObject : Object3D) (uuid : String) : Option Obj :=
  (traverse rootObject).foldl (fun found obj => if obj.uuid = uuid then some obj else found)
    none

/-- The function `reassembleLayer(savedPositions, rootObject)`. With a `null` root the first
round of `savedPositions.forEach` throws. -/
def reassembleLayer {α : Type} (s : Transforms α) (savedPositions : JSMap String (Vector3 α))
    (rootObject : Option Object3D) : Completion (List (AnimationTarget α)) :=
  match rootObject with
  | none => if savedPositions.isEmpty then .returned [] else .threw
  | some r =>
    .returned
      (savedPositions.foldl
        (fun animationTargets e =>
          match findObject r e.1 with
          | some foundObject =>
            animationTargets ++
              [{ object := foundObject
                 startPosition := s.position foundObject.path
                 targetPosition := e.2
                 uuid := e.1 }]
          | none => animationTargets)
        [])

/-- The function `smoothStep(t)`. -/
def smoothStep {α : Type} [Ring α] (t : α) : α := t * t * (3 - 2 * t)

/-- The function `animateTargets(animationTargets, progress, easingFunction)`: the transforms
after the call. Every target built by this module carries an object. -/
def animateTargets {α : Type} [LinearOrderedField α] (s : Transforms α)
    (animationTargets : List (AnimationTarget α)) (progress : α) (easingFunction : α → α) :
    Transforms α :=
  let easedProgress := easingFunction (max 0 (min 1 progress))
  animationTargets.foldl
    (fun s t =>
      s.setPosition t.object (Vector3.lerpVectors t.startPosition t.targetPosition easedProgress))
    s

/-! ## `ModelDisassemblyManager` -/

/-- The fields of a `ModelDisassemblyManager`, with the transforms of the scene it holds. -/
structure ModelDisassemblyManager (α : Type) where
  rootObject : Option Object3D
  scene : Transforms α
  currentLayer : Nat
  isAnimating : Bool
  animationStack : List (JSMap String (Vector3 α))
  layers : List (List Obj)
  originalPositions : JSMap String (Original α)

namespace ModelDisassemblyManager

variable {α : Type}

/-- The method `initialize()` (the name is reserved in Lean). -/
def init (m : ModelDisassemblyManager α) : ModelDisassemblyManager α :=
  let result := initializeModelLayers m.rootObject m.scene
  { m with
    layers := result.layers
    originalPositions := result.originalPositions
    currentLayer := 0
    animationStack := [] }

/-- The constructor: `new ModelDisassemblyManager(rootObject)` in a scene with transforms
`scene`. -/
def new (rootObject : Option Object3D) (scene : Transforms α) : ModelDisassemblyManager α :=
  init
    { rootObject := rootObject
      scene := scene
      currentLayer := 0
      isAnimating := false
      animationStack := []
      layers := []
      originalPositions := [] }

/-- The method `canDisassemble()`. -/
def canDisassemble (m : ModelDisassemblyManager α) : Bool :=
  decide (m.currentLayer < m.layers.length) && !m.isAnimating

/-- The method `canReassemble()`. -/
def canReassemble (m : ModelDisassemblyManager α) : Bool :=
  decide (m.currentLayer > 0) && !m.isAnimating && decide (m.animationStack.length > 0)

/-- The snapshot `layerPositions` built by `layer.forEach(obj => layerPositions.set(..))`. -/
def layerPositions (s : Transforms α) (layer : List Obj) : JSMap String (Vector3 α) :=
  layer.foldl (fun m obj => m.set obj.uuid (s.position obj.path)) []

/-- The method `disassembleNext(distance)`: the manager after the call and the value
returned (`none` is `null`). -/
def disassembleNext [Field α] [DecidableEq α] (T : Three α) (m : ModelDisassemblyManager α)
    (distance : α) : ModelDisassemblyManager α × Option (List (AnimationTarget α)) :=
  if !m.canDisassemble then (m, none)
  else
    match m.layers.get? m.currentLayer with
    | none => (m, none) -- not reached: `canDisassemble` gives `currentLayer < layers.length`
    | some layer =>
      let targets := disassembleLayer T m.scene (some layer) m.rootObject distance
      ({ m with
          animationStack := m.animationStack ++ [layerPositions m.scene layer]
          currentLayer := m.currentLayer + 1 },
        some targets)

/-- The method `reassemblePrevious()`: the manager after the call and how the call ends. -/
def reassemblePrevious (m : ModelDisassemblyManager α) :
    ModelDisassemblyManager α × Completion (Option (List (AnimationTarget α))) :=
  if !m.canReassemble then (m, .returned none)
  else
    match m.animationStack.getLast? with
    | none => (m, .returned none) -- not reached: `canReassemble` gives a non-empty stack
    | some savedPositions =>
      let m1 : ModelDisassemblyManager α :=
        { m with
          animationStack := m.animationStack.dropLast
          currentLayer := m.currentLayer - 1 }
      match reassembleLayer m1.scene savedPositions m1.rootObject with
      | .returned targets => (m1, .returned (some targets))
      | .threw => (m1, .threw)

/-- One round of `this.originalPositions.forEach((original, uuid) => ...)` in `reset()`. -/
def resetStep (r : Object3D) (s : Transforms α) (e : String × Original α) : Transforms α :=
  match findObject r e.1 with
  | some foundObject =>
    ((s.setPosition foundObject e.2.position).setRotation foundObject e.2.rotation).setScale
      foundObject e.2.scale
  | none => s

/-- The method `reset()`: the manager after the call and how the call ends. With a `null`
root and a non-empty `originalPositions` the first round throws before any write. -/
def reset (m : ModelDisassemblyManager α) : ModelDisassemblyManager α × Completion Unit :=
  match m.rootObject with
  | none =>
    if m.originalPositions.isEmpty then
      ({ m with currentLayer := 0, animationStack := [], isAnimating := false }, .returned ())
    else (m, .threw)
  | some r =>
    ({ m with
        scene := m.originalPositions.foldl (resetStep r) m.scene
        currentLayer := 0
        animationStack := []
        isAnimating := false },
      .returned ())

/-- The caller's `animateTargets(targets, progress)` on the scene of the manager, with the
default easing function. -/
def animate [LinearOrderedField α] (m : ModelDisassemblyManager α)
    (targets : List (AnimationTarget α)) (progress : α) : ModelDisassemblyManager α :=
  { m with scene := animateTargets m.scene targets progress smoothStep }

/-- The managers that a program can reach: it constructs one, calls its methods, lets the
animation (or anything else) write transforms, and sets the public flag `isAnimating`.
The index is the scene at the time of the last `initialize()`. -/
inductive Reachable [Field α] [DecidableEq α] (T : Three α) :
    Transforms α → ModelDisassemblyManager α → Prop where
  | new (rootObject : Option Object3D) (scene : Transforms α) :
      Reachable T scene (new rootObject scene)
  | init {s0 : Transforms α} {m : ModelDisassemblyManager α} :
      Reachable T s0 m → Reachable T m.scene (init m)
  | disassembleNext {s0 : Transforms α} {m : ModelDisassemblyManager α} (distance : α) :
      Reachable T s0 m → Reachable T s0 (disassembleNext T m distance).1
  | reassemblePrevious {s0 : Transforms α} {m : ModelDisassemblyManager α} :
      Reachable T s0 m → Reachable T s0 (reassemblePrevious m).1
  | reset {s0 : Transforms α} {m : ModelDisassemblyManager α} :
      Reachable T s0 m → Reachable T s0 (reset m).1
  | writeScene {s0 : Transforms α} {m : ModelDisassemblyManager α} (scene : Transforms α) :
      Reachable T s0 m → Reachable T s0 { m with scene := scene }
  | setAnimating {s0 : Transforms α} {m : ModelDisassemblyManager α} (b : Bool) :
      Reachable T s0 m → Reachable T s0 { m with isAnimating := b }

/-- A call of `disassembleNext(distance)` followed by `animateTargets(targets, 1)` on the
returned targets; `none` when `null` came back (`animateTargets(null, 1)` throws). -/
def disassembleAndAnimate [LinearOrderedField α] (T : Three α) (distance : α)
    (m : ModelDisassemblyManager α) : Option (ModelDisassemblyManager α) :=
  match disassembleNext T m distance with
  | (m1, some targets) => some (m1.animate targets 1)
  | (_, none) => none

/-- A call of `reassemblePrevious()` followed by `animateTargets(targets, 1)` on the returned
targets; `none` when `null` came back or the call threw. -/
def reassembleAndAnimate [LinearOrderedField α] (m : ModelDisassemblyManager α) :
    Option (ModelDisassemblyManager α) :=
  match reassemblePrevious m with
  | (m1, .returned (some targets)) => some (m1.animate targets 1)
  | (_, .returned none) => none
  | (_, .threw) => none

/-- The step `f` made `n` times in a row; `none` as soon as one step fails. -/
def repeatCall {σ : Type} (f : σ → Option σ) : Nat → σ → Option σ
  | 0, s => some s
  | n + 1, s => (f s).bind (repeatCall f n)

end ModelDisassemblyManager

/-! ## The directions of `disassembleLayer` -/

/-- The value of `direction` in the loop over a parent group of `disassembleLayer`, after the
fallbacks and before "Convert world direction to local direction" (source lines 116 to 132). -/
def parentGroupDirection {α : Type} [Field α] [DecidableEq α] (T : Three α) (s : Transforms α)
    (parent : Obj) (children : List Obj) (obj : Obj) : Vector3 α :=
  let parentCenter := T.boxCenter s parent
  let objWorldPos := T.getWorldPosition s obj
  let direction := T.normalize (Vector3.subVectors objWorldPos parentCenter)
  if T.length direction = 0 then
    let direction := T.normalize (s.position obj.path)
    if T.length direction = 0 then radialDirection T (indexOf children obj) children.length
    else direction
  else direction

/-- The vector `rootCenter` of `disassembleLayer`: the mean of the world positions of the
root-level objects. -/
def rootCenter {α : Type} [Field α] (T : Three α) (s : Transforms α) (rootObjects : List Obj) :
    Vector3 α :=
  (rootObjects.foldl (fun (c : Vector3 α) o => c.add (T.getWorldPosition s o))
    (⟨0, 0, 0⟩ : Vector3 α)).divideScalar (rootObjects.length : α)

/-- The value of `direction` in the loop over the root-level objects of `disassembleLayer`,
after the fallback (source lines 162 to 171). -/
def rootGroupDirection {α : Type} [Field α] [DecidableEq α] (T : Three α) (s : Transforms α)
    (rootObjects : List Obj) (obj : Obj) : Vector3 α :=
  let objWorldPos := T.getWorldPosition s obj
  let direction := T.normalize (Vector3.subVectors objWorldPos (rootCenter T s rootObjects))
  if T.length direction = 0 then
    radialDirection T (indexOf rootObjects obj) rootObjects.length
  else direction

/-- The map `parentGroups` of `disassembleLayer` once `layer.forEach` has run. -/
def parentGroupsOf (layer : List Obj) (rootObject : Option Object3D) :
    JSMap String ParentGroup :=
  (layer.foldl (groupStep rootObject) ([], [])).1

/-- The array `rootObjects` of `disassembleLayer` once `layer.forEach` has run. -/
def rootObjectsOf (layer : List Obj) (rootObject : Option Object3D) : List Obj :=
  (layer.foldl (groupStep rootObject) ([], [])).2

/-- The test `obj.parent && obj.parent !== rootObject` negated: the object goes to the
root-level group. -/
def isRootLevel (rootObject : Option Object3D) (obj : Obj) : Bool :=
  match obj.parent with
  | some parent =>
    (match rootObject with
     | some r => parent.same (.root r)
     | none => false)
  | none => true

/-- The key `obj.parent.uuid` under which an object with a parent is grouped. -/
def parentUuid (obj : Obj) : Option String := obj.parent.map Obj.uuid

/-! ## Matrices of three.js -/

/-- The upper left 3x3 block of a `THREE.Matrix4`, row by row. -/
structure Matrix3 (α : Type) where
  m11 : α
  m12 : α
  m13 : α
  m21 : α
  m22 : α
  m23 : α
  m31 : α
  m32 : α
  m33 : α

/-- The block applied to a vector, as `transformDirection` does before it normalizes. -/
def Matrix3.apply {α : Type} [Add α] [Mul α] (m : Matrix3 α) (v : Vector3 α) : Vector3 α :=
  ⟨m.m11 * v.x + m.m12 * v.y + m.m13 * v.z,
   m.m21 * v.x + m.m22 * v.y + m.m23 * v.z,
   m.m31 * v.x + m.m32 * v.y + m.m33 * v.z⟩

/-- The determinant of the block. -/
def Matrix3.det {α : Type} [Add α] [Sub α] [Mul α] (m : Matrix3 α) : α :=
  m.m11 * (m.m22 * m.m33 - m.m23 * m.m32) - m.m12 * (m.m21 * m.m33 - m.m23 * m.m31) +
    m.m13 * (m.m21 * m.m32 - m.m22 * m.m31)

/-- The method `v.transformDirection(m)` of three.js: the upper left block of `m` applied to
`v`, then `normalize()`. -/
def Three.transformDirection {α : Type} [Field α] [DecidableEq α] (T : Three α)
    (v : Vector3 α) (m : Matrix3 α) : Vector3 α :=
  T.normalize (m.apply v)

/-- The routines of `Three` are those of real arithmetic. -/
def Three.IsReal (T : Three ℝ) : Prop :=
  T.sqrt = Real.sqrt ∧ T.cos = Real.cos ∧ T.sin = Real.sin ∧ T.pi = Real.pi

/-- The parent's world matrix is invertible: `transformDirectionInverse` for `parent` is
`transformDirection` with a block of non-zero determinant. -/
def Three.InvertibleAt {α : Type} [Field α] [DecidableEq α] (T : Three α) (s : Transforms α)
    (parent : Obj) : Prop :=
  ∃ M : Matrix3 α, M.det ≠ 0 ∧
    ∀ v, T.transformDirectionInverse s parent v = T.transformDirection v M

/-! ## The tick of `useLayerManager` (components/LayerManager.js) -/

namespace useLayerManager

/-- An element of `animationRef.current.targets`. -/
structure TickTarget (α : Type) where
  object : Obj
  startPosition : Vector3 α
  targetPosition : Vector3 α

/-- The record `animationRef.current`. -/
structure AnimationRef (α : Type) where
  isActive : Bool
  startTime : α
  duration : α
  targets : List (TickTarget α)
  type : String

/-- What `updateAnimation` reads and writes: `animationRef.current`, the state `isAnimating`
and the transforms of the scene. -/
structure State (α : Type) where
  animationRef : AnimationRef α
  isAnimating : Bool
  scene : Transforms α

/-- The closure `smoothStep` of `useLayerManager`. -/
def smoothStep {α : Type} [Ring α] (t : α) : α := t * t * t * (t * (t * 6 - 15) + 10)

/-- The value `progress` of `updateAnimation` when `Date.now()` gives `now`:
`Math.min(elapsed / duration, 1)` with `elapsed = now - startTime`. -/
def tickProgress {α : Type} [LinearOrderedField α] (a : AnimationRef α) (now : α) : α :=
  min ((now - a.startTime) / a.duration) 1

/-- The closure `updateAnimation`, with `now` the value of `Date.now()`. -/
def updateAnimation {α : Type} [LinearOrderedField α] (st : State α) (now : α) : State α :=
  if !st.animationRef.isActive then st
  else
    let progress := tickProgress st.animationRef now
    let easedProgress := smoothStep progress
    let scene := st.animationRef.targets.foldl
      (fun s t =>
        s.setPosition t.object
          (Vector3.lerpVectors t.startPosition t.targetPosition easedProgress))
      st.scene
    if progress ≥ 1 then
      { animationRef := { st.animationRef with isActive := false }
        isAnimating := false
        scene := scene }
    else { st with scene := scene }

/-- The constant `disassembleDistance` of `useLayerManager`. -/
def disassembleDistance {α : Type} [Field α] : α := 2 / 10

/-- The direction set from two values of `Math.random()`: `angle = r1 * Math.PI * 2`,
`inclination = r2 * Math.PI`. -/
def randomDirection {α : Type} [Field α] (T : Three α) (r1 r2 : α) : Vector3 α :=
  let angle := r1 * T.pi * 2
  let inclination := r2 * T.pi
  ⟨T.sin inclination * T.cos angle, T.cos inclination, T.sin inclination * T.sin angle⟩

/-- One round of `children.forEach(obj => ...)` for a parent group in `disassembleNextLayer`.
The values of `Math.random()` are `random 0`, `random 1`, ...; the accumulator holds the
targets pushed so far and the number of values drawn so far. -/
def parentGroupStep {α : Type} [Field α] [DecidableEq α] (T : Three α) (s : Transforms α)
    (random : Nat → α) (parent : Obj) (distance : α) (acc : List (TickTarget α) × Nat)
    (obj : Obj) : List (TickTarget α) × Nat :=
  let parentCenter := T.boxCenter s parent
  let objWorldPos := T.getWorldPosition s obj
  let direction := T.normalize (Vector3.subVectors objWorldPos parentCenter)
  let drawn :=
    if T.length direction = 0 then
      let direction := T.normalize (s.position obj.path)
      if T.length direction = 0 then
        (randomDirection T (random acc.2) (random (acc.2 + 1)), acc.2 + 2)
      else (direction, acc.2)
    else (direction, acc.2)
  let direction := T.transformDirectionInverse s parent drawn.1
  (acc.1 ++
      [{ object := obj
         startPosition := s.position obj.path
         targetPosition := (s.position obj.path).add (direction.multiplyScalar distance) }],
    drawn.2)

/-- The body of `rootObjects.forEach(obj => ...)` in `disassembleNextLayer`. -/
def rootGroupTarget {α : Type} [Field α] [DecidableEq α] (T : Three α) (s : Transforms α)
    (rootObjects : List Obj) (distance : α) (obj : Obj) : TickTarget α :=
  let direction := rootGroupDirection T s rootObjects obj
  { object := obj
    startPosition := s.position obj.path
    targetPosition := (s.position obj.path).add (direction.multiplyScalar distance) }

/-- The array `animationTargets` that `disassembleNextLayer` builds for `layer`, with
`modelRef.current` the root and `Math.random()` giving `random 0`, `random 1`, ... -/
def disassembleNextLayerTargets {α : Type} [Field α] [DecidableEq α] (T : Three α)
    (s : Transforms α) (random : Nat → α) (layer : List Obj) (modelRef : Option Object3D) :
    List (TickTarget α) :=
  let parentGroups := parentGroupsOf layer modelRef
  let rootObjects := rootObjectsOf layer modelRef
  let animationTargets :=
    (parentGroups.foldl
      (fun acc g =>
        g.2.children.foldl (parentGroupStep T s random g.2.parent disassembleDistance) acc)
      (([] : List (TickTarget α)), 0)).1
  if rootObjects.length > 0 then
    animationTargets ++ rootObjects.map (rootGroupTarget T s rootObjects disassembleDistance)
  else animationTargets

end useLayerManager

/-! ## The targets of `useOptimizedLayerManager` (components/OptimizedLayerManager.js) -/

namespace useOptimizedLayerManager

/-- An element of the arrays held by the map `disassemblyTargets`. -/
structure LayerTarget (α : Type) where
  object : Obj
  originalPosition : Vector3 α
  targetPosition : Vector3 α

/-- One round of `children.forEach(obj => ...)` for a parent group in `disassemblyTargets`.
The values of `Math.random()` are `random 0`, `random 1`, ...; the accumulator holds the
targets pushed so far and the number of values drawn so far. -/
def parentGroupStep {α : Type} [Field α] [DecidableEq α] (T : Three α) (s : Transforms α)
    (random : Nat → α) (parent : Obj) (distance : α) (acc : List (LayerTarget α) × Nat)
    (obj : Obj) : List (LayerTarget α) × Nat :=
  let parentCenter := T.boxCenter s parent
  let objWorldPos := T.getWorldPosition s obj
  let direction := T.normalize (Vector3.subVectors objWorldPos parentCenter)
  let drawn :=
    if T.length direction = 0 then
      let direction := T.normalize (s.position obj.path)
      if T.length direction = 0 then
        (useLayerManager.randomDirection T (random acc.2) (random (acc.2 + 1)), acc.2 + 2)
      else (direction, acc.2)
    else (direction, acc.2)
  let direction := T.transformDirectionInverse s parent drawn.1
  (acc.1 ++
      [{ object := obj
         originalPosition := s.position obj.path
         targetPosition := (s.position obj.path).add (direction.multiplyScalar distance) }],
    drawn.2)

/-- The body of `grouping.rootObjects.forEach((obj, index) => ...)` in
`disassemblyTargets`. -/
def rootGroupTarget {α : Type} [Field α] [DecidableEq α] (T : Three α) (s : Transforms α)
    (rootObjects : List Obj) (distance : α) (entry : Nat × Obj) : LayerTarget α :=
  let objWorldPos := T.getWorldPosition s entry.2
  let direction := T.normalize (Vector3.subVectors objWorldPos (rootCenter T s rootObjects))
  let direction :=
    if T.length direction = 0 then radialDirection T (entry.1 : Int) rootObjects.length
    else direction
  { object := entry.2
    originalPosition := s.position entry.2.path
    targetPosition := (s.position entry.2.path).add (direction.multiplyScalar distance) }

/-- One round of `parentGroupings.forEach((grouping, layerIndex) => ...)`: the accumulator
holds the entries set so far, in the order of the layers, and the number of values of
`Math.random()` drawn so far. -/
def layerStep {α : Type} [Field α] [DecidableEq α] (T : Three α) (s : Transforms α)
    (random : Nat → α) (modelRef : Option Object3D) (distance : α)
    (acc : List (List (LayerTarget α)) × Nat) (layer : List Obj) :
    List (List (LayerTarget α)) × Nat :=
  let parentGroups := parentGroupsOf layer modelRef
  let rootObjects := rootObjectsOf layer modelRef
  let grouped :=
    parentGroups.foldl
      (fun a g => g.2.children.foldl (parentGroupStep T s random g.2.parent distance) a)
      (([] : List (LayerTarget α)), acc.2)
  let layerTargets :=
    if rootObjects.length > 0 then
      grouped.1 ++ rootObjects.enum.map (rootGroupTarget T s rootObjects distance)
    else grouped.1
  (acc.1 ++ [layerTargets], grouped.2)

/-- The memoized map `disassemblyTargets` for the layers `layerGroups`, as the list of its
values by layer index; `distance` is the state `disassembleDistance`. -/
def disassemblyTargets {α : Type} [Field α] [DecidableEq α] (T : Three α) (s : Transforms α)
    (random : Nat → α) (layerGroups : List (List Obj)) (modelRef : Option Object3D)
    (distance : α) : List (List (LayerTarget α)) :=
  (layerGroups.foldl (layerStep T s random modelRef distance) ([], 0)).1

end useOptimizedLayerManager

/-! ## Auxiliary definitions and examples -/

/-- The objects that the loop puts into the bucket of depth `d`. -/
def inBucket (R : Obj) (d : Nat) (o : Obj) : Bool :=
  !o.same R && decide (getDepth o R = d) && isLayerMember o

/-- The scene of the layering example: root `R` with children `A`, `B`, which have the
children `A1`, `A2` and `B1`, `B2`. -/
def exampleTree (tA tB tA1 tA2 tB1 tB2 : String) : Object3D :=
  .mk "R" "Group"
    [.mk "A" tA [.mk "A1" tA1 [], .mk "A2" tA2 []],
     .mk "B" tB [.mk "B1" tB1 [], .mk "B2" tB2 []]]

/-- A scene whose only child of the root is a childless node of type `Object3D`. -/
def passThroughTree : Object3D := .mk "R" "Group" [.mk "P" "Object3D" []]

/-- A scene over the rationals in which every object rests at the origin, unrotated and
unscaled. -/
def restScene : Transforms ℚ :=
  ⟨fun _ => ⟨0, 0, 0⟩, fun _ => ⟨0, 0, 0, "XYZ"⟩, fun _ => ⟨1, 1, 1⟩⟩

/-- Stand-ins over the rationals for the routines of `Three`, to run the definitions on
examples: world positions are the local positions, bounding boxes are centred at the origin,
directions are left as they are; `sqrt`, `cos`, `sin` and `pi` are placeholders, not the real
functions. -/
def sampleThree : Three ℚ :=
  { sqrt := fun x => x
    cos := fun _ => 1
    sin := fun _ => 0
    pi := 3
    getWorldPosition := fun s o => s.position o.path
    boxCenter := fun _ _ => ⟨0, 0, 0⟩
    transformDirectionInverse := fun _ _ v => v }

/-- The layering example with groups `A`, `B` and four meshes below them. -/
def familyTree : Object3D := exampleTree "Group" "Group" "Mesh" "Mesh" "Mesh" "Mesh"

/-- The first layer of `familyTree`: the objects `A` and `B`. -/
def familyLayer : List Obj :=
  [.child (.mk "A" "Group" [.mk "A1" "Mesh" [], .mk "A2" "Mesh" []]) 0 (.root familyTree),
   .child (.mk "B" "Group" [.mk "B1" "Mesh" [], .mk "B2" "Mesh" []]) 1 (.root familyTree)]

/-- The world position in a scene without rotation and scaling: the local positions added up
along the chain of parents. -/
def translationWorldPosition {α : Type} [Add α] (s : Transforms α) : Obj → Vector3 α
  | .root _ => s.position []
  | .child n i p => (translationWorldPosition s p).add (s.position (Obj.child n i p).path)

/-- An instance of `Three` for scenes without rotation and scaling: world positions are sums
of local positions, the world matrices are translations (so `transformDirection` by their
inverse only normalizes), and `center` gives the bounding-box centre of each object. -/
def translationThree {α : Type} [Field α] [DecidableEq α] (sqrt cos sin : α → α) (pi : α)
    (center : Obj → Vector3 α) : Three α :=
  { sqrt := sqrt
    cos := cos
    sin := sin
    pi := pi
    getWorldPosition := translationWorldPosition
    boxCenter := fun _ o => center o
    transformDirectionInverse := fun _ _ v =>
      v.divideScalar
        (if sqrt (v.x * v.x + v.y * v.y + v.z * v.z) = 0 then 1
         else sqrt (v.x * v.x + v.y * v.y + v.z * v.z)) }

/-- The block of the identity matrix. -/
def Matrix3.identity {α : Type} [Zero α] [One α] : Matrix3 α := ⟨1, 0, 0, 0, 1, 0, 0, 0, 1⟩

/-- The object `o` is grouped under the key `k`. -/
def inGroup (rootObject : Option Object3D) (k : String) (o : Obj) : Bool :=
  !isRootLevel rootObject o && decide (parentUuid o = some k)

/-- What holds of `parentGroups` and `rootObjects` once `layer.forEach` has gone through the
objects `xs`: the keys are pairwise different, every group holds the objects of `xs` grouped
under its key, in order, `rootObjects` holds the root-level objects of `xs`, in order, every
grouped object has its key in the map, and the `parent` of a group is the parent of one of
its objects. -/
def GroupInv (rootObject : Option Object3D) (acc : JSMap String ParentGroup × List Obj)
    (xs : List Obj) : Prop :=
  (acc.1.map Prod.fst).Nodup ∧
    (∀ e ∈ acc.1, e.2.children = xs.filter (inGroup rootObject e.1)) ∧
    acc.2 = xs.filter (isRootLevel rootObject) ∧
    (∀ o ∈ xs, isRootLevel rootObject o = false → ∃ e ∈ acc.1, parentUuid o = some e.1) ∧
    (∀ e ∈ acc.1, ∃ o ∈ xs, o.parent = some e.2.parent ∧ parentUuid o = some e.1 ∧
      isRootLevel rootObject o = false)

/-- A scene in which every object rests at the origin, unrotated and unscaled. -/
def originScene {α : Type} [Zero α] [One α] : Transforms α :=
  ⟨fun _ => ⟨0, 0, 0⟩, fun _ => ⟨0, 0, 0, "XYZ"⟩, fun _ => ⟨1, 1, 1⟩⟩

/-- The second layer of `familyTree`: the objects `A1`, `A2`, `B1` and `B2`. -/
def familyLeaves : List Obj :=
  [.child (.mk "A1" "Mesh" []) 0 (.child (.mk "A" "Group" [.mk "A1" "Mesh" [], .mk "A2" "Mesh" []])
      0 (.root familyTree)),
   .child (.mk "A2" "Mesh" []) 1 (.child (.mk "A" "Group" [.mk "A1" "Mesh" [], .mk "A2" "Mesh" []])
      0 (.root familyTree)),
   .child (.mk "B1" "Mesh" []) 0 (.child (.mk "B" "Group" [.mk "B1" "Mesh" [], .mk "B2" "Mesh" []])
      1 (.root familyTree)),
   .child (.mk "B2" "Mesh" []) 1 (.child (.mk "B" "Group" [.mk "B1" "Mesh" [], .mk "B2" "Mesh" []])
      1 (.root familyTree))]

/-- A scene in which the objects at depth `d` have the local position `v` and all others rest
at the origin, nothing rotated or scaled. -/
def sceneWithDepthAt {α : Type} [Zero α] [One α] (d : Nat) (v : Vector3 α) : Transforms α :=
  ⟨fun p => if p.length = d then v else ⟨0, 0, 0⟩, fun _ => ⟨0, 0, 0, "XYZ"⟩,
    fun _ => ⟨1, 1, 1⟩⟩

/-- A scene with a group `P` below the root that holds two meshes `X` and `Y`. -/
def pairTree : Object3D :=
  .mk "R" "Group" [.mk "P" "Group" [.mk "X" "Mesh" [], .mk "Y" "Mesh" []]]

/-- The group `P` of `pairTree`. -/
def pairParent : Obj :=
  .child (.mk "P" "Group" [.mk "X" "Mesh" [], .mk "Y" "Mesh" []]) 0 (.root pairTree)

/-- The mesh `X` of `pairTree`. -/
def pairX : Obj := .child (.mk "X" "Mesh" []) 0 pairParent

/-- The mesh `Y` of `pairTree`. -/
def pairY : Obj := .child (.mk "Y" "Mesh" []) 1 pairParent

/-- The only child `P` of the root of `passThroughTree`. -/
def passThroughChild : Obj := .child (.mk "P" "Object3D" []) 0 (.root passThroughTree)

/-- An active animation of `useLayerManager` that started at time 1000 and lasts 500, moving
the mesh `X` of `pairTree` from the origin to `(1, 0, 0)`. -/
def sampleAnimation : useLayerManager.AnimationRef ℚ :=
  { isActive := true
    startTime := 1000
    duration := 500
    targets := [{ object := pairX, startPosition := ⟨0, 0, 0⟩, targetPosition := ⟨1, 0, 0⟩ }]
    type := "disassemble" }

/-- A state of `useLayerManager` in which `sampleAnimation` runs. -/
def sampleTickState : useLayerManager.State ℚ :=
  { animationRef := sampleAnimation, isAnimating := true, scene := restScene }

/-- A call of one of the commands of a `ModelDisassemblyManager`. -/
inductive Call (α : Type) where
  | disassembleNext (distance : α)
  | reassemblePrevious
  | reset

/-- How a command ends: with the array of targets or the `null` it returns, with the
`undefined` of `reset()`, or with an exception. -/
inductive Outcome (α : Type) where
  | value (v : Option (List (AnimationTarget α)))
  | undefined
  | threw

/-- One command called on a manager: the manager after the call and how the call ends. -/
def ModelDisassemblyManager.call {α : Type} [Field α] [DecidableEq α] (T : Three α)
    (m : ModelDisassemblyManager α) : Call α → ModelDisassemblyManager α × Outcome α
  | .disassembleNext distance =>
    ((m.disassembleNext T distance).1, .value (m.disassembleNext T distance).2)
  | .reassemblePrevious =>
    match m.reassemblePrevious with
    | (m1, .returned v) => (m1, .value v)
    | (m1, .threw) => (m1, .threw)
  | .reset =>
    match m.reset with
    | (m1, .returned _) => (m1, .undefined)
    | (m1, .threw) => (m1, .threw)

/-- The commands of a list called one after the other (a caller that catches exceptions):
the manager at the end and how each call ended. -/
def ModelDisassemblyManager.callAll {α : Type} [Field α] [DecidableEq α] (T : Three α) :
    ModelDisassemblyManager α → List (Call α) → ModelDisassemblyManager α × List (Outcome α)
  | m, [] => (m, [])
  | m, c :: cs =>
    ((callAll T (m.call T c).1 cs).1, (m.call T c).2 :: (callAll T (m.call T c).1 cs).2)

/-- The outcome of a command that has no effect: `null` for `disassembleNext` and
`reassemblePrevious`, `undefined` for `reset`. -/
def Call.idle {α : Type} : Call α → Outcome α
  | .disassembleNext _ => .value none
  | .reassemblePrevious => .value none
  | .reset => .undefined

/-- A target that moves the mesh `X` of `pairTree` from the origin to `(1, 0, 0)`. -/
def sampleTarget : AnimationTarget ℚ :=
  { object := pairX, startPosition := ⟨0, 0, 0⟩, targetPosition := ⟨1, 0, 0⟩, uuid := "X" }

/-- A scene in which the first child of the root has the local position `v` and all other
objects rest at the origin, nothing rotated or scaled. -/
def sceneWithFirstAt {α : Type} [Zero α] [One α] (v : Vector3 α) : Transforms α :=
  ⟨fun p => if p = [0] then v else ⟨0, 0, 0⟩, fun _ => ⟨0, 0, 0, "XYZ"⟩, fun _ => ⟨1, 1, 1⟩⟩

/-! ## Facts about the traversal -/

theorem getDepthLoop_root (r : Object3D) (o : Obj) (d : Nat) :
    getDepthLoop (.root r) o d = d + o.path.length := by
  induction o generalizing d with
  | root n => simp [getDepthLoop, Obj.path]
  | child n i p ih =>
    have hs : (Obj.child n i p).same (.root r) = false := by simp [Obj.same, Obj.path]
    simp only [getDepthLoop, hs, Bool.false_eq_true, if_false, ih, Obj.path, List.length_cons]
    omega

theorem getDepth_root (r : Object3D) (o : Obj) : getDepth o (.root r) = o.path.length := by
  simp [getDepth, getDepthLoop_root]

theorem same_root_iff (r : Object3D) (o : Obj) : o.same (.root r) = true ↔ o.path = [] := by
  simp [Obj.same, Obj.path]

mutual
theorem collectObjects_parent (node : Object3D) (obj : Obj) (h : obj.node = node) :
    ∀ o ∈ collectObjects node obj, o = obj ∨
      ∃ n j p, o = Obj.child n j p ∧ 0 < p.numChildren ∧ p ∈ collectObjects node obj := by
  cases node with
  | mk u t cs =>
    intro o ho
    rw [collectObjects] at ho ⊢
    rcases List.mem_cons.1 ho with rfl | ho
    · exact Or.inl rfl
    · right
      have hpos : 0 < obj.numChildren := by
        cases cs with
        | nil => simp [collectChildren] at ho
        | cons c rest => simp [Obj.numChildren, h, Object3D.children]
      obtain ⟨n, j, p, rfl, hp, hmem⟩ := collectChildren_parent cs obj 0 hpos o ho
      refine ⟨n, j, p, rfl, hp, ?_⟩
      rcases hmem with rfl | hmem
      · exact List.mem_cons_self _ _
      · exact List.mem_cons_of_mem _ hmem
theorem collectChildren_parent (cs : List Object3D) (parent : Obj) (i : Nat)
    (h : 0 < parent.numChildren) :
    ∀ o ∈ collectChildren cs parent i,
      ∃ n j p, o = Obj.child n j p ∧ 0 < p.numChildren ∧
        (p = parent ∨ p ∈ collectChildren cs parent i) := by
  cases cs with
  | nil => intro o ho; simp [collectChildren] at ho
  | cons c rest =>
    intro o ho
    rw [collectChildren] at ho ⊢
    rcases List.mem_append.1 ho with ho | ho
    · rcases collectObjects_parent c (.child c i parent) rfl o ho with rfl | ⟨n, j, p, rfl, hp, hm⟩
      · exact ⟨c, i, parent, rfl, h, Or.inl rfl⟩
      · exact ⟨n, j, p, rfl, hp, Or.inr (List.mem_append_left _ hm)⟩
    · obtain ⟨n, j, p, rfl, hp, hm⟩ := collectChildren_parent rest parent (i + 1) h o ho
      refine ⟨n, j, p, rfl, hp, ?_⟩
      rcases hm with rfl | hm
      · exact Or.inl rfl
      · exact Or.inr (List.mem_append_right _ hm)
end

/-- Every object of the traversal that is not the root has its parent in the traversal, and
that parent has children. -/
theorem traverse_parent (r : Object3D) (o : Obj) (ho : o ∈ traverse r) :
    o = Obj.root r ∨ ∃ n j p, o = Obj.child n j p ∧ 0 < p.numChildren ∧ p ∈ traverse r :=
  collectObjects_parent r (.root r) rfl o ho

/-- An object of the traversal at depth more than `d` has an ancestor at depth `d`, which
is in the traversal and has children. -/
theorem traverse_ancestor (r : Object3D) (o : Obj) (ho : o ∈ traverse r) (d : Nat)
    (hlt : d < o.path.length) :
    ∃ a ∈ traverse r, a.path.length = d ∧ 0 < a.numChildren := by
  induction o with
  | root n => simp [Obj.path] at hlt
  | child n i p ih =>
    rcases traverse_parent r _ ho with h | ⟨n', j, p', heq, hp, hm⟩
    · cases h
    · cases heq
      simp only [Obj.path, List.length_cons] at hlt
      by_cases hdp : d = p.path.length
      · exact ⟨p, hm, hdp.symm, hp⟩
      · exact ih hm (by omega)

/-! ## Arrays with holes and the loop that fills `layers` -/

theorem sparseGet_sparseSet {τ : Type} (a : List (Option τ)) (i j : Nat) (v : τ) :
    sparseGet (sparseSet a i v) j = if j = i then some v else sparseGet a j := by
  unfold sparseGet sparseSet
  by_cases hi : i < a.length
  · simp only [hi, if_true, List.get?_eq_getElem?, List.getElem?_set]
    by_cases hji : j = i
    · subst hji; simp [hi]
    · have : ¬ i = j := fun h => hji h.symm
      simp [hji, this]
  · simp only [hi, if_false, List.get?_eq_getElem?]
    by_cases hji : j = i
    · subst hji
      have hlen : (a ++ List.replicate (j - a.length) none).length = j := by
        simp; omega
      rw [List.getElem?_append_right (by omega)]
      simp [hlen]
    · simp only [hji, if_false]
      by_cases hj : j < a.length
      · rw [List.append_assoc, List.getElem?_append_left hj]
      · have h1 : a[j]? = none := List.getElem?_eq_none (by omega)
        rw [h1]
        by_cases hj2 : j < i
        · rw [List.getElem?_append_left (by simp; omega),
            List.getElem?_append_right (by omega), List.getElem?_replicate]
          have : j - a.length < i - a.length := by omega
          simp [this]
        · rw [List.getElem?_eq_none (by simp; omega)]

theorem length_sparseSet {τ : Type} (a : List (Option τ)) (i : Nat) (v : τ) :
    (sparseSet a i v).length = max a.length (i + 1) := by
  unfold sparseSet
  by_cases hi : i < a.length
  · simp [hi]; omega
  · simp [hi]; omega

theorem sparseGet_lt {τ : Type} (a : List (Option τ)) (i : Nat) (v : τ)
    (h : sparseGet a i = some v) : i < a.length := by
  by_contra hlt
  have : a[i]? = none := List.getElem?_eq_none (by omega)
  simp [sparseGet, this] at h

/-- The test by which `layerStep` puts `o` into the bucket of depth `d`. -/
theorem layerStep_get (R : Obj) (S : List (Option (List Obj))) (o : Obj) (d : Nat) :
    (sparseGet (layerStep R S o) d).getD [] =
      (sparseGet S d).getD [] ++
        (if o.same R = false ∧ getDepth o R = d ∧ isLayerMember o = true then [o] else []) := by
  unfold layerStep
  by_cases hs : o.same R = true
  · simp [hs]
  · simp only [hs, Bool.false_eq_true, if_false]
    have hs' : o.same R = false := by simpa using hs
    by_cases hm : isLayerMember o = true
    · simp only [hm, if_true, hs', true_and, and_true]
      cases hg : sparseGet S (getDepth o R) with
      | none =>
        simp only [Option.isNone_none, if_true, pushAt, sparseGet_sparseSet]
        by_cases hd : d = getDepth o R
        · subst hd; simp [hg]
        · have : ¬ getDepth o R = d := fun h => hd h.symm
          simp [hd, this]
      | some l =>
        simp only [Option.isNone_some, Bool.false_eq_true, if_false, pushAt, hg,
          sparseGet_sparseSet]
        by_cases hd : d = getDepth o R
        · subst hd; simp [hg]
        · have : ¬ getDepth o R = d := fun h => hd h.symm
          simp [hd, this]
    · simp only [hm, if_false, and_false, List.append_nil]
      cases hg : sparseGet S (getDepth o R) with
      | none =>
        simp only [Option.isNone_none, if_true]
        by_cases hd : d = getDepth o R
        · subst hd; simp [hg, sparseGet_sparseSet]
        · simp [hd, sparseGet_sparseSet]
      | some l => simp

theorem layerStep_length (R : Obj) (S : List (Option (List Obj))) (o : Obj) :
    (layerStep R S o).length =
      if o.same R = true then S.length else max S.length (getDepth o R + 1) := by
  unfold layerStep
  by_cases hs : o.same R = true
  · simp [hs]
  · simp only [hs, Bool.false_eq_true, if_false]
    have key : ∀ S' : List (Option (List Obj)),
        (sparseGet S' (getDepth o R)).isSome = true →
        (if isLayerMember o = true then pushAt S' (getDepth o R) o else S').length =
          S'.length := by
      intro S' h
      split
      · unfold pushAt
        cases hg : sparseGet S' (getDepth o R) with
        | none => simp [hg] at h
        | some l =>
          have := sparseGet_lt S' _ _ hg
          simp only [length_sparseSet]; omega
      · rfl
    cases hg : sparseGet S (getDepth o R) with
    | none =>
      simp only [Option.isNone_none, if_true]
      rw [key _ (by simp [sparseGet_sparseSet]), length_sparseSet]
    | some l =>
      simp only [Option.isNone_some, Bool.false_eq_true, if_false]
      rw [key _ (by simp [hg])]
      have := sparseGet_lt S _ _ hg
      omega

theorem inBucket_iff (R : Obj) (d : Nat) (o : Obj) :
    inBucket R d o = true ↔ o.same R = false ∧ getDepth o R = d ∧ isLayerMember o = true := by
  simp [inBucket, and_assoc]

theorem foldl_layerStep_get (R : Obj) (xs : List Obj) (S : List (Option (List Obj)))
    (d : Nat) :
    (sparseGet (xs.foldl (layerStep R) S) d).getD [] =
      (sparseGet S d).getD [] ++ xs.filter (inBucket R d) := by
  induction xs generalizing S with
  | nil => simp
  | cons x xs ih =>
    rw [List.foldl_cons, ih, layerStep_get, List.append_assoc]
    congr 1
    by_cases h : inBucket R d x = true
    · rw [List.filter_cons_of_pos h, if_pos ((inBucket_iff R d x).1 h)]; rfl
    · rw [List.filter_cons_of_neg h, if_neg (fun hh => h ((inBucket_iff R d x).2 hh))]; rfl

theorem foldl_layerStep_length (R : Obj) (xs : List Obj) (S : List (Option (List Obj))) :
    S.length ≤ (xs.foldl (layerStep R) S).length ∧
      (∀ o ∈ xs, o.same R = false → getDepth o R < (xs.foldl (layerStep R) S).length) ∧
      ((xs.foldl (layerStep R) S).length = S.length ∨
        ∃ o ∈ xs, o.same R = false ∧ (xs.foldl (layerStep R) S).length = getDepth o R + 1) := by
  induction xs generalizing S with
  | nil => simp
  | cons x xs ih =>
    rw [List.foldl_cons]
    obtain ⟨h1, h2, h3⟩ := ih (layerStep R S x)
    have hlen := layerStep_length R S x
    refine ⟨?_, ?_, ?_⟩
    · split at hlen <;> omega
    · intro o ho hs
      rcases List.mem_cons.1 ho with rfl | ho
      · simp only [hs, Bool.false_eq_true, if_false] at hlen; omega
      · exact h2 o ho hs
    · rcases h3 with h3 | ⟨o, ho, hs, h3⟩
      · by_cases hx : x.same R = true
        · left; simp only [hx, if_true] at hlen; omega
        · simp only [hx, Bool.false_eq_true, if_false] at hlen
          by_cases hle : getDepth x R + 1 ≤ S.length
          · left; omega
          · right
            exact ⟨x, List.mem_cons_self _ _, by simpa using hx, by omega⟩
      · exact Or.inr ⟨o, List.mem_cons_of_mem _ ho, hs, h3⟩

theorem filterMap_keepLayer (S : List (Option (List Obj))) :
    S.filterMap keepLayer =
      ((List.range S.length).map (fun d => (sparseGet S d).getD [])).filter
        (fun l => decide (0 < l.length)) := by
  have h1 : S.filterMap keepLayer =
      (S.map (fun x => x.getD [])).filter (fun l => decide (0 < l.length)) := by
    induction S with
    | nil => rfl
    | cons x S ih =>
      cases x with
      | none => simp [keepLayer, ih]
      | some l =>
        by_cases hl : 0 < l.length
        · simp [keepLayer, hl, ih]
        · simp [keepLayer, hl, ih]
  have h2 : S.map (fun x => x.getD []) =
      (List.range S.length).map (fun d => (sparseGet S d).getD []) := by
    apply List.ext_getElem
    · simp
    · intro n hn1 hn2
      have hn : n < S.length := by simpa using hn1
      simp [sparseGet, List.getElem?_eq_getElem hn]
  rw [h1, h2]

/-- The layers of `initializeModelLayers`: the non-empty ones among the buckets, by depth, of
the objects of the traversal. -/
theorem layers_eq {α : Type} (r : Object3D) (s : Transforms α) :
    (initializeModelLayers (some r) s).layers =
      ((List.range ((traverse r).foldl (layerStep (.root r)) []).length).map
          (fun d => (traverse r).filter (inBucket (.root r) d))).filter
        (fun l => decide (0 < l.length)) := by
  simp only [initializeModelLayers, filterMap_keepLayer, traverse]
  congr 2
  funext d
  rw [foldl_layerStep_get]
  simp [sparseGet]

/-! ## The layers of `initializeModelLayers` -/

/-- Number of depth buckets that the loop of `initializeModelLayers` creates. -/
theorem bucketCount_spec (r : Object3D) :
    (∀ o ∈ traverse r, o.same (.root r) = false →
        getDepth o (.root r) < ((traverse r).foldl (layerStep (.root r)) []).length) ∧
      (((traverse r).foldl (layerStep (.root r)) []).length = 0 ∨
        ∃ o ∈ traverse r, o.same (.root r) = false ∧
          ((traverse r).foldl (layerStep (.root r)) []).length = getDepth o (.root r) + 1) := by
  obtain ⟨_, h2, h3⟩ := foldl_layerStep_length (.root r) (traverse r) []
  exact ⟨h2, by simpa using h3⟩

theorem mem_layers_iff {α : Type} (r : Object3D) (s : Transforms α) (o : Obj) :
    (∃ l ∈ (initializeModelLayers (some r) s).layers, o ∈ l) ↔
      o ∈ traverse r ∧ o.same (.root r) = false ∧ isLayerMember o = true := by
  rw [layers_eq]
  constructor
  · rintro ⟨l, hl, ho⟩
    obtain ⟨hl1, _⟩ := List.mem_filter.1 hl
    obtain ⟨d, _, rfl⟩ := List.mem_map.1 hl1
    obtain ⟨hmem, hb⟩ := List.mem_filter.1 ho
    obtain ⟨h1, _, h3⟩ := (inBucket_iff _ _ _).1 hb
    exact ⟨hmem, h1, h3⟩
  · rintro ⟨hmem, hs, hm⟩
    have hin : o ∈ (traverse r).filter (inBucket (.root r) (getDepth o (.root r))) :=
      List.mem_filter.2 ⟨hmem, (inBucket_iff _ _ _).2 ⟨hs, rfl, hm⟩⟩
    refine ⟨_, List.mem_filter.2 ⟨List.mem_map.2
      ⟨getDepth o (.root r), List.mem_range.2 ((bucketCount_spec r).1 o hmem hs), rfl⟩, ?_⟩, hin⟩
    simpa using List.length_pos_of_mem hin

/-- Every layer is a sublist of the traversal. -/
theorem layer_sublist_traverse {α : Type} (r : Object3D) (s : Transforms α) :
    ∀ l ∈ (initializeModelLayers (some r) s).layers, l.Sublist (traverse r) := by
  intro l hl
  rw [layers_eq] at hl
  obtain ⟨hl1, _⟩ := List.mem_filter.1 hl
  obtain ⟨d, _, rfl⟩ := List.mem_map.1 hl1
  exact List.filter_sublist _

theorem filter_prefix_of_nonempty {τ : Type} (L : List (List τ))
    (h : ∀ j (hj : j + 1 < L.length), L.get ⟨j, by omega⟩ ≠ []) :
    L.filter (fun l => decide (0 < l.length)) <+: L := by
  induction L with
  | nil => simp
  | cons l rest ih =>
    cases rest with
    | nil =>
      by_cases hl : 0 < l.length
      · simp [hl]
      · simp [hl]
    | cons l2 rest2 =>
      have hl : 0 < l.length := by
        have := h 0 (by simp)
        exact List.length_pos.2 this
      rw [List.filter_cons_of_pos (by simpa using hl)]
      apply (List.prefix_cons_inj l).2
      apply ih
      intro j hj
      have := h (j + 1) (by simp at hj ⊢; omega)
      simpa using this

theorem bucket_zero_empty (r : Object3D) :
    (traverse r).filter (inBucket (.root r) 0) = [] := by
  apply List.filter_eq_nil_iff.2
  intro o _ hb
  obtain ⟨h1, h2, _⟩ := (inBucket_iff _ _ _).1 hb
  rw [getDepth_root] at h2
  have : o.path = [] := List.length_eq_zero.1 h2
  rw [(same_root_iff r o).2 this] at h1
  cases h1

/-- The layer at index `i` is the bucket of depth `i + 1`. -/
theorem layers_get {α : Type} (r : Object3D) (s : Transforms α) (i : Nat) (l : List Obj)
    (h : (initializeModelLayers (some r) s).layers.get? i = some l) :
    l = (traverse r).filter (inBucket (.root r) (i + 1)) ∧ l ≠ [] := by
  have hne : l ≠ [] := by
    have hmem := List.get?_mem h
    rw [layers_eq] at hmem
    have := (List.mem_filter.1 hmem).2
    exact List.length_pos.1 (by simpa using this)
  refine ⟨?_, hne⟩
  rw [layers_eq] at h
  obtain ⟨hlt, hN⟩ := bucketCount_spec r
  generalize ((traverse r).foldl (layerStep (.root r)) []).length = N at h hlt hN
  cases N with
  | zero => simp at h
  | succ N' =>
    rw [List.range_succ_eq_map, List.map_cons, List.map_map] at h
    rw [List.filter_cons_of_neg (by simp [bucket_zero_empty])] at h
    have hpre := filter_prefix_of_nonempty
      ((List.range N').map ((fun d => (traverse r).filter (inBucket (.root r) d)) ∘ Nat.succ))
      (by
        intro j hj
        simp only [List.length_map, List.length_range] at hj
        simp only [List.get_eq_getElem, List.getElem_map, List.getElem_range,
          Function.comp_apply]
        rcases hN with hN | ⟨o, ho, hs, hN⟩
        · omega
        · obtain ⟨a, ha, hlen, hch⟩ := traverse_ancestor r o ho (j + 1)
            (by rw [getDepth_root] at hN; omega)
          have hin : a ∈ (traverse r).filter (inBucket (.root r) (j + 1)) := by
            refine List.mem_filter.2 ⟨ha, (inBucket_iff _ _ _).2 ⟨?_, ?_, ?_⟩⟩
            · cases hsame : a.same (.root r) with
              | false => rfl
              | true =>
                have := (same_root_iff r a).1 hsame
                rw [this] at hlen
                simp at hlen
            · rw [getDepth_root]; exact hlen
            · simp [isLayerMember, hch]
          exact List.ne_nil_of_mem hin)
    obtain ⟨t, ht⟩ := hpre
    have hi : i < (List.filter (fun l => decide (0 < l.length))
        ((List.range N').map
          ((fun d => (traverse r).filter (inBucket (.root r) d)) ∘ Nat.succ))).length := by
      by_contra hcon
      rw [List.get?_eq_getElem?, List.getElem?_eq_none (by omega)] at h
      cases h
    have h2 := congrArg (fun L => L[i]?) ht
    simp only at h2
    rw [List.getElem?_append_left hi] at h2
    rw [List.get?_eq_getElem?, h2] at h
    have hiN : i < N' := by
      by_contra hcon
      rw [List.getElem?_eq_none (by simp; omega)] at h
      cases h
    simp [List.getElem?_map, List.getElem?_range hiN] at h
    exact h.symm

/-- C4 (layer coverage): with unique ids, every object of the tree other than the root that
passes the inclusion test occurs exactly once in all the layers together; no id occurs twice;
every member of a layer is an object of the tree and is not the root. -/
theorem layer_coverage {α : Type} (r : Object3D) (s : Transforms α)
    (hu : ((traverse r).map Obj.uuid).Nodup) :
    (∀ o ∈ traverse r, o.same (.root r) = false → isLayerMember o = true →
        ((initializeModelLayers (some r) s).layers.flatten.map Obj.uuid).count o.uuid = 1) ∧
      ((initializeModelLayers (some r) s).layers.flatten.map Obj.uuid).Nodup ∧
      (∀ l ∈ (initializeModelLayers (some r) s).layers, ∀ o ∈ l,
        o ∈ traverse r ∧ o.same (.root r) = false ∧ r.uuid ≠ o.uuid) := by
  have hnd : ((initializeModelLayers (some r) s).layers.flatten.map Obj.uuid).Nodup := by
    rw [List.map_flatten, List.nodup_flatten]
    constructor
    · intro l hl
      obtain ⟨l', hl', rfl⟩ := List.mem_map.1 hl
      exact hu.sublist ((layer_sublist_traverse r s l' hl').map _)
    · rw [layers_eq, List.pairwise_map]
      apply List.Pairwise.sublist (List.filter_sublist _)
      rw [List.pairwise_map]
      apply (List.nodup_range _).imp
      intro d d' hne u hu1 hu2
      obtain ⟨o, ho, rfl⟩ := List.mem_map.1 hu1
      obtain ⟨o', ho', heq⟩ := List.mem_map.1 hu2
      obtain ⟨hm, hb⟩ := List.mem_filter.1 ho
      obtain ⟨hm', hb'⟩ := List.mem_filter.1 ho'
      have : o' = o := List.inj_on_of_nodup_map hu hm' hm heq
      subst this
      exact hne (((inBucket_iff _ _ _).1 hb).2.1.symm.trans ((inBucket_iff _ _ _).1 hb').2.1)
  refine ⟨?_, hnd, ?_⟩
  · intro o ho hs hm
    obtain ⟨l, hl, hol⟩ := (mem_layers_iff r s o).2 ⟨ho, hs, hm⟩
    exact List.count_eq_one_of_mem hnd
      (List.mem_map.2 ⟨o, List.mem_flatten.2 ⟨l, hl, hol⟩, rfl⟩)
  · intro l hl o ho
    obtain ⟨h1, h2, _⟩ := (mem_layers_iff r s o).1 ⟨l, hl, ho⟩
    refine ⟨h1, h2, ?_⟩
    intro heq
    have hroot : Obj.root r ∈ traverse r := by
      cases r with
      | mk u t cs => simp [traverse, collectObjects]
    have : Obj.root r = o := List.inj_on_of_nodup_map hu hroot h1 heq
    subst this
    simp [Obj.same] at h2

/-- C4 at the example tree `familyTree`. -/
theorem layer_coverage_witness :
    ((traverse familyTree).map Obj.uuid).Nodup ∧
      ((∀ o ∈ traverse familyTree, o.same (.root familyTree) = false →
          isLayerMember o = true →
          ((initializeModelLayers (some familyTree) restScene).layers.flatten.map
            Obj.uuid).count o.uuid = 1) ∧
        ((initializeModelLayers (some familyTree) restScene).layers.flatten.map
          Obj.uuid).Nodup ∧
        (∀ l ∈ (initializeModelLayers (some familyTree) restScene).layers, ∀ o ∈ l,
          o ∈ traverse familyTree ∧ o.same (.root familyTree) = false ∧
            familyTree.uuid ≠ o.uuid)) :=
  ⟨by decide, layer_coverage familyTree restScene (by decide)⟩

/-- C5 (layer shape): the layer at index `i` is not empty and holds only objects whose depth,
the number of parent hops up to the root, is `i + 1`. -/
theorem layer_shape {α : Type} (r : Object3D) (s : Transforms α) (i : Nat) (l : List Obj)
    (h : (initializeModelLayers (some r) s).layers.get? i = some l) :
    l ≠ [] ∧ ∀ o ∈ l, getDepth o (.root r) = i + 1 ∧ o.path.length = i + 1 := by
  obtain ⟨hl, hne⟩ := layers_get r s i l h
  refine ⟨hne, ?_⟩
  intro o ho
  rw [hl] at ho
  have hd := ((inBucket_iff _ _ _).1 (List.mem_filter.1 ho).2).2.1
  exact ⟨hd, by rw [← getDepth_root r o]; exact hd⟩

/-! ## Maps, searches and writes -/

theorem JSMap.set_of_not_mem {κ ν : Type} [DecidableEq κ] (m : JSMap κ ν) (k : κ) (v : ν)
    (h : k ∉ m.map Prod.fst) : JSMap.set m k v = m ++ [(k, v)] := by
  induction m with
  | nil => rfl
  | cons e m ih =>
    simp only [List.map_cons, List.mem_cons, not_or] at h
    have hne : ¬ e.1 = k := fun hh => h.1 hh.symm
    simp [JSMap.set, hne, ih h.2]

/-- A map filled by `set` from a list with pairwise different keys lists one entry per
element, in order. -/
theorem foldl_set_eq_map {κ ν τ : Type} [DecidableEq κ] (key : τ → κ) (val : τ → ν)
    (xs : List τ) (acc : JSMap κ ν) (h : (acc.map Prod.fst ++ xs.map key).Nodup) :
    xs.foldl (fun m x => JSMap.set m (key x) (val x)) acc =
      acc ++ xs.map (fun x => (key x, val x)) := by
  induction xs generalizing acc with
  | nil => simp
  | cons x xs ih =>
    have hx : key x ∉ acc.map Prod.fst := by
      intro hmem
      have := (List.nodup_append.1 h).2.2
      exact this hmem (by simp)
    rw [List.foldl_cons, JSMap.set_of_not_mem _ _ _ hx, ih]
    · simp
    · simpa [List.append_assoc] using h

theorem layerPositions_eq_map {α : Type} (s : Transforms α) (layer : List Obj)
    (h : (layer.map Obj.uuid).Nodup) :
    ModelDisassemblyManager.layerPositions s layer =
      layer.map (fun o => (o.uuid, s.position o.path)) := by
  have := foldl_set_eq_map Obj.uuid (fun o => s.position o.path) layer [] (by simpa using h)
  simpa [ModelDisassemblyManager.layerPositions] using this

theorem foldl_find_of_not_mem (xs : List Obj) (u : String) (acc : Option Obj)
    (h : u ∉ xs.map Obj.uuid) :
    xs.foldl (fun found obj => if obj.uuid = u then some obj else found) acc = acc := by
  induction xs generalizing acc with
  | nil => rfl
  | cons x xs ih =>
    simp only [List.map_cons, List.mem_cons, not_or] at h
    have hne : ¬ x.uuid = u := fun hh => h.1 hh.symm
    simp [hne, ih _ h.2]

theorem foldl_find_of_mem (xs : List Obj) (o : Obj) (acc : Option Obj)
    (hu : (xs.map Obj.uuid).Nodup) (ho : o ∈ xs) :
    xs.foldl (fun found obj => if obj.uuid = o.uuid then some obj else found) acc = some o := by
  induction xs generalizing acc with
  | nil => cases ho
  | cons x xs ih =>
    rw [List.map_cons, List.nodup_cons] at hu
    rw [List.foldl_cons]
    rcases List.mem_cons.1 ho with rfl | ho
    · simp only [if_true]
      exact foldl_find_of_not_mem xs _ _ hu.1
    · exact ih _ hu.2 ho

/-- With unique ids the search by uuid finds the object itself. -/
theorem findObject_of_mem (r : Object3D) (o : Obj) (hu : ((traverse r).map Obj.uuid).Nodup)
    (ho : o ∈ traverse r) : findObject r o.uuid = some o :=
  foldl_find_of_mem _ o none hu ho

theorem foldl_setPosition_other {α τ : Type} (obj : τ → Obj) (val : τ → Vector3 α)
    (xs : List τ) (s : Transforms α) :
    (xs.foldl (fun s t => s.setPosition (obj t) (val t)) s).rotation = s.rotation ∧
      (xs.foldl (fun s t => s.setPosition (obj t) (val t)) s).scale = s.scale ∧
      ∀ p, p ∉ xs.map (fun t => (obj t).path) →
        (xs.foldl (fun s t => s.setPosition (obj t) (val t)) s).position p = s.position p := by
  induction xs generalizing s with
  | nil => simp
  | cons x xs ih =>
    obtain ⟨h1, h2, h3⟩ := ih (s.setPosition (obj x) (val x))
    refine ⟨by rw [List.foldl_cons, h1]; rfl, by rw [List.foldl_cons, h2]; rfl, ?_⟩
    intro p hp
    simp only [List.map_cons, List.mem_cons, not_or] at hp
    rw [List.foldl_cons, h3 p hp.2]
    simp [Transforms.setPosition, Function.update, hp.1]

/-- Writing to every object of a list the value that `g` gives for it. -/
theorem foldl_setPosition_same {α τ : Type} (obj : τ → Obj) (g : List Nat → Vector3 α)
    (xs : List τ) (s : Transforms α) (p : List Nat) :
    (xs.foldl (fun s t => s.setPosition (obj t) (g (obj t).path)) s).position p =
      if p ∈ xs.map (fun t => (obj t).path) then g p else s.position p := by
  induction xs generalizing s with
  | nil => simp
  | cons x xs ih =>
    rw [List.foldl_cons, ih]
    by_cases h1 : p ∈ xs.map (fun t => (obj t).path)
    · simp [h1]
    · by_cases h2 : p = (obj x).path
      · subst h2; simp [h1, Transforms.setPosition]
      · simp [h1, h2, Transforms.setPosition, Function.update]

theorem smoothStep_one {α : Type} [LinearOrderedField α] : smoothStep (1 : α) = 1 := by
  simp only [smoothStep]; norm_num

/-- At progress 1 `animateTargets` writes every target position. -/
theorem animateTargets_one {α : Type} [LinearOrderedField α] (s : Transforms α)
    (targets : List (AnimationTarget α)) :
    animateTargets s targets 1 smoothStep =
      targets.foldl (fun s t => s.setPosition t.object t.targetPosition) s := by
  have h : ∀ a b : Vector3 α, Vector3.lerpVectors a b 1 = b := by
    intro a b
    cases a; cases b
    simp [Vector3.lerpVectors]
  simp [animateTargets, smoothStep_one, h]

/-! ## The targets of `disassembleLayer` -/

theorem JSMap.mem_set {κ ν : Type} [DecidableEq κ] (m : JSMap κ ν) (k : κ) (v : ν)
    (e : κ × ν) (h : e ∈ JSMap.set m k v) : e ∈ m ∨ e = (k, v) := by
  induction m with
  | nil => simpa [JSMap.set] using h
  | cons x m ih =>
    by_cases hx : x.1 = k
    · simp only [JSMap.set, hx, if_true, List.mem_cons] at h
      rcases h with h | h
      · exact Or.inr h
      · exact Or.inl (List.mem_cons_of_mem _ h)
    · simp only [JSMap.set, hx, if_false, List.mem_cons] at h
      rcases h with h | h
      · exact Or.inl (h ▸ List.mem_cons_self _ _)
      · rcases ih h with h | h
        · exact Or.inl (List.mem_cons_of_mem _ h)
        · exact Or.inr h

theorem JSMap.mem_modify {κ ν : Type} [DecidableEq κ] (m : JSMap κ ν) (k : κ) (f : ν → ν)
    (e : κ × ν) (h : e ∈ JSMap.modify m k f) : e ∈ m ∨ ∃ x ∈ m, e = (x.1, f x.2) := by
  induction m with
  | nil => simp [JSMap.modify] at h
  | cons x m ih =>
    by_cases hx : x.1 = k
    · simp only [JSMap.modify, hx, if_true, List.mem_cons] at h
      rcases h with h | h
      · exact Or.inr ⟨x, List.mem_cons_self _ _, by rw [h, hx]⟩
      · exact Or.inl (List.mem_cons_of_mem _ h)
    · simp only [JSMap.modify, hx, if_false, List.mem_cons] at h
      rcases h with h | h
      · exact Or.inl (h ▸ List.mem_cons_self _ _)
      · rcases ih h with h | ⟨y, hy, h⟩
        · exact Or.inl (List.mem_cons_of_mem _ h)
        · exact Or.inr ⟨y, List.mem_cons_of_mem _ hy, h⟩

theorem groupStep_mem (rootObject : Option Object3D) (layer : List Obj)
    (acc : JSMap String ParentGroup × List Obj) (obj : Obj) (hobj : obj ∈ layer)
    (h : (∀ e ∈ acc.1, ∀ c ∈ e.2.children, c ∈ layer) ∧ ∀ o ∈ acc.2, o ∈ layer) :
    (∀ e ∈ (groupStep rootObject acc obj).1, ∀ c ∈ e.2.children, c ∈ layer) ∧
      ∀ o ∈ (groupStep rootObject acc obj).2, o ∈ layer := by
  have hroot : ∀ o ∈ acc.2 ++ [obj], o ∈ layer := by
    intro o ho
    rcases List.mem_append.1 ho with ho | ho
    · exact h.2 o ho
    · rw [List.mem_singleton.1 ho]; exact hobj
  unfold groupStep
  cases hp : obj.parent with
  | none => exact ⟨h.1, hroot⟩
  | some parent =>
    simp only
    split
    · refine ⟨?_, h.2⟩
      intro e he c hc
      have hbase : ∀ e ∈ (if (!JSMap.has acc.1 parent.uuid) = true then
          JSMap.set acc.1 parent.uuid { parent := parent, children := [] } else acc.1),
          ∀ c ∈ e.2.children, c ∈ layer := by
        intro e he c hc
        split at he
        · rcases JSMap.mem_set _ _ _ _ he with he | he
          · exact h.1 e he c hc
          · subst he; simp at hc
        · exact h.1 e he c hc
      rcases JSMap.mem_modify _ _ _ _ he with he | ⟨x, hx, he⟩
      · exact hbase e he c hc
      · subst he
        simp only [List.mem_append, List.mem_singleton] at hc
        rcases hc with hc | hc
        · exact hbase x hx c hc
        · rw [hc]; exact hobj
    · exact ⟨h.1, hroot⟩

theorem foldl_groupStep_mem (rootObject : Option Object3D) (layer xs : List Obj)
    (acc : JSMap String ParentGroup × List Obj) (hxs : ∀ o ∈ xs, o ∈ layer)
    (h : (∀ e ∈ acc.1, ∀ c ∈ e.2.children, c ∈ layer) ∧ ∀ o ∈ acc.2, o ∈ layer) :
    (∀ e ∈ (xs.foldl (groupStep rootObject) acc).1, ∀ c ∈ e.2.children, c ∈ layer) ∧
      ∀ o ∈ (xs.foldl (groupStep rootObject) acc).2, o ∈ layer := by
  induction xs generalizing acc with
  | nil => exact h
  | cons x xs ih =>
    rw [List.foldl_cons]
    exact ih _ (fun o ho => hxs o (List.mem_cons_of_mem _ ho))
      (groupStep_mem rootObject layer acc x (hxs x (List.mem_cons_self _ _)) h)

theorem mem_foldl_append {σ τ : Type} (F : σ → List τ) (gs : List σ) (acc : List τ) (t : τ)
    (h : t ∈ gs.foldl (fun targets g => targets ++ F g) acc) :
    t ∈ acc ∨ ∃ g ∈ gs, t ∈ F g := by
  induction gs generalizing acc with
  | nil => exact Or.inl h
  | cons g gs ih =>
    rw [List.foldl_cons] at h
    rcases ih _ h with h | ⟨g', hg', h⟩
    · rcases List.mem_append.1 h with h | h
      · exact Or.inl h
      · exact Or.inr ⟨g, List.mem_cons_self _ _, h⟩
    · exact Or.inr ⟨g', List.mem_cons_of_mem _ hg', h⟩

/-- Every target of `disassembleLayer` moves an object of the layer. -/
theorem disassembleLayer_object_mem {α : Type} [Field α] [DecidableEq α] (T : Three α)
    (s : Transforms α) (layer : List Obj) (rootObject : Option Object3D) (distance : α) :
    ∀ t ∈ disassembleLayer T s (some layer) rootObject distance, t.object ∈ layer := by
  intro t ht
  cases layer with
  | nil => simp [disassembleLayer] at ht
  | cons o os =>
    obtain ⟨hg, hr⟩ := foldl_groupStep_mem rootObject (o :: os) (o :: os) ([], [])
      (fun _ h => h) ⟨by simp, by simp⟩
    simp only [disassembleLayer] at ht
    have hparents : ∀ t ∈ ((o :: os).foldl (groupStep rootObject) ([], [])).1.foldl
        (fun targets g => targets ++
          g.2.children.map (parentGroupTarget T s g.2.parent g.2.children distance)) [],
        t.object ∈ o :: os := by
      intro t ht
      rcases mem_foldl_append _ _ _ _ ht with ht | ⟨g, hgm, ht⟩
      · simp at ht
      · obtain ⟨c, hc, rfl⟩ := List.mem_map.1 ht
        exact hg g hgm c hc
    split at ht
    · rcases List.mem_append.1 ht with ht | ht
      · exact hparents t ht
      · obtain ⟨c, hc, rfl⟩ := List.mem_map.1 ht
        exact hr c hc
    · exact hparents t ht

namespace ModelDisassemblyManager

variable {α : Type}

/-! ## Facts about the manager -/

theorem layers_independent (ro : Option Object3D) (s s' : Transforms α) :
    (initializeModelLayers ro s).layers = (initializeModelLayers ro s').layers := by
  cases ro <;> rfl

theorem disassembleNext_cases [Field α] [DecidableEq α] (T : Three α)
    (m : ModelDisassemblyManager α) (d : α) :
    (disassembleNext T m d).1 = m ∨
      ∃ layer, m.layers.get? m.currentLayer = some layer ∧
        (disassembleNext T m d).1 =
          { m with
            animationStack := m.animationStack ++ [layerPositions m.scene layer]
            currentLayer := m.currentLayer + 1 } := by
  unfold disassembleNext
  split
  · exact Or.inl rfl
  · cases h : m.layers.get? m.currentLayer with
    | none => exact Or.inl rfl
    | some layer => exact Or.inr ⟨layer, rfl, rfl⟩

theorem reassemblePrevious_cases (m : ModelDisassemblyManager α) :
    (reassemblePrevious m).1 = m ∨
      (0 < m.currentLayer ∧ m.animationStack ≠ [] ∧
        (reassemblePrevious m).1 =
          { m with
            animationStack := m.animationStack.dropLast
            currentLayer := m.currentLayer - 1 }) := by
  unfold reassemblePrevious
  by_cases hc : m.canReassemble = true
  · simp only [hc, Bool.not_true, Bool.false_eq_true, if_false]
    cases h : m.animationStack.getLast? with
    | none => exact Or.inl rfl
    | some saved =>
      right
      have hk : 0 < m.currentLayer := by
        simp only [canReassemble, Bool.and_eq_true, decide_eq_true_eq] at hc
        exact hc.1.1
      have hne : m.animationStack ≠ [] := by
        intro h0; rw [h0] at h; cases h
      refine ⟨hk, hne, ?_⟩
      simp only
      split <;> rfl
  · simp [hc]

theorem reset_cases (m : ModelDisassemblyManager α) :
    (reset m).1 = m ∨
      ∃ sc, (reset m).1 =
        { m with scene := sc, currentLayer := 0, animationStack := [], isAnimating := false } := by
  unfold reset
  split
  · split
    · exact Or.inr ⟨m.scene, rfl⟩
    · exact Or.inl rfl
  · exact Or.inr ⟨_, rfl⟩

/-- What holds of every reachable manager: `layers` and `originalPositions` are those of
`initializeModelLayers` (the latter read at the last `initialize()`), the stack is as deep as
`currentLayer`, and entry `i` of the stack is a snapshot of layer `i`. -/
theorem reachable_inv [Field α] [DecidableEq α] (T : Three α) (s0 : Transforms α)
    (m : ModelDisassemblyManager α) (h : Reachable T s0 m) :
    m.layers = (initializeModelLayers m.rootObject s0).layers ∧
      m.originalPositions = (initializeModelLayers m.rootObject s0).originalPositions ∧
      m.animationStack.length = m.currentLayer ∧
      m.currentLayer ≤ m.layers.length ∧
      ∀ i snap, m.animationStack.get? i = some snap →
        ∃ layer sc, m.layers.get? i = some layer ∧ snap = layerPositions sc layer := by
  induction h with
  | new ro scene => simp [new, init]
  | @init s0 m _ ih => simp [init]
  | @disassembleNext s0 m d _ ih =>
    obtain ⟨h1, h2, h3, h4, h5⟩ := ih
    rcases disassembleNext_cases T m d with h | ⟨layer, hl, h⟩
    · rw [h]; exact ⟨h1, h2, h3, h4, h5⟩
    · rw [h]
      have hlt : m.currentLayer < m.layers.length := by
        by_contra hcon
        rw [List.get?_eq_getElem?, List.getElem?_eq_none (by omega)] at hl
        cases hl
      refine ⟨h1, h2, by simp [h3], hlt, ?_⟩
      intro i snap hi
      simp only [List.get?_eq_getElem?] at hi
      by_cases hi2 : i < m.animationStack.length
      · rw [List.getElem?_append_left hi2] at hi
        exact h5 i snap (by simpa using hi)
      · rw [List.getElem?_append_right (by omega)] at hi
        have hi3 : i = m.animationStack.length := by
          by_contra hne
          have : 1 ≤ i - m.animationStack.length := by omega
          rw [List.getElem?_eq_none (by simpa using this)] at hi
          cases hi
        subst hi3
        simp only [Nat.sub_self, List.getElem?_cons_zero, Option.some.injEq] at hi
        exact ⟨layer, m.scene, by rw [h3]; exact hl, hi.symm⟩
  | @reassemblePrevious s0 m _ ih =>
    obtain ⟨h1, h2, h3, h4, h5⟩ := ih
    rcases reassemblePrevious_cases m with h | ⟨hk, hne, h⟩
    · rw [h]; exact ⟨h1, h2, h3, h4, h5⟩
    · rw [h]
      refine ⟨h1, h2, by simp [h3], by simp; omega, ?_⟩
      intro i snap hi
      apply h5 i snap
      simp only [List.get?_eq_getElem?] at hi ⊢
      obtain ⟨t, ht⟩ := List.dropLast_prefix m.animationStack
      have hlt : i < m.animationStack.dropLast.length := by
        by_contra hcon
        rw [List.getElem?_eq_none (by omega)] at hi
        cases hi
      rw [← ht, List.getElem?_append_left hlt]
      exact hi
  | @reset s0 m _ ih =>
    obtain ⟨h1, h2, h3, h4, h5⟩ := ih
    rcases reset_cases m with h | ⟨sc, h⟩
    · rw [h]; exact ⟨h1, h2, h3, h4, h5⟩
    · rw [h]; exact ⟨h1, h2, by simp, by simp, by simp⟩
  | @writeScene s0 m scene _ ih => exact ih
  | @setAnimating s0 m b _ ih => exact ih

theorem disassembleNext_of_layer [Field α] [DecidableEq α] (T : Three α)
    (m : ModelDisassemblyManager α) (distance : α) (layer : List Obj)
    (ha : m.isAnimating = false) (hl : m.layers.get? m.currentLayer = some layer)
    (hu : (layer.map Obj.uuid).Nodup) :
    disassembleNext T m distance =
      ({ m with
          animationStack :=
            m.animationStack ++ [layer.map (fun o => (o.uuid, m.scene.position o.path))]
          currentLayer := m.currentLayer + 1 },
        some (disassembleLayer T m.scene (some layer) m.rootObject distance)) := by
  have hlt : m.currentLayer < m.layers.length := by
    by_contra hcon
    rw [List.get?_eq_getElem?, List.getElem?_eq_none (by omega)] at hl
    cases hl
  have hc : m.canDisassemble = true := by simp [canDisassemble, hlt, ha]
  simp only [disassembleNext, hc, Bool.not_true, Bool.false_eq_true, if_false, hl,
    layerPositions_eq_map _ _ hu]

/-- C2 (undo-stack depth): in every reachable manager the undo stack is as deep as
`currentLayer`, and `0 ≤ currentLayer ≤ layers.length`. -/
theorem stack_depth_invariant [Field α] [DecidableEq α] (T : Three α) (s0 : Transforms α)
    (m : ModelDisassemblyManager α) (h : Reachable T s0 m) :
    m.animationStack.length = m.currentLayer ∧ 0 ≤ m.currentLayer ∧
      m.currentLayer ≤ m.layers.length := by
  obtain ⟨_, _, h3, h4, _⟩ := reachable_inv T s0 m h
  exact ⟨h3, Nat.zero_le _, h4⟩

/-- C2 at the manager of `familyTree` after one `disassembleNext`. -/
theorem stack_depth_invariant_witness :
    Reachable sampleThree restScene
        (disassembleNext sampleThree (new (some familyTree) restScene) 1).1 ∧
      ((disassembleNext sampleThree (new (some familyTree) restScene) 1).1.animationStack.length =
          (disassembleNext sampleThree (new (some familyTree) restScene) 1).1.currentLayer ∧
        0 ≤ (disassembleNext sampleThree (new (some familyTree) restScene) 1).1.currentLayer ∧
        (disassembleNext sampleThree (new (some familyTree) restScene) 1).1.currentLayer ≤
          (disassembleNext sampleThree (new (some familyTree) restScene) 1).1.layers.length) :=
  ⟨Reachable.disassembleNext 1 (Reachable.new _ _),
    stack_depth_invariant _ _ _ (Reachable.disassembleNext 1 (Reachable.new _ _))⟩

theorem JSMap.mem_keys_set {κ ν : Type} [DecidableEq κ] (m : JSMap κ ν) (k u : κ) (v : ν) :
    u ∈ (JSMap.set m k v).map Prod.fst ↔ u ∈ m.map Prod.fst ∨ u = k := by
  induction m with
  | nil => simp [JSMap.set]
  | cons e m ih =>
    by_cases he : e.1 = k
    · simp only [JSMap.set, he, if_true, List.map_cons, List.mem_cons]
      constructor
      · intro h; exact Or.inl h
      · rintro (h | h)
        · exact h
        · exact Or.inl h
    · simp only [JSMap.set, he, if_false, List.map_cons, List.mem_cons, ih]
      constructor
      · rintro (h | h | h)
        · exact Or.inl (Or.inl h)
        · exact Or.inl (Or.inr h)
        · exact Or.inr h
      · rintro ((h | h) | h)
        · exact Or.inl h
        · exact Or.inr (Or.inl h)
        · exact Or.inr (Or.inr h)

/-- The keys and the entries of a map filled by `set` from a list. -/
theorem foldl_set_mem {κ ν τ : Type} [DecidableEq κ] (key : τ → κ) (val : τ → ν)
    (xs : List τ) (acc : JSMap κ ν) :
    (∀ u, u ∈ (xs.foldl (fun m x => JSMap.set m (key x) (val x)) acc).map Prod.fst ↔
        u ∈ acc.map Prod.fst ∨ u ∈ xs.map key) ∧
      ∀ e ∈ xs.foldl (fun m x => JSMap.set m (key x) (val x)) acc,
        e ∈ acc ∨ ∃ x ∈ xs, key x = e.1 ∧ e.2 = val x := by
  induction xs generalizing acc with
  | nil => simp
  | cons x xs ih =>
    obtain ⟨h1, h2⟩ := ih (JSMap.set acc (key x) (val x))
    rw [List.foldl_cons]
    constructor
    · intro u
      rw [h1 u, JSMap.mem_keys_set, List.map_cons, List.mem_cons, or_assoc]
    · intro e he
      rcases h2 e he with h | ⟨y, hy, h⟩
      · rcases JSMap.mem_set _ _ _ _ h with h | h
        · exact Or.inl h
        · exact Or.inr ⟨x, List.mem_cons_self _ _, by rw [h], by rw [h]⟩
      · exact Or.inr ⟨y, List.mem_cons_of_mem _ hy, h⟩

/-- C8 (effect of `disassembleNext`): when the manager is not animating and
`layer = layers[currentLayer]` exists, the call appends one snapshot to the undo stack, adds
one to `currentLayer`, returns `disassembleLayer(layer, rootObject, distance)`, and leaves every
other field, the scene (so every position) and the earlier stack entries as they were. The
keys of the snapshot are exactly the ids of the objects of the layer, every value is the
position, at the time of the call, of an object of the layer with that id, and when the ids
of the layer are pairwise different the snapshot lists, object by object, its id with its
position. -/
theorem disassembleNext_effect [Field α] [DecidableEq α] (T : Three α)
    (m : ModelDisassemblyManager α) (distance : α) (layer : List Obj)
    (ha : m.isAnimating = false) (hl : m.layers.get? m.currentLayer = some layer) :
    disassembleNext T m distance =
        ({ m with
            animationStack := m.animationStack ++ [layerPositions m.scene layer]
            currentLayer := m.currentLayer + 1 },
          some (disassembleLayer T m.scene (some layer) m.rootObject distance)) ∧
      (∀ u, u ∈ (layerPositions m.scene layer).map Prod.fst ↔ u ∈ layer.map Obj.uuid) ∧
      (∀ e ∈ layerPositions m.scene layer,
        ∃ o ∈ layer, o.uuid = e.1 ∧ e.2 = m.scene.position o.path) ∧
      ((layer.map Obj.uuid).Nodup →
        layerPositions m.scene layer =
          layer.map (fun o => (o.uuid, m.scene.position o.path))) := by
  have hlt : m.currentLayer < m.layers.length := by
    by_contra hcon
    rw [List.get?_eq_getElem?, List.getElem?_eq_none (by omega)] at hl
    cases hl
  have hc : m.canDisassemble = true := by simp [canDisassemble, hlt, ha]
  obtain ⟨h1, h2⟩ := foldl_set_mem Obj.uuid (fun o => m.scene.position o.path) layer []
  refine ⟨?_, ?_, ?_, layerPositions_eq_map m.scene layer⟩
  · simp only [disassembleNext, hc, Bool.not_true, Bool.false_eq_true, if_false, hl]
  · intro u
    simpa [layerPositions] using h1 u
  · intro e he
    rcases h2 e he with h | h
    · simp at h
    · exact h

/-- C10 (`disassembleNext` without effect): when `currentLayer = layers.length` or the manager
is animating, the call returns `null` and the manager and the scene are unchanged. -/
theorem disassembleNext_noop [Field α] [DecidableEq α] (T : Three α)
    (m : ModelDisassemblyManager α) (distance : α)
    (h : m.currentLayer = m.layers.length ∨ m.isAnimating = true) :
    disassembleNext T m distance = (m, none) := by
  have hc : m.canDisassemble = false := by
    rcases h with h | h
    · simp [canDisassemble, h]
    · simp [canDisassemble, h]
  simp [disassembleNext, hc]

/-- C8 at the fresh manager of `familyTree`. -/
theorem disassembleNext_effect_witness :
    (new (some familyTree) restScene).isAnimating = false ∧
      (new (some familyTree) restScene).layers.get? (new (some familyTree) restScene).currentLayer =
        some familyLayer ∧
      (disassembleNext sampleThree (new (some familyTree) restScene) 2 =
          ({ new (some familyTree) restScene with
              animationStack :=
                (new (some familyTree) restScene).animationStack ++
                  [layerPositions (new (some familyTree) restScene).scene familyLayer]
              currentLayer := (new (some familyTree) restScene).currentLayer + 1 },
            some (disassembleLayer sampleThree (new (some familyTree) restScene).scene
              (some familyLayer) (new (some familyTree) restScene).rootObject 2)) ∧
        (∀ u, u ∈ (layerPositions (new (some familyTree) restScene).scene familyLayer).map
            Prod.fst ↔ u ∈ familyLayer.map Obj.uuid) ∧
        (∀ e ∈ layerPositions (new (some familyTree) restScene).scene familyLayer,
          ∃ o ∈ familyLayer, o.uuid = e.1 ∧
            e.2 = (new (some familyTree) restScene).scene.position o.path) ∧
        ((familyLayer.map Obj.uuid).Nodup →
          layerPositions (new (some familyTree) restScene).scene familyLayer =
            familyLayer.map
              (fun o => (o.uuid, (new (some familyTree) restScene).scene.position o.path)))) :=
  ⟨rfl, rfl, disassembleNext_effect sampleThree _ 2 familyLayer rfl rfl⟩

/-- C10 at a manager of `familyTree` that is animating. -/
theorem disassembleNext_noop_witness :
    ((({ new (some familyTree) restScene with isAnimating := true } :
          ModelDisassemblyManager ℚ).currentLayer =
        ({ new (some familyTree) restScene with isAnimating := true } :
          ModelDisassemblyManager ℚ).layers.length) ∨
      ({ new (some familyTree) restScene with isAnimating := true } :
          ModelDisassemblyManager ℚ).isAnimating = true) ∧
      disassembleNext sampleThree { new (some familyTree) restScene with isAnimating := true } 2 =
        ({ new (some familyTree) restScene with isAnimating := true }, none) :=
  ⟨Or.inr rfl, disassembleNext_noop _ _ _ (Or.inr rfl)⟩

/-! ## Reset and undo -/

theorem originalPositions_eq_map (r : Object3D) (s0 : Transforms α)
    (hu : ((traverse r).map Obj.uuid).Nodup) :
    (initializeModelLayers (some r) s0).originalPositions =
      (traverse r).map (fun o => (o.uuid, snapshotOf s0 o)) := by
  have := foldl_set_eq_map Obj.uuid (snapshotOf s0) (traverse r) [] (by simpa using hu)
  simpa [initializeModelLayers, traverse] using this

theorem foldl_resetStep (r : Object3D) (hu : ((traverse r).map Obj.uuid).Nodup)
    (s0 : Transforms α) (xs : List Obj) (hxs : ∀ o ∈ xs, o ∈ traverse r) (s : Transforms α)
    (p : List Nat) :
    ((xs.map (fun o => (o.uuid, snapshotOf s0 o))).foldl (resetStep r) s).position p =
        (if p ∈ xs.map Obj.path then s0.position p else s.position p) ∧
      ((xs.map (fun o => (o.uuid, snapshotOf s0 o))).foldl (resetStep r) s).rotation p =
        (if p ∈ xs.map Obj.path then s0.rotation p else s.rotation p) ∧
      ((xs.map (fun o => (o.uuid, snapshotOf s0 o))).foldl (resetStep r) s).scale p =
        (if p ∈ xs.map Obj.path then s0.scale p else s.scale p) := by
  induction xs generalizing s with
  | nil => simp
  | cons x xs ih =>
    have hx := findObject_of_mem r x hu (hxs x (List.mem_cons_self _ _))
    obtain ⟨h1, h2, h3⟩ := ih (fun o ho => hxs o (List.mem_cons_of_mem _ ho))
      (resetStep r s (x.uuid, snapshotOf s0 x))
    rw [List.map_cons, List.foldl_cons, h1, h2, h3]
    simp only [resetStep, hx, List.map_cons, List.mem_cons, snapshotOf]
    by_cases hp1 : p ∈ xs.map Obj.path
    · simp [hp1]
    · by_cases hp2 : p = x.path
      · subst hp2
        simp [hp1, Transforms.setPosition, Transforms.setRotation, Transforms.setScale]
      · simp [hp1, hp2, Transforms.setPosition, Transforms.setRotation, Transforms.setScale,
          Function.update]

theorem foldl_reassemble (r : Object3D) (hu : ((traverse r).map Obj.uuid).Nodup)
    (s : Transforms α) (g : Obj → Vector3 α) (xs : List Obj) (hxs : ∀ o ∈ xs, o ∈ traverse r)
    (acc : List (AnimationTarget α)) :
    (xs.map (fun o => (o.uuid, g o))).foldl
        (fun animationTargets e =>
          match findObject r e.1 with
          | some foundObject =>
            animationTargets ++
              [{ object := foundObject
                 startPosition := s.position foundObject.path
                 targetPosition := e.2
                 uuid := e.1 }]
          | none => animationTargets)
        acc =
      acc ++ xs.map (fun o =>
        { object := o, startPosition := s.position o.path, targetPosition := g o,
          uuid := o.uuid }) := by
  induction xs generalizing acc with
  | nil => simp
  | cons x xs ih =>
    have hx := findObject_of_mem r x hu (hxs x (List.mem_cons_self _ _))
    rw [List.map_cons, List.foldl_cons]
    simp only [hx]
    rw [ih (fun o ho => hxs o (List.mem_cons_of_mem _ ho))]
    simp

/-- With unique ids, `reassembleLayer` on a snapshot of a layer returns one target per object
of the layer, from its present position to the saved one. -/
theorem reassembleLayer_snapshot (r : Object3D) (hu : ((traverse r).map Obj.uuid).Nodup)
    (s saved : Transforms α) (layer : List Obj) (hsub : layer.Sublist (traverse r)) :
    reassembleLayer s (layerPositions saved layer) (some r) =
      .returned (layer.map (fun o =>
        { object := o, startPosition := s.position o.path,
          targetPosition := saved.position o.path, uuid := o.uuid })) := by
  rw [layerPositions_eq_map _ _ (hu.sublist (hsub.map _))]
  simp only [reassembleLayer]
  rw [foldl_reassemble r hu s (fun o => saved.position o.path) layer (fun o ho => hsub.subset ho)]
  simp

/-- C3 (reset): in every reachable manager with unique ids, also one that is animating,
`reset()` returns normally and leaves every object of the tree with the position, rotation and
scale it had when `initialize()` last took `originalPositions`, with `currentLayer = 0`, an
empty undo stack and `isAnimating = false`. -/
theorem reset_postcondition [Field α] [DecidableEq α] (T : Three α) (s0 : Transforms α)
    (m : ModelDisassemblyManager α) (r : Object3D) (h : Reachable T s0 m)
    (hr : m.rootObject = some r) (hu : ((traverse r).map Obj.uuid).Nodup) :
    (reset m).2 = .returned () ∧
      (∀ o ∈ traverse r,
        (reset m).1.scene.position o.path = s0.position o.path ∧
          (reset m).1.scene.rotation o.path = s0.rotation o.path ∧
          (reset m).1.scene.scale o.path = s0.scale o.path) ∧
      (reset m).1.currentLayer = 0 ∧ (reset m).1.animationStack = [] ∧
      (reset m).1.isAnimating = false := by
  obtain ⟨_, h2, _⟩ := reachable_inv T s0 m h
  rw [hr, originalPositions_eq_map r s0 hu] at h2
  simp only [reset, hr, h2, true_and, and_true]
  intro o ho
  obtain ⟨h1, h2, h3⟩ := foldl_resetStep r hu s0 (traverse r) (fun _ h => h) m.scene o.path
  have hmem : o.path ∈ (traverse r).map Obj.path := List.mem_map.2 ⟨o, ho, rfl⟩
  rw [h1, h2, h3]
  simp [hmem]

theorem foldl_find_some (xs : List Obj) (u : String) (acc : Option Obj) (o : Obj)
    (h : xs.foldl (fun found obj => if obj.uuid = u then some obj else found) acc = some o) :
    acc = some o ∨ (o ∈ xs ∧ o.uuid = u) := by
  induction xs generalizing acc with
  | nil => exact Or.inl h
  | cons x xs ih =>
    rw [List.foldl_cons] at h
    rcases ih _ h with h1 | ⟨h1, h2⟩
    · by_cases hx : x.uuid = u
      · simp only [hx, if_true, Option.some.injEq] at h1
        exact Or.inr ⟨h1 ▸ List.mem_cons_self _ _, h1 ▸ hx⟩
      · simp only [hx, if_false] at h1
        exact Or.inl h1
    · exact Or.inr ⟨List.mem_cons_of_mem _ h1, h2⟩

/-- The object found by uuid is an object of the tree with that uuid. -/
theorem findObject_some (r : Object3D) (u : String) (o : Obj) (h : findObject r u = some o) :
    o ∈ traverse r ∧ o.uuid = u := by
  rcases foldl_find_some _ _ _ _ h with h | h
  · cases h
  · exact h

/-- With a root, `reassembleLayer` returns, and each target carries an entry of the snapshot:
the object found under the entry's uuid, its present position and the saved position. -/
theorem reassembleLayer_spec (r : Object3D) (s : Transforms α)
    (saved : JSMap String (Vector3 α)) :
    ∃ targets, reassembleLayer s saved (some r) = .returned targets ∧
      ∀ t ∈ targets, (t.uuid, t.targetPosition) ∈ saved ∧
        t.startPosition = s.position t.object.path ∧ t.object ∈ traverse r ∧
        t.object.uuid = t.uuid := by
  refine ⟨_, rfl, ?_⟩
  have key : ∀ (xs : JSMap String (Vector3 α)) (acc : List (AnimationTarget α)),
      (∀ e ∈ xs, e ∈ saved) →
      (∀ t ∈ acc, (t.uuid, t.targetPosition) ∈ saved ∧
        t.startPosition = s.position t.object.path ∧ t.object ∈ traverse r ∧
        t.object.uuid = t.uuid) →
      ∀ t ∈ xs.foldl
        (fun animationTargets e =>
          match findObject r e.1 with
          | some foundObject =>
            animationTargets ++
              [{ object := foundObject
                 startPosition := s.position foundObject.path
                 targetPosition := e.2
                 uuid := e.1 }]
          | none => animationTargets)
        acc,
        (t.uuid, t.targetPosition) ∈ saved ∧
          t.startPosition = s.position t.object.path ∧ t.object ∈ traverse r ∧
          t.object.uuid = t.uuid := by
    intro xs
    induction xs with
    | nil => intro acc _ hacc; exact hacc
    | cons e xs ih =>
      intro acc hxs hacc
      rw [List.foldl_cons]
      apply ih _ (fun e' he' => hxs e' (List.mem_cons_of_mem _ he'))
      cases hf : findObject r e.1 with
      | none => exact hacc
      | some o =>
        intro t ht
        rcases List.mem_append.1 ht with ht | ht
        · exact hacc t ht
        · rw [List.mem_singleton.1 ht]
          obtain ⟨h1, h2⟩ := findObject_some r e.1 o hf
          exact ⟨hxs e (List.mem_cons_self _ _), rfl, h1, h2⟩
  exact key saved [] (fun _ h => h) (by simp)

/-- C9 (effect of `reassemblePrevious`): in a reachable manager that is not animating and has
`currentLayer > 0`, the last entry of the undo stack is the snapshot that `disassembleNext`
took of the layer `layers[currentLayer - 1]` (in some scene `sceneAtPush`); the call removes
that entry, subtracts one from `currentLayer`, changes nothing else, and returns targets each
of which goes from the present position of its object to the position saved in the snapshot
under the object's id. When the ids of the tree are pairwise different there is exactly one
target per object of that layer, in order, and it leads to the position the object had in
`sceneAtPush`. -/
theorem reassemblePrevious_effect [Field α] [DecidableEq α] (T : Three α) (s0 : Transforms α)
    (m : ModelDisassemblyManager α) (h : Reachable T s0 m)
    (ha : m.isAnimating = false) (hk : 0 < m.currentLayer) :
    ∃ r layer sceneAtPush targets,
      m.rootObject = some r ∧
        m.layers.get? (m.currentLayer - 1) = some layer ∧
        m.animationStack = m.animationStack.dropLast ++ [layerPositions sceneAtPush layer] ∧
        reassemblePrevious m =
          ({ m with
              animationStack := m.animationStack.dropLast
              currentLayer := m.currentLayer - 1 },
            .returned (some targets)) ∧
        (∀ t ∈ targets,
          (t.uuid, t.targetPosition) ∈ layerPositions sceneAtPush layer ∧
            t.startPosition = m.scene.position t.object.path ∧ t.object ∈ traverse r ∧
            t.object.uuid = t.uuid) ∧
        (((traverse r).map Obj.uuid).Nodup →
          targets = layer.map (fun o =>
            { object := o
              startPosition := m.scene.position o.path
              targetPosition := sceneAtPush.position o.path
              uuid := o.uuid })) := by
  obtain ⟨h1, _, h3, h4, h5⟩ := reachable_inv T s0 m h
  obtain ⟨r, hr⟩ : ∃ r, m.rootObject = some r := by
    cases hro : m.rootObject with
    | none =>
      rw [hro] at h1
      rw [h1] at h4
      simp [initializeModelLayers] at h4
      omega
    | some r => exact ⟨r, rfl⟩
  have hne : m.animationStack ≠ [] := by
    intro h0; rw [h0] at h3; simp at h3; omega
  have hlast : m.animationStack.getLast? = some (m.animationStack.getLast hne) :=
    List.getLast?_eq_getLast _ hne
  have hget : m.animationStack.get? (m.currentLayer - 1) =
      some (m.animationStack.getLast hne) := by
    rw [← h3, List.get?_eq_getElem?, ← List.getLast?_eq_getElem?, hlast]
  obtain ⟨layer, sc, hl, hsnap⟩ := h5 _ _ hget
  have hsub : layer.Sublist (traverse r) := by
    have hmem := List.get?_mem hl
    rw [h1, hr] at hmem
    exact layer_sublist_traverse r s0 layer hmem
  have hc : m.canReassemble = true := by
    simp [canReassemble, hk, ha, List.length_pos.2 hne]
  obtain ⟨targets, ht1, ht2⟩ := reassembleLayer_spec r m.scene (layerPositions sc layer)
  refine ⟨r, layer, sc, targets, hr, hl, ?_, ?_, ht2, ?_⟩
  · rw [← hsnap]; exact (List.dropLast_append_getLast hne).symm
  · simp only [reassemblePrevious, hc, Bool.not_true, Bool.false_eq_true, if_false, hlast, hr,
      hsnap, ht1]
  · intro hu
    rw [reassembleLayer_snapshot r hu _ sc layer hsub] at ht1
    injection ht1 with ht1
    exact ht1.symm

/-! ## The round trip -/

theorem repeatCall_succ_last {σ : Type} (f : σ → Option σ) (n : Nat) (s : σ) :
    repeatCall f (n + 1) s = (repeatCall f n s).bind f := by
  induction n generalizing s with
  | zero => simp [repeatCall]
  | succ n ih =>
    rw [repeatCall]
    conv_rhs => rw [repeatCall]
    cases hf : f s with
    | none => rfl
    | some s1 => simpa using ih s1

/-- The call `reassemblePrevious()` on a manager whose last stack entry is a snapshot of `layer`. -/
theorem reassemblePrevious_of_snapshot (m : ModelDisassemblyManager α) (r : Object3D)
    (st : List (JSMap String (Vector3 α))) (saved : Transforms α) (layer : List Obj)
    (hr : m.rootObject = some r) (hu : ((traverse r).map Obj.uuid).Nodup)
    (ha : m.isAnimating = false) (hk : 0 < m.currentLayer)
    (hst : m.animationStack = st ++ [layerPositions saved layer])
    (hsub : layer.Sublist (traverse r)) :
    reassemblePrevious m =
      ({ m with animationStack := st, currentLayer := m.currentLayer - 1 },
        .returned (some (layer.map (fun o =>
          { object := o
            startPosition := m.scene.position o.path
            targetPosition := saved.position o.path
            uuid := o.uuid })))) := by
  have hc : m.canReassemble = true := by simp [canReassemble, hk, ha, hst]
  simp only [reassemblePrevious, hc, Bool.not_true, Bool.false_eq_true, if_false, hst,
    List.getLast?_concat, List.dropLast_concat, hr,
    reassembleLayer_snapshot r hu _ saved layer hsub]

theorem transforms_ext (a b : Transforms α) (h1 : a.position = b.position)
    (h2 : a.rotation = b.rotation) (h3 : a.scale = b.scale) : a = b := by
  cases a; cases b; simp only at h1 h2 h3; rw [h1, h2, h3]

/-- One layer out and back: `disassembleNext` with its animation run to the end, followed by
`reassemblePrevious` with its animation run to the end, restores the manager and the scene. -/
theorem disassemble_reassemble [LinearOrderedField α] (T : Three α)
    (m : ModelDisassemblyManager α) (r : Object3D) (layer : List Obj) (distance : α)
    (hr : m.rootObject = some r) (hu : ((traverse r).map Obj.uuid).Nodup)
    (ha : m.isAnimating = false) (hl : m.layers.get? m.currentLayer = some layer)
    (hsub : layer.Sublist (traverse r)) :
    ∃ m1, disassembleAndAnimate T distance m = some m1 ∧ reassembleAndAnimate m1 = some m ∧
      m1.rootObject = m.rootObject ∧ m1.layers = m.layers ∧ m1.isAnimating = false ∧
      m1.currentLayer = m.currentLayer + 1 := by
  have hul : (layer.map Obj.uuid).Nodup := hu.sublist (hsub.map _)
  have hdis := disassembleNext_of_layer T m distance layer ha hl hul
  refine ⟨animate { m with
      animationStack := m.animationStack ++ [layerPositions m.scene layer]
      currentLayer := m.currentLayer + 1 }
      (disassembleLayer T m.scene (some layer) m.rootObject distance) 1,
    by simp only [disassembleAndAnimate, hdis, layerPositions_eq_map m.scene layer hul],
    ?_, rfl, rfl, ha, rfl⟩
  have hre := reassemblePrevious_of_snapshot
    (animate { m with
      animationStack := m.animationStack ++ [layerPositions m.scene layer]
      currentLayer := m.currentLayer + 1 }
      (disassembleLayer T m.scene (some layer) m.rootObject distance) 1)
    r m.animationStack m.scene layer hr hu ha (Nat.succ_pos _) rfl hsub
  simp only [reassembleAndAnimate, hre]
  obtain ⟨h1, h2, h3⟩ := foldl_setPosition_other (fun t : AnimationTarget α => t.object)
    (fun t => t.targetPosition) (disassembleLayer T m.scene (some layer) m.rootObject distance)
    m.scene
  have hscene : animateTargets
      (animateTargets m.scene (disassembleLayer T m.scene (some layer) m.rootObject distance) 1
        smoothStep)
      (layer.map (fun o =>
        ({ object := o
           startPosition := (animateTargets m.scene
            (disassembleLayer T m.scene (some layer) m.rootObject distance) 1
              smoothStep).position o.path
           targetPosition := m.scene.position o.path
           uuid := o.uuid } : AnimationTarget α))) 1 smoothStep = m.scene := by
    rw [animateTargets_one, animateTargets_one, List.foldl_map]
    obtain ⟨h4, h5, _⟩ := foldl_setPosition_other (fun o : Obj => o)
      (fun o => m.scene.position o.path) layer
      ((disassembleLayer T m.scene (some layer) m.rootObject distance).foldl
        (fun s t => s.setPosition t.object t.targetPosition) m.scene)
    apply transforms_ext
    · funext p
      rw [foldl_setPosition_same (fun o : Obj => o) m.scene.position layer _ p]
      split
      · rfl
      · rename_i hp
        apply h3
        intro hmem
        obtain ⟨t, ht, rfl⟩ := List.mem_map.1 hmem
        exact hp (List.mem_map.2 ⟨t.object, disassembleLayer_object_mem T _ _ _ _ t ht, rfl⟩)
    · rw [h4, h1]
    · rw [h5, h2]
  simp only [animate, Nat.add_sub_cancel]
  rw [hscene]

/-- Taking `j` layers apart and putting them back, every animation run to its end, restores
the manager and the scene. -/
theorem repeat_round_trip [LinearOrderedField α] (T : Three α) (r : Object3D) (distance : α)
    (hu : ((traverse r).map Obj.uuid).Nodup) (s0 : Transforms α) (j : Nat) :
    ∀ m : ModelDisassemblyManager α, m.rootObject = some r → m.isAnimating = false →
      m.layers = (initializeModelLayers (some r) s0).layers →
      m.currentLayer + j ≤ m.layers.length →
      ∃ m1, repeatCall (disassembleAndAnimate T distance) j m = some m1 ∧
        repeatCall reassembleAndAnimate j m1 = some m := by
  induction j with
  | zero => intro m _ _ _ _; exact ⟨m, rfl, rfl⟩
  | succ j ih =>
    intro m hr ha hL hle
    have hlt : m.currentLayer < m.layers.length := by omega
    have hl : m.layers.get? m.currentLayer = some (m.layers.get ⟨m.currentLayer, hlt⟩) :=
      List.get?_eq_get hlt
    have hsub : (m.layers.get ⟨m.currentLayer, hlt⟩).Sublist (traverse r) := by
      apply layer_sublist_traverse r s0
      rw [← hL]
      exact List.get_mem _ _ _
    obtain ⟨m1, hd, hre, h1, h2, h3, h4⟩ :=
      disassemble_reassemble T m r _ distance hr hu ha hl hsub
    obtain ⟨m2, hd2, hre2⟩ := ih m1 (h1.trans hr) h3 (h2.trans hL) (by rw [h4, h2]; omega)
    refine ⟨m2, ?_, ?_⟩
    · rw [repeatCall, hd]; exact hd2
    · rw [repeatCall_succ_last, hre2]; exact hre

/-- C1 (round trip): on a freshly constructed manager over a scene with unique ids, with
`n = layers.length`, `n` calls of `disassembleNext(distance)`, each followed by
`animateTargets(targets, 1)`, and then `n` calls of `reassemblePrevious()`, each followed by
`animateTargets(targets, 1)`, all return targets and end in a manager `mf` in which every
object has the position it had at the start, `currentLayer = 0` and the undo stack is
empty. -/
theorem round_trip [LinearOrderedField α] (T : Three α) (r : Object3D) (scene : Transforms α)
    (distance : α) (hu : ((traverse r).map Obj.uuid).Nodup) :
    ∃ m1 mf,
      repeatCall (disassembleAndAnimate T distance) (new (some r) scene).layers.length
          (new (some r) scene) = some m1 ∧
        repeatCall reassembleAndAnimate (new (some r) scene).layers.length m1 = some mf ∧
        (∀ o ∈ traverse r, mf.scene.position o.path = scene.position o.path) ∧
        mf.currentLayer = 0 ∧ mf.animationStack = [] := by
  obtain ⟨m1, h1, h2⟩ := repeat_round_trip T r distance hu scene
    (new (some r) scene).layers.length (new (some r) scene) rfl rfl rfl
    (by simp [new, init])
  exact ⟨m1, new (some r) scene, h1, h2, fun _ _ => rfl, rfl, rfl⟩

/-- C1 at `familyTree`. -/
theorem round_trip_witness :
    ((traverse familyTree).map Obj.uuid).Nodup ∧
      ∃ m1 mf,
        repeatCall (disassembleAndAnimate sampleThree 2)
            (new (some familyTree) restScene).layers.length (new (some familyTree) restScene) =
          some m1 ∧
        repeatCall reassembleAndAnimate (new (some familyTree) restScene).layers.length m1 =
          some mf ∧
        (∀ o ∈ traverse familyTree, mf.scene.position o.path = restScene.position o.path) ∧
        mf.currentLayer = 0 ∧ mf.animationStack = [] :=
  ⟨by decide, round_trip sampleThree familyTree restScene 2 (by decide)⟩

end ModelDisassemblyManager

/-- C5 at the first layer of `familyTree`. -/
theorem layer_shape_witness :
    (initializeModelLayers (some familyTree) restScene).layers.get? 0 = some familyLayer ∧
      (familyLayer ≠ [] ∧
        ∀ o ∈ familyLayer, getDepth o (.root familyTree) = 0 + 1 ∧ o.path.length = 0 + 1) :=
  ⟨rfl, layer_shape familyTree restScene 0 familyLayer rfl⟩

/-- C6 (layer order): every layer is a sublist of the depth-first pre-order traversal, so it
lists its objects in that order; the layers do not depend on the transforms, so a second call
on the same tree returns the same sequences; and for the root `R` with children `A`, `B` that
have the children `A1`, `A2` and `B1`, `B2`, all of type `Mesh` or `Group`, the layers are
`[[A, B], [A1, A2, B1, B2]]`. -/
theorem layer_order {α : Type} (r : Object3D) (s s' : Transforms α) :
    (∀ l ∈ (initializeModelLayers (some r) s).layers, l.Sublist (traverse r)) ∧
      (initializeModelLayers (some r) s).layers = (initializeModelLayers (some r) s').layers ∧
      ∀ tA ∈ ["Mesh", "Group"], ∀ tB ∈ ["Mesh", "Group"], ∀ tA1 ∈ ["Mesh", "Group"],
      ∀ tA2 ∈ ["Mesh", "Group"], ∀ tB1 ∈ ["Mesh", "Group"], ∀ tB2 ∈ ["Mesh", "Group"],
        (initializeModelLayers (some (exampleTree tA tB tA1 tA2 tB1 tB2)) s).layers.map
            (fun l => l.map Obj.uuid) = [["A", "B"], ["A1", "A2", "B1", "B2"]] := by
  refine ⟨layer_sublist_traverse r s, rfl, ?_⟩
  have key : ∀ tA ∈ ["Mesh", "Group"], ∀ tB ∈ ["Mesh", "Group"], ∀ tA1 ∈ ["Mesh", "Group"],
      ∀ tA2 ∈ ["Mesh", "Group"], ∀ tB1 ∈ ["Mesh", "Group"], ∀ tB2 ∈ ["Mesh", "Group"],
        (initializeModelLayers (some (exampleTree tA tB tA1 tA2 tB1 tB2)) restScene).layers.map
            (fun l => l.map Obj.uuid) = [["A", "B"], ["A1", "A2", "B1", "B2"]] := by
    decide
  intro tA hA tB hB tA1 hA1 tA2 hA2 tB1 hB1 tB2 hB2
  exact key tA hA tB hB tA1 hA1 tA2 hA2 tB1 hB1 tB2 hB2

/-- C7 as the code has it (inclusion rule): an object of the tree other than the root is in a
layer if and only if its type is `Mesh`, `Group` or `Object3D`, or it has at least one
child. -/
theorem inclusion_rule {α : Type} (r : Object3D) (s : Transforms α) (o : Obj)
    (ho : o ∈ traverse r) (hs : o.same (.root r) = false) :
    (∃ l ∈ (initializeModelLayers (some r) s).layers, o ∈ l) ↔
      (o.type = "Mesh" ∨ o.type = "Group" ∨ o.type = "Object3D" ∨ 0 < o.numChildren) := by
  rw [mem_layers_iff]
  simp [isLayerMember, ho, hs, or_assoc]

/-- C7 as the code has it, at the childless `Object3D` node of `passThroughTree`. -/
theorem inclusion_rule_witness :
    Obj.child (.mk "P" "Object3D" []) 0 (.root passThroughTree) ∈ traverse passThroughTree ∧
      (Obj.child (.mk "P" "Object3D" []) 0 (.root passThroughTree)).same
        (.root passThroughTree) = false ∧
      ((∃ l ∈ (initializeModelLayers (some passThroughTree) restScene).layers,
          Obj.child (.mk "P" "Object3D" []) 0 (.root passThroughTree) ∈ l) ↔
        ((Obj.child (.mk "P" "Object3D" []) 0 (.root passThroughTree)).type = "Mesh" ∨
          (Obj.child (.mk "P" "Object3D" []) 0 (.root passThroughTree)).type = "Group" ∨
          (Obj.child (.mk "P" "Object3D" []) 0 (.root passThroughTree)).type = "Object3D" ∨
          0 < (Obj.child (.mk "P" "Object3D" []) 0 (.root passThroughTree)).numChildren)) :=
  ⟨by simp [traverse, collectObjects, collectChildren, passThroughTree], rfl,
    inclusion_rule passThroughTree restScene _
      (by simp [traverse, collectObjects, collectChildren, passThroughTree]) rfl⟩

/-- C7 as stated fails: the childless node `P` of type `Object3D` is in a layer, although it
is neither a `Mesh` nor a `Group` and has no child. -/
theorem inclusion_rule_counterexample :
    ¬ (∀ o ∈ traverse passThroughTree, o.same (.root passThroughTree) = false →
        ((∃ l ∈ (initializeModelLayers (some passThroughTree) restScene).layers, o ∈ l) ↔
          (o.type = "Mesh" ∨ o.type = "Group" ∨ 0 < o.numChildren))) := by
  intro h
  have hmem : Obj.child (.mk "P" "Object3D" []) 0 (.root passThroughTree) ∈
      traverse passThroughTree := by
    simp [traverse, collectObjects, collectChildren, passThroughTree]
  have hin := (mem_layers_iff passThroughTree restScene _).2 ⟨hmem, rfl, rfl⟩
  have := (h _ hmem rfl).1 hin
  revert this
  decide

namespace ModelDisassemblyManager

/-- C3 at a manager of `familyTree` that has one layer apart and is animating. -/
theorem reset_postcondition_witness :
    Reachable sampleThree restScene
        { (disassembleNext sampleThree (new (some familyTree) restScene) 2).1 with
          isAnimating := true } ∧
      ({ (disassembleNext sampleThree (new (some familyTree) restScene) 2).1 with
          isAnimating := true } : ModelDisassemblyManager ℚ).rootObject = some familyTree ∧
      ((traverse familyTree).map Obj.uuid).Nodup ∧
      ((reset { (disassembleNext sampleThree (new (some familyTree) restScene) 2).1 with
          isAnimating := true }).2 = .returned () ∧
        (∀ o ∈ traverse familyTree,
          (reset { (disassembleNext sampleThree (new (some familyTree) restScene) 2).1 with
              isAnimating := true }).1.scene.position o.path = restScene.position o.path ∧
            (reset { (disassembleNext sampleThree (new (some familyTree) restScene) 2).1 with
              isAnimating := true }).1.scene.rotation o.path = restScene.rotation o.path ∧
            (reset { (disassembleNext sampleThree (new (some familyTree) restScene) 2).1 with
              isAnimating := true }).1.scene.scale o.path = restScene.scale o.path) ∧
        (reset { (disassembleNext sampleThree (new (some familyTree) restScene) 2).1 with
          isAnimating := true }).1.currentLayer = 0 ∧
        (reset { (disassembleNext sampleThree (new (some familyTree) restScene) 2).1 with
          isAnimating := true }).1.animationStack = [] ∧
        (reset { (disassembleNext sampleThree (new (some familyTree) restScene) 2).1 with
          isAnimating := true }).1.isAnimating = false) :=
  ⟨Reachable.setAnimating true (Reachable.disassembleNext 2 (Reachable.new _ _)), rfl,
    by decide,
    reset_postcondition sampleThree restScene _ familyTree
      (Reachable.setAnimating true (Reachable.disassembleNext 2 (Reachable.new _ _))) rfl
      (by decide)⟩

/-- C9 at the manager of `familyTree` after one `disassembleNext`. -/
theorem reassemblePrevious_effect_witness :
    Reachable sampleThree restScene
        (disassembleNext sampleThree (new (some familyTree) restScene) 2).1 ∧
      (disassembleNext sampleThree (new (some familyTree) restScene) 2).1.isAnimating = false ∧
      0 < (disassembleNext sampleThree (new (some familyTree) restScene) 2).1.currentLayer ∧
      ∃ r layer sceneAtPush targets,
        (disassembleNext sampleThree (new (some familyTree) restScene) 2).1.rootObject =
          some r ∧
        (disassembleNext sampleThree (new (some familyTree) restScene) 2).1.layers.get?
            ((disassembleNext sampleThree (new (some familyTree) restScene) 2).1.currentLayer - 1) =
          some layer ∧
        (disassembleNext sampleThree (new (some familyTree) restScene) 2).1.animationStack =
          (disassembleNext sampleThree
              (new (some familyTree) restScene) 2).1.animationStack.dropLast ++
            [layerPositions sceneAtPush layer] ∧
        reassemblePrevious (disassembleNext sampleThree (new (some familyTree) restScene) 2).1 =
          ({ (disassembleNext sampleThree (new (some familyTree) restScene) 2).1 with
              animationStack :=
                (disassembleNext sampleThree
                  (new (some familyTree) restScene) 2).1.animationStack.dropLast
              currentLayer :=
                (disassembleNext sampleThree
                  (new (some familyTree) restScene) 2).1.currentLayer - 1 },
            .returned (some targets)) ∧
        (∀ t ∈ targets,
          (t.uuid, t.targetPosition) ∈ layerPositions sceneAtPush layer ∧
            t.startPosition =
              (disassembleNext sampleThree
                (new (some familyTree) restScene) 2).1.scene.position t.object.path ∧
            t.object ∈ traverse r ∧ t.object.uuid = t.uuid) ∧
        (((traverse r).map Obj.uuid).Nodup →
          targets = layer.map (fun o =>
            { object := o
              startPosition :=
                (disassembleNext sampleThree
                  (new (some familyTree) restScene) 2).1.scene.position o.path
              targetPosition := sceneAtPush.position o.path
              uuid := o.uuid })) :=
  ⟨Reachable.disassembleNext 2 (Reachable.new _ _), rfl, by decide,
    reassemblePrevious_effect sampleThree restScene _
      (Reachable.disassembleNext 2 (Reachable.new _ _)) rfl (by decide)⟩

/-! ## Commands without effect, repeated reset, and the flag `isAnimating` -/

/-- C11 (`reassemblePrevious` without effect): when `currentLayer = 0` or the manager is
animating, the call returns `null` without throwing, and the manager (so `currentLayer`,
`animationStack` and `isAnimating`) and the scene (so every position) are unchanged. -/
theorem reassemblePrevious_noop (m : ModelDisassemblyManager α)
    (h : m.currentLayer = 0 ∨ m.isAnimating = true) :
    reassemblePrevious m = (m, .returned none) := by
  have hc : m.canReassemble = false := by
    rcases h with h | h
    · simp [canReassemble, h]
    · simp [canReassemble, h]
  simp [reassemblePrevious, hc]

/-- C11 at a manager of `familyTree` with `currentLayer = 0`. -/
theorem reassemblePrevious_noop_witness :
    ((new (some familyTree) restScene).currentLayer = 0 ∨
        (new (some familyTree) restScene).isAnimating = true) ∧
      reassemblePrevious (new (some familyTree) restScene) =
        (new (some familyTree) restScene, .returned none) :=
  ⟨Or.inl rfl, reassemblePrevious_noop _ (Or.inl rfl)⟩

/-- The writes of `reset()` as a table: the scene after the loop holds, at every object the
table lists, the listed record, and elsewhere what it held before. -/
theorem foldl_resetStep_table (r : Object3D) (es : JSMap String (Original α)) :
    ∃ W : List Nat → Option (Original α), ∀ (s : Transforms α) (p : List Nat),
      (es.foldl (resetStep r) s).position p =
          ((W p).map Original.position).getD (s.position p) ∧
        (es.foldl (resetStep r) s).rotation p =
          ((W p).map Original.rotation).getD (s.rotation p) ∧
        (es.foldl (resetStep r) s).scale p =
          ((W p).map Original.scale).getD (s.scale p) := by
  induction es with
  | nil => exact ⟨fun _ => none, fun s p => by simp⟩
  | cons e es ih =>
    obtain ⟨W, hW⟩ := ih
    cases hf : findObject r e.1 with
    | none =>
      refine ⟨W, fun s p => ?_⟩
      rw [List.foldl_cons]
      have : resetStep r s e = s := by simp [resetStep, hf]
      rw [this]
      exact hW s p
    | some o =>
      refine ⟨fun p => match W p with
        | some v => some v
        | none => if p = o.path then some e.2 else none, fun s p => ?_⟩
      rw [List.foldl_cons]
      obtain ⟨h1, h2, h3⟩ := hW (resetStep r s e) p
      rw [h1, h2, h3]
      cases hw : W p with
      | some v => simp [hw]
      | none =>
        by_cases hp : p = o.path
        · subst hp
          simp [hw, resetStep, hf, Transforms.setPosition, Transforms.setRotation,
            Transforms.setScale]
        · simp [hw, resetStep, hf, hp, Transforms.setPosition, Transforms.setRotation,
            Transforms.setScale, Function.update]

/-- Running the loop of `reset()` a second time changes nothing. -/
theorem foldl_resetStep_idem (r : Object3D) (es : JSMap String (Original α))
    (s : Transforms α) :
    es.foldl (resetStep r) (es.foldl (resetStep r) s) = es.foldl (resetStep r) s := by
  obtain ⟨W, hW⟩ := foldl_resetStep_table r es
  apply transforms_ext
  · funext p
    rw [(hW (es.foldl (resetStep r) s) p).1, (hW s p).1]
    cases W p <;> simp
  · funext p
    rw [(hW (es.foldl (resetStep r) s) p).2.1, (hW s p).2.1]
    cases W p <;> simp
  · funext p
    rw [(hW (es.foldl (resetStep r) s) p).2.2, (hW s p).2.2]
    cases W p <;> simp

/-- C12 (reset idempotence): for every manager, reachable or not, a second `reset()` ends as
the first did and leaves the manager and the scene (`currentLayer`, `animationStack`,
`isAnimating`, every position, rotation and scale) exactly as the first `reset()` left
them. -/
theorem reset_idempotent (m : ModelDisassemblyManager α) :
    reset (reset m).1 = reset m := by
  unfold reset
  cases hr : m.rootObject with
  | none =>
    by_cases he : m.originalPositions.isEmpty = true
    · simp [hr, he]
    · simp [hr, he]
  | some r => simp [hr, foldl_resetStep_idem]

/-- C13 fails on the code: `disassembleNext` and `reassemblePrevious` never touch
`isAnimating`, and on the fresh manager of `familyTree` a second `disassembleNext`, made right
after the first, is accepted: it returns targets and moves `currentLayer` to 2. -/
theorem isAnimating_never_set [Field α] [DecidableEq α] (T : Three α)
    (m : ModelDisassemblyManager α) (distance : α) :
    (disassembleNext T m distance).1.isAnimating = m.isAnimating ∧
      (reassemblePrevious m).1.isAnimating = m.isAnimating ∧
      (disassembleNext sampleThree (new (some familyTree) restScene) 2).1.isAnimating = false ∧
      (disassembleNext sampleThree (new (some familyTree) restScene) 2).2.isSome = true ∧
      (disassembleNext sampleThree
        (disassembleNext sampleThree (new (some familyTree) restScene) 2).1 2).2.isSome = true ∧
      (disassembleNext sampleThree
        (disassembleNext sampleThree (new (some familyTree) restScene) 2).1 2).1.currentLayer =
          2 := by
  refine ⟨?_, ?_, rfl, rfl, rfl, rfl⟩
  · rcases disassembleNext_cases T m distance with h | ⟨_, _, h⟩ <;> rw [h]
  · rcases reassemblePrevious_cases m with h | ⟨_, _, h⟩ <;> rw [h]

end ModelDisassemblyManager

/-! ## Vectors in real arithmetic -/

theorem Vector3.ext_iff3 {α : Type} (a b : Vector3 α) :
    a = b ↔ a.x = b.x ∧ a.y = b.y ∧ a.z = b.z := by
  cases a; cases b; simp

theorem Vector3.sumsq_nonneg (v : Vector3 ℝ) : 0 ≤ v.x * v.x + v.y * v.y + v.z * v.z :=
  add_nonneg (add_nonneg (mul_self_nonneg _) (mul_self_nonneg _)) (mul_self_nonneg _)

theorem Three.length_real (T : Three ℝ) (hT : T.IsReal) (v : Vector3 ℝ) :
    T.length v = Real.sqrt (v.x * v.x + v.y * v.y + v.z * v.z) := by
  simp [Three.length, hT.1]

theorem Three.length_nonneg (T : Three ℝ) (hT : T.IsReal) (v : Vector3 ℝ) :
    0 ≤ T.length v := by
  rw [T.length_real hT]; exact Real.sqrt_nonneg _

theorem Three.length_eq_zero_iff (T : Three ℝ) (hT : T.IsReal) (v : Vector3 ℝ) :
    T.length v = 0 ↔ v = ⟨0, 0, 0⟩ := by
  rw [T.length_real hT, Real.sqrt_eq_zero v.sumsq_nonneg, Vector3.ext_iff3]
  constructor
  · intro h
    have hx := mul_self_nonneg v.x
    have hy := mul_self_nonneg v.y
    have hz := mul_self_nonneg v.z
    refine ⟨?_, ?_, ?_⟩
    · exact mul_self_eq_zero.1 (by linarith)
    · exact mul_self_eq_zero.1 (by linarith)
    · exact mul_self_eq_zero.1 (by linarith)
  · rintro ⟨hx, hy, hz⟩
    simp only at hx hy hz
    rw [hx, hy, hz]; ring

theorem Three.normalize_zero (T : Three ℝ) :
    T.normalize ⟨0, 0, 0⟩ = ⟨0, 0, 0⟩ := by
  simp [Three.normalize, Vector3.divideScalar, Vector3.multiplyScalar]

theorem Three.length_normalize (T : Three ℝ) (hT : T.IsReal) (v : Vector3 ℝ)
    (hv : v ≠ ⟨0, 0, 0⟩) : T.length (T.normalize v) = 1 := by
  have hne : T.length v ≠ 0 := fun h => hv ((T.length_eq_zero_iff hT v).1 h)
  have hpos : 0 < T.length v := lt_of_le_of_ne (T.length_nonneg hT v) (Ne.symm hne)
  have hsq : T.length v * T.length v = v.x * v.x + v.y * v.y + v.z * v.z := by
    rw [T.length_real hT]; exact Real.mul_self_sqrt v.sumsq_nonneg
  rw [T.length_real hT]
  simp only [Three.normalize, hne, if_false, Vector3.divideScalar, Vector3.multiplyScalar]
  have : v.x * (1 / T.length v) * (v.x * (1 / T.length v)) +
      v.y * (1 / T.length v) * (v.y * (1 / T.length v)) +
      v.z * (1 / T.length v) * (v.z * (1 / T.length v)) = 1 := by
    field_simp
    linarith
  rw [this, Real.sqrt_one]

theorem Three.length_normalize_eq_zero_iff (T : Three ℝ) (hT : T.IsReal) (v : Vector3 ℝ) :
    T.length (T.normalize v) = 0 ↔ v = ⟨0, 0, 0⟩ := by
  constructor
  · intro h
    by_contra hv
    rw [T.length_normalize hT v hv] at h
    exact one_ne_zero h
  · rintro rfl
    rw [T.normalize_zero]
    exact (T.length_eq_zero_iff hT _).2 rfl

theorem Three.length_radialDirection (T : Three ℝ) (hT : T.IsReal) (index : Int) (count : Nat) :
    T.length (radialDirection T index count) = 1 := by
  rw [T.length_real hT]
  simp only [radialDirection, hT.2.1, hT.2.2.1]
  have := Real.cos_sq_add_sin_sq (↑index / ↑count * T.pi * 2)
  have h2 : Real.cos (↑index / ↑count * T.pi * 2) * Real.cos (↑index / ↑count * T.pi * 2) +
      0 * 0 + Real.sin (↑index / ↑count * T.pi * 2) * Real.sin (↑index / ↑count * T.pi * 2) =
      1 := by nlinarith
  rw [h2, Real.sqrt_one]

theorem Three.length_multiplyScalar (T : Three ℝ) (hT : T.IsReal) (v : Vector3 ℝ) (d : ℝ) :
    T.length (v.multiplyScalar d) = |d| * T.length v := by
  rw [T.length_real hT, T.length_real hT]
  simp only [Vector3.multiplyScalar]
  have : v.x * d * (v.x * d) + v.y * d * (v.y * d) + v.z * d * (v.z * d) =
      d ^ 2 * (v.x * v.x + v.y * v.y + v.z * v.z) := by ring
  rw [this, Real.sqrt_mul (sq_nonneg d), Real.sqrt_sq_eq_abs]

theorem Matrix3.apply_ne_zero (M : Matrix3 ℝ) (hM : M.det ≠ 0) (v : Vector3 ℝ)
    (hv : v ≠ ⟨0, 0, 0⟩) : M.apply v ≠ ⟨0, 0, 0⟩ := by
  intro h
  apply hv
  rw [Vector3.ext_iff3] at h ⊢
  obtain ⟨h1, h2, h3⟩ := h
  simp only [Matrix3.apply] at h1 h2 h3
  simp only [Matrix3.det] at hM
  refine ⟨?_, ?_, ?_⟩
  · have : M.det * v.x = 0 := by
      simp only [Matrix3.det]
      linear_combination (M.m22 * M.m33 - M.m23 * M.m32) * h1 -
        (M.m12 * M.m33 - M.m13 * M.m32) * h2 + (M.m12 * M.m23 - M.m13 * M.m22) * h3
    rcases mul_eq_zero.1 this with h | h
    · exact absurd h hM
    · exact h
  · have : M.det * v.y = 0 := by
      simp only [Matrix3.det]
      linear_combination -(M.m21 * M.m33 - M.m23 * M.m31) * h1 +
        (M.m11 * M.m33 - M.m13 * M.m31) * h2 - (M.m11 * M.m23 - M.m13 * M.m21) * h3
    rcases mul_eq_zero.1 this with h | h
    · exact absurd h hM
    · exact h
  · have : M.det * v.z = 0 := by
      simp only [Matrix3.det]
      linear_combination (M.m21 * M.m32 - M.m22 * M.m31) * h1 -
        (M.m11 * M.m32 - M.m12 * M.m31) * h2 + (M.m11 * M.m22 - M.m12 * M.m21) * h3
    rcases mul_eq_zero.1 this with h | h
    · exact absurd h hM
    · exact h

theorem Vector3.sub_add_cancel_left (p w : Vector3 ℝ) :
    Vector3.subVectors (p.add w) p = w := by
  cases p; cases w
  simp [Vector3.subVectors, Vector3.add]

/-- The direction of a parent group before conversion has length one. -/
theorem length_parentGroupDirection (T : Three ℝ) (hT : T.IsReal) (s : Transforms ℝ)
    (parent : Obj) (children : List Obj) (obj : Obj) :
    T.length (parentGroupDirection T s parent children obj) = 1 := by
  unfold parentGroupDirection
  simp only
  split
  · split
    · exact T.length_radialDirection hT _ _
    · rename_i h
      exact T.length_normalize hT _ (fun h0 => h ((T.length_normalize_eq_zero_iff hT _).2 h0))
  · rename_i h
    exact T.length_normalize hT _ (fun h0 => h ((T.length_normalize_eq_zero_iff hT _).2 h0))

/-- The direction of a root-level object has length one. -/
theorem length_rootGroupDirection (T : Three ℝ) (hT : T.IsReal) (s : Transforms ℝ)
    (rootObjects : List Obj) (obj : Obj) :
    T.length (rootGroupDirection T s rootObjects obj) = 1 := by
  unfold rootGroupDirection
  simp only
  split
  · exact T.length_radialDirection hT _ _
  · rename_i h
    exact T.length_normalize hT _ (fun h0 => h ((T.length_normalize_eq_zero_iff hT _).2 h0))

/-- With an invertible world matrix the conversion to local space keeps length one. -/
theorem length_transformDirectionInverse (T : Three ℝ) (hT : T.IsReal) (s : Transforms ℝ)
    (parent : Obj) (hM : T.InvertibleAt s parent) (v : Vector3 ℝ) (hv : T.length v = 1) :
    T.length (T.transformDirectionInverse s parent v) = 1 := by
  obtain ⟨M, hdet, hM⟩ := hM
  rw [hM, Three.transformDirection]
  apply T.length_normalize hT
  apply M.apply_ne_zero hdet
  intro h0
  rw [(T.length_eq_zero_iff hT v).2 h0] at hv
  exact zero_ne_one hv

/-! ## The grouping of `disassembleLayer` -/

theorem JSMap.has_iff {κ ν : Type} [DecidableEq κ] (m : JSMap κ ν) (k : κ) :
    JSMap.has m k = true ↔ k ∈ m.map Prod.fst := by
  simp only [JSMap.has, List.any_eq_true, decide_eq_true_eq, List.mem_map]

theorem JSMap.keys_modify {κ ν : Type} [DecidableEq κ] (m : JSMap κ ν) (k : κ) (f : ν → ν) :
    (JSMap.modify m k f).map Prod.fst = m.map Prod.fst := by
  induction m with
  | nil => rfl
  | cons e m ih =>
    by_cases he : e.1 = k
    · simp [JSMap.modify, he]
    · simp [JSMap.modify, he, ih]

/-- The entries of a map with pairwise different keys after the update under `k`. -/
theorem JSMap.mem_modify_iff {κ ν : Type} [DecidableEq κ] (m : JSMap κ ν) (k : κ) (f : ν → ν)
    (hnd : (m.map Prod.fst).Nodup) (e : κ × ν) :
    e ∈ JSMap.modify m k f ↔ (e ∈ m ∧ e.1 ≠ k) ∨ ∃ v, (k, v) ∈ m ∧ e = (k, f v) := by
  induction m with
  | nil => simp [JSMap.modify]
  | cons x m ih =>
    rw [List.map_cons, List.nodup_cons] at hnd
    by_cases hx : x.1 = k
    · have hk : ∀ v, (k, v) ∉ m := fun v hv => hnd.1 (hx ▸ List.mem_map.2 ⟨(k, v), hv, rfl⟩)
      simp only [JSMap.modify, hx, if_true, List.mem_cons]
      constructor
      · rintro (h | h)
        · exact Or.inr ⟨x.2, Or.inl (by rw [← hx]), h⟩
        · refine Or.inl ⟨Or.inr h, fun hek => hk e.2 ?_⟩
          rw [← hek]; exact h
      · rintro (⟨h | h, hne⟩ | ⟨v, h | h, he⟩)
        · exact absurd (h ▸ hx) hne
        · exact Or.inr h
        · left; rw [he, ← h]
        · exact absurd h (hk v)
    · simp only [JSMap.modify, hx, if_false, List.mem_cons, ih hnd.2]
      constructor
      · rintro (h | ⟨h, hne⟩ | ⟨v, hv, he⟩)
        · exact Or.inl ⟨Or.inl h, h ▸ hx⟩
        · exact Or.inl ⟨Or.inr h, hne⟩
        · exact Or.inr ⟨v, Or.inr hv, he⟩
      · rintro (⟨h | h, hne⟩ | ⟨v, h | h, he⟩)
        · exact Or.inl h
        · exact Or.inr (Or.inl ⟨h, hne⟩)
        · exact absurd (congrArg Prod.fst h).symm hx
        · exact Or.inr (Or.inr ⟨v, h, he⟩)

theorem groupStep_rootLevel (rootObject : Option Object3D)
    (acc : JSMap String ParentGroup × List Obj) (obj : Obj)
    (h : isRootLevel rootObject obj = true) :
    groupStep rootObject acc obj = (acc.1, acc.2 ++ [obj]) := by
  unfold groupStep
  unfold isRootLevel at h
  cases hp : obj.parent with
  | none => rfl
  | some parent =>
    rw [hp] at h
    simp only at h ⊢
    rw [h]
    rfl

theorem groupStep_grouped (rootObject : Option Object3D)
    (acc : JSMap String ParentGroup × List Obj) (obj : Obj)
    (h : isRootLevel rootObject obj = false) :
    ∃ parent, obj.parent = some parent ∧
      groupStep rootObject acc obj =
        (JSMap.modify
          (if !JSMap.has acc.1 parent.uuid then
            JSMap.set acc.1 parent.uuid { parent := parent, children := [] }
          else acc.1)
          parent.uuid (fun g => { g with children := g.children ++ [obj] }), acc.2) := by
  unfold isRootLevel at h
  cases hp : obj.parent with
  | none => rw [hp] at h; cases h
  | some parent =>
    rw [hp] at h
    refine ⟨parent, rfl, ?_⟩
    unfold groupStep
    simp only [hp]
    simp only at h
    rw [h]
    rfl

theorem groupStep_inv_aux (rootObject : Option Object3D) (m1 : JSMap String ParentGroup)
    (roots xs : List Obj) (obj parent : Obj) (hp : obj.parent = some parent)
    (hr : isRootLevel rootObject obj = false)
    (H1 : (m1.map Prod.fst).Nodup) (H2 : parent.uuid ∈ m1.map Prod.fst)
    (H3 : ∀ e ∈ m1, e.2.children = xs.filter (inGroup rootObject e.1))
    (H3r : roots = xs.filter (isRootLevel rootObject))
    (H4 : ∀ o ∈ xs, isRootLevel rootObject o = false → ∃ e ∈ m1, parentUuid o = some e.1)
    (H5 : ∀ e ∈ m1, (∃ o ∈ xs, o.parent = some e.2.parent ∧ parentUuid o = some e.1 ∧
      isRootLevel rootObject o = false) ∨ (e.1 = parent.uuid ∧ e.2.parent = parent)) :
    GroupInv rootObject
      (JSMap.modify m1 parent.uuid (fun g => { g with children := g.children ++ [obj] }), roots)
      (xs ++ [obj]) := by
  have hkey : parentUuid obj = some parent.uuid := by simp [parentUuid, hp]
  have hin : inGroup rootObject parent.uuid obj = true := by simp [inGroup, hr, hkey]
  have hout : ∀ k, k ≠ parent.uuid → inGroup rootObject k obj = false := by
    intro k hk
    simp only [inGroup, hkey, Option.some.injEq, Bool.and_eq_false_imp]
    intro _
    simpa using fun h => hk h.symm
  have hkeys := JSMap.keys_modify m1 parent.uuid
    (fun g => { g with children := g.children ++ [obj] })
  refine ⟨by simpa only [hkeys] using H1, ?_, ?_, ?_, ?_⟩
  · intro e he
    rcases (JSMap.mem_modify_iff m1 _ _ H1 e).1 he with ⟨he, hne⟩ | ⟨v, hv, rfl⟩
    · rw [List.filter_append, H3 e he]
      simp [hout e.1 hne]
    · have := H3 _ hv
      simp only at this
      rw [List.filter_append]
      simp [hin, this]
  · simp only [List.filter_append, H3r]
    simp [hr]
  · intro o ho hro
    have hk : ∃ k, parentUuid o = some k ∧ k ∈ m1.map Prod.fst := by
      rcases List.mem_append.1 ho with ho | ho
      · obtain ⟨e, he, hk⟩ := H4 o ho hro
        exact ⟨e.1, hk, List.mem_map.2 ⟨e, he, rfl⟩⟩
      · rw [List.mem_singleton.1 ho]
        exact ⟨parent.uuid, hkey, H2⟩
    obtain ⟨k, hk1, hk2⟩ := hk
    rw [← hkeys] at hk2
    obtain ⟨e, he, rfl⟩ := List.mem_map.1 hk2
    exact ⟨e, he, hk1⟩
  · intro e he
    rcases (JSMap.mem_modify_iff m1 _ _ H1 e).1 he with ⟨he, hne⟩ | ⟨v, hv, rfl⟩
    · rcases H5 e he with ⟨o, ho, h⟩ | ⟨h, _⟩
      · exact ⟨o, List.mem_append_left _ ho, h⟩
      · exact absurd h hne
    · rcases H5 _ hv with ⟨o, ho, h⟩ | ⟨_, h⟩
      · exact ⟨o, List.mem_append_left _ ho, h⟩
      · simp only at h
        exact ⟨obj, List.mem_append_right _ (List.mem_singleton.2 rfl), by simp [hp, h], hkey,
          hr⟩

/-- One round of `layer.forEach` keeps `GroupInv`. -/
theorem groupStep_inv (rootObject : Option Object3D)
    (acc : JSMap String ParentGroup × List Obj) (xs : List Obj) (obj : Obj)
    (h : GroupInv rootObject acc xs) :
    GroupInv rootObject (groupStep rootObject acc obj) (xs ++ [obj]) := by
  obtain ⟨h1, h2, h3, h4, h5⟩ := h
  cases hr : isRootLevel rootObject obj with
  | true =>
    rw [groupStep_rootLevel rootObject acc obj hr]
    refine ⟨h1, ?_, ?_, ?_, ?_⟩
    · intro e he
      rw [List.filter_append, h2 e he]
      simp [inGroup, hr]
    · simp only [List.filter_append, h3]
      simp [hr]
    · intro o ho hro
      rcases List.mem_append.1 ho with ho | ho
      · exact h4 o ho hro
      · rw [List.mem_singleton.1 ho, hr] at hro
        cases hro
    · intro e he
      obtain ⟨o, ho, h⟩ := h5 e he
      exact ⟨o, List.mem_append_left _ ho, h⟩
  | false =>
    obtain ⟨parent, hp, hstep⟩ := groupStep_grouped rootObject acc obj hr
    rw [hstep]
    by_cases hh : JSMap.has acc.1 parent.uuid = true
    · simp only [hh, Bool.not_true, Bool.false_eq_true, if_false]
      exact groupStep_inv_aux rootObject acc.1 acc.2 xs obj parent hp hr h1
        ((JSMap.has_iff _ _).1 hh) h2 h3 h4 (fun e he => Or.inl (h5 e he))
    · have hnk : parent.uuid ∉ acc.1.map Prod.fst := fun hk => hh ((JSMap.has_iff _ _).2 hk)
      simp only [hh, Bool.not_false, if_true, JSMap.set_of_not_mem _ _ _ hnk]
      apply groupStep_inv_aux rootObject _ acc.2 xs obj parent hp hr
      · rw [List.map_append, List.nodup_append]
        refine ⟨h1, by simp, ?_⟩
        intro k hk1 hk2
        simp only [List.map_cons, List.map_nil, List.mem_singleton] at hk2
        exact hnk (hk2 ▸ hk1)
      · simp
      · intro e he
        rcases List.mem_append.1 he with he | he
        · exact h2 e he
        · rw [List.mem_singleton.1 he]
          symm
          apply List.filter_eq_nil_iff.2
          intro o ho hin
          simp only [inGroup, Bool.and_eq_true, Bool.not_eq_true', decide_eq_true_eq] at hin
          obtain ⟨e', he', hk⟩ := h4 o ho hin.1
          rw [hin.2] at hk
          injection hk with hk
          exact hnk (hk ▸ List.mem_map.2 ⟨e', he', rfl⟩)
      · exact h3
      · intro o ho hro
        obtain ⟨e, he, hk⟩ := h4 o ho hro
        exact ⟨e, List.mem_append_left _ he, hk⟩
      · intro e he
        rcases List.mem_append.1 he with he | he
        · exact Or.inl (h5 e he)
        · rw [List.mem_singleton.1 he]
          exact Or.inr ⟨rfl, rfl⟩

theorem foldl_groupStep_inv (rootObject : Option Object3D) (ys : List Obj)
    (acc : JSMap String ParentGroup × List Obj) (xs : List Obj)
    (h : GroupInv rootObject acc xs) :
    GroupInv rootObject (ys.foldl (groupStep rootObject) acc) (xs ++ ys) := by
  induction ys generalizing acc xs with
  | nil => simpa using h
  | cons y ys ih =>
    rw [List.foldl_cons]
    have := ih _ _ (groupStep_inv rootObject acc xs y h)
    simpa using this

/-- The grouping of `disassembleLayer`: `GroupInv` holds of `parentGroups` and `rootObjects`
for the whole layer. -/
theorem grouping_spec (layer : List Obj) (rootObject : Option Object3D) :
    GroupInv rootObject (parentGroupsOf layer rootObject, rootObjectsOf layer rootObject)
      layer := by
  have := foldl_groupStep_inv rootObject layer ([], []) []
    ⟨by simp, by simp, by simp, by simp, by simp⟩
  simpa [parentGroupsOf, rootObjectsOf] using this

theorem foldl_append_eq_flatMap {σ τ : Type} (F : σ → List τ) (gs : List σ) (acc : List τ) :
    gs.foldl (fun targets g => targets ++ F g) acc = acc ++ gs.flatMap F := by
  induction gs generalizing acc with
  | nil => simp
  | cons g gs ih => rw [List.foldl_cons, ih, List.flatMap_cons, List.append_assoc]

/-- The targets of `disassembleLayer`, group by group, then the root-level ones. -/
theorem disassembleLayer_eq {α : Type} [Field α] [DecidableEq α] (T : Three α)
    (s : Transforms α) (layer : List Obj) (rootObject : Option Object3D) (distance : α) :
    disassembleLayer T s (some layer) rootObject distance =
      (parentGroupsOf layer rootObject).flatMap
          (fun g => g.2.children.map
            (parentGroupTarget T s g.2.parent g.2.children distance)) ++
        (rootObjectsOf layer rootObject).map
          (rootGroupTarget T s (rootObjectsOf layer rootObject) distance) := by
  cases layer with
  | nil => simp [disassembleLayer, parentGroupsOf, rootObjectsOf]
  | cons o os =>
    simp only [disassembleLayer, foldl_append_eq_flatMap, List.nil_append, parentGroupsOf,
      rootObjectsOf]
    split
    · rfl
    · rename_i h
      have : ((o :: os).foldl (groupStep rootObject) ([], [])).2 = [] := by
        apply List.eq_nil_of_length_eq_zero
        omega
      rw [this, List.map_nil, List.append_nil]

theorem parentGroupTarget_eq {α : Type} [Field α] [DecidableEq α] (T : Three α)
    (s : Transforms α) (parent : Obj) (children : List Obj) (distance : α) (obj : Obj) :
    parentGroupTarget T s parent children distance obj =
      makeTarget s obj
        (T.transformDirectionInverse s parent (parentGroupDirection T s parent children obj))
        distance := rfl

theorem rootGroupTarget_eq {α : Type} [Field α] [DecidableEq α] (T : Three α)
    (s : Transforms α) (rootObjects : List Obj) (distance : α) (obj : Obj) :
    rootGroupTarget T s rootObjects distance obj =
      makeTarget s obj (rootGroupDirection T s rootObjects obj) distance := rfl

theorem translationThree_invertibleAt {α : Type} [Field α] [DecidableEq α]
    (sqrt cos sin : α → α) (pi : α) (center : Obj → Vector3 α) (s : Transforms α)
    (parent : Obj) : (translationThree sqrt cos sin pi center).InvertibleAt s parent := by
  refine ⟨Matrix3.identity, by simp [Matrix3.det, Matrix3.identity], ?_⟩
  intro v
  simp [translationThree, Three.transformDirection, Three.normalize, Three.length,
    Matrix3.apply, Matrix3.identity]

/-- C14 (target displacement), in real arithmetic: when the world matrix of the parent of
every grouped object of the layer is invertible, every target of `disassembleLayer` starts at
the present local position of its object and ends at `startPosition + direction * distance`
for a `direction` of length one, so the distance between the two is `|distance|`. -/
theorem target_displacement (T : Three ℝ) (hT : T.IsReal) (s : Transforms ℝ)
    (layer : List Obj) (rootObject : Option Object3D) (distance : ℝ)
    (hM : ∀ o ∈ layer, ∀ p, o.parent = some p → isRootLevel rootObject o = false →
      T.InvertibleAt s p) :
    ∀ t ∈ disassembleLayer T s (some layer) rootObject distance,
      t.startPosition = s.position t.object.path ∧
        ∃ direction, T.length direction = 1 ∧
          t.targetPosition = t.startPosition.add (direction.multiplyScalar distance) ∧
          T.length (Vector3.subVectors t.targetPosition t.startPosition) = |distance| := by
  intro t ht
  have key : ∀ (obj : Obj) (direction : Vector3 ℝ), T.length direction = 1 →
      (makeTarget s obj direction distance).startPosition =
          s.position (makeTarget s obj direction distance).object.path ∧
        ∃ dir, T.length dir = 1 ∧
          (makeTarget s obj direction distance).targetPosition =
            (makeTarget s obj direction distance).startPosition.add
              (dir.multiplyScalar distance) ∧
          T.length (Vector3.subVectors (makeTarget s obj direction distance).targetPosition
            (makeTarget s obj direction distance).startPosition) = |distance| := by
    intro obj direction hd
    refine ⟨rfl, direction, hd, rfl, ?_⟩
    simp only [makeTarget]
    rw [Vector3.sub_add_cancel_left, T.length_multiplyScalar hT, hd, mul_one]
  rw [disassembleLayer_eq] at ht
  obtain ⟨_, _, _, _, h5⟩ := grouping_spec layer rootObject
  rcases List.mem_append.1 ht with ht | ht
  · obtain ⟨g, hg, ht⟩ := List.mem_flatMap.1 ht
    obtain ⟨c, _, rfl⟩ := List.mem_map.1 ht
    obtain ⟨o, ho, hop, _, hor⟩ := h5 g hg
    rw [parentGroupTarget_eq]
    exact key c _ (length_transformDirectionInverse T hT s _ (hM o ho _ hop hor) _
      (length_parentGroupDirection T hT s _ _ _))
  · obtain ⟨c, _, rfl⟩ := List.mem_map.1 ht
    rw [rootGroupTarget_eq]
    exact key c _ (length_rootGroupDirection T hT s _ _)

/-- C14 at the second layer of `familyTree`, all objects at the origin. -/
theorem target_displacement_witness :
    (translationThree Real.sqrt Real.cos Real.sin Real.pi (fun _ => ⟨0, 0, 0⟩)).IsReal ∧
      (∀ o ∈ familyLeaves, ∀ p, o.parent = some p →
        isRootLevel (some familyTree) o = false →
        (translationThree Real.sqrt Real.cos Real.sin Real.pi
          (fun _ => ⟨0, 0, 0⟩)).InvertibleAt originScene p) ∧
      ∀ t ∈ disassembleLayer
          (translationThree Real.sqrt Real.cos Real.sin Real.pi (fun _ => ⟨0, 0, 0⟩))
          originScene (some familyLeaves) (some familyTree) 3,
        t.startPosition = (originScene : Transforms ℝ).position t.object.path ∧
          ∃ direction,
            (translationThree Real.sqrt Real.cos Real.sin Real.pi
              (fun _ => ⟨0, 0, 0⟩)).length direction = 1 ∧
            t.targetPosition = t.startPosition.add (direction.multiplyScalar 3) ∧
            (translationThree Real.sqrt Real.cos Real.sin Real.pi
              (fun _ => ⟨0, 0, 0⟩)).length
                (Vector3.subVectors t.targetPosition t.startPosition) = |(3 : ℝ)| :=
  ⟨⟨rfl, rfl, rfl, rfl⟩, fun _ _ p _ _ => translationThree_invertibleAt _ _ _ _ _ _ p,
    target_displacement _ ⟨rfl, rfl, rfl, rfl⟩ originScene familyLeaves (some familyTree) 3
      (fun _ _ p _ _ => translationThree_invertibleAt _ _ _ _ _ _ p)⟩

theorem JSMap.perm_modify_push (m : JSMap String ParentGroup) (k : String) (obj : Obj)
    (hk : k ∈ m.map Prod.fst) :
    ((JSMap.modify m k (fun g => { g with children := g.children ++ [obj] })).flatMap
        (fun e => e.2.children)).Perm
      (m.flatMap (fun e => e.2.children) ++ [obj]) := by
  induction m with
  | nil => simp at hk
  | cons e m ih =>
    by_cases he : e.1 = k
    · simp only [JSMap.modify, he, if_true, List.flatMap_cons]
      rw [List.append_assoc, List.append_assoc]
      exact List.Perm.append_left _ List.perm_append_comm
    · have hk2 : k ∈ m.map Prod.fst := by
        simp only [List.map_cons, List.mem_cons] at hk
        rcases hk with hk | hk
        · exact absurd hk.symm he
        · exact hk
      simp only [JSMap.modify, he, if_false, List.flatMap_cons]
      rw [List.append_assoc]
      exact List.Perm.append_left _ (ih hk2)

theorem perm_groupStep (rootObject : Option Object3D)
    (acc : JSMap String ParentGroup × List Obj) (obj : Obj) :
    ((groupStep rootObject acc obj).1.flatMap (fun e => e.2.children) ++
        (groupStep rootObject acc obj).2).Perm
      ((acc.1.flatMap (fun e => e.2.children) ++ acc.2) ++ [obj]) := by
  cases hr : isRootLevel rootObject obj with
  | true =>
    rw [groupStep_rootLevel rootObject acc obj hr, List.append_assoc]
  | false =>
    obtain ⟨parent, _, hstep⟩ := groupStep_grouped rootObject acc obj hr
    rw [hstep]
    simp only
    have hperm : ∀ m1 : JSMap String ParentGroup, parent.uuid ∈ m1.map Prod.fst →
        m1.flatMap (fun e => e.2.children) = acc.1.flatMap (fun e => e.2.children) →
        ((JSMap.modify m1 parent.uuid
            (fun g => { g with children := g.children ++ [obj] })).flatMap
            (fun e => e.2.children) ++ acc.2).Perm
          ((acc.1.flatMap (fun e => e.2.children) ++ acc.2) ++ [obj]) := by
      intro m1 hk hflat
      have h1 := JSMap.perm_modify_push m1 parent.uuid obj hk
      rw [hflat] at h1
      refine (h1.append_right acc.2).trans ?_
      rw [List.append_assoc, List.append_assoc]
      exact List.Perm.append_left _ List.perm_append_comm
    by_cases hh : JSMap.has acc.1 parent.uuid = true
    · simp only [hh, Bool.not_true, Bool.false_eq_true, if_false]
      exact hperm acc.1 ((JSMap.has_iff _ _).1 hh) rfl
    · have hnk : parent.uuid ∉ acc.1.map Prod.fst := fun hk => hh ((JSMap.has_iff _ _).2 hk)
      simp only [hh, Bool.not_false, if_true, JSMap.set_of_not_mem _ _ _ hnk]
      exact hperm _ (by simp) (by simp)

theorem perm_foldl_groupStep (rootObject : Option Object3D) (ys : List Obj)
    (acc : JSMap String ParentGroup × List Obj) :
    ((ys.foldl (groupStep rootObject) acc).1.flatMap (fun e => e.2.children) ++
        (ys.foldl (groupStep rootObject) acc).2).Perm
      ((acc.1.flatMap (fun e => e.2.children) ++ acc.2) ++ ys) := by
  induction ys generalizing acc with
  | nil => simp
  | cons y ys ih =>
    rw [List.foldl_cons]
    refine (ih _).trans ?_
    refine ((perm_groupStep rootObject acc y).append_right ys).trans ?_
    simp

/-- The objects of the targets of `disassembleLayer`: those of the groups, then the
root-level ones. -/
theorem disassembleLayer_objects {α : Type} [Field α] [DecidableEq α] (T : Three α)
    (s : Transforms α) (layer : List Obj) (rootObject : Option Object3D) (distance : α) :
    (disassembleLayer T s (some layer) rootObject distance).map (fun t => t.object) =
      (parentGroupsOf layer rootObject).flatMap (fun e => e.2.children) ++
        rootObjectsOf layer rootObject := by
  rw [disassembleLayer_eq, List.map_append, List.map_flatMap]
  congr 1
  · congr 1
    funext g
    rw [List.map_map]
    exact List.map_id'' (fun _ => rfl) _
  · rw [List.map_map]
    exact List.map_id'' (fun _ => rfl) _

/-- C15 (one target per node): the objects of the targets of `disassembleLayer` are a
permutation of the layer, so there are as many targets as objects, each target carries the id
of its object, and with pairwise different ids no id has two targets; a `null` or empty layer
gives no target. The objects with a parent that is not the root are grouped under the uuid of
their parent (every group holds, in order, the objects of the layer with that key), and the
objects whose parent is the root or absent form the root-level group; the targets are those
of the groups, in the order of the map, followed by those of the root-level group. -/
theorem one_target_per_node {α : Type} [Field α] [DecidableEq α] (T : Three α)
    (s : Transforms α) (layer : List Obj) (rootObject : Option Object3D) (distance : α) :
    ((disassembleLayer T s (some layer) rootObject distance).map
        (fun t => t.object)).Perm layer ∧
      (disassembleLayer T s (some layer) rootObject distance).length = layer.length ∧
      (∀ t ∈ disassembleLayer T s (some layer) rootObject distance, t.uuid = t.object.uuid) ∧
      ((layer.map Obj.uuid).Nodup →
        ((disassembleLayer T s (some layer) rootObject distance).map
          (fun t => t.uuid)).Nodup) ∧
      disassembleLayer T s none rootObject distance = [] ∧
      disassembleLayer T s (some []) rootObject distance = [] ∧
      (∀ e ∈ parentGroupsOf layer rootObject,
        e.2.children = layer.filter
          (fun o => !isRootLevel rootObject o && decide (parentUuid o = some e.1))) ∧
      ((parentGroupsOf layer rootObject).map Prod.fst).Nodup ∧
      rootObjectsOf layer rootObject = layer.filter (isRootLevel rootObject) ∧
      disassembleLayer T s (some layer) rootObject distance =
        (parentGroupsOf layer rootObject).flatMap
            (fun g => g.2.children.map
              (parentGroupTarget T s g.2.parent g.2.children distance)) ++
          (rootObjectsOf layer rootObject).map
            (rootGroupTarget T s (rootObjectsOf layer rootObject) distance) := by
  have hperm : ((disassembleLayer T s (some layer) rootObject distance).map
      (fun t => t.object)).Perm layer := by
    rw [disassembleLayer_objects]
    have := perm_foldl_groupStep rootObject layer ([], [])
    simpa [parentGroupsOf, rootObjectsOf] using this
  have huuid : ∀ t ∈ disassembleLayer T s (some layer) rootObject distance,
      t.uuid = t.object.uuid := by
    intro t ht
    rw [disassembleLayer_eq] at ht
    rcases List.mem_append.1 ht with ht | ht
    · obtain ⟨g, _, ht⟩ := List.mem_flatMap.1 ht
      obtain ⟨c, _, rfl⟩ := List.mem_map.1 ht
      rfl
    · obtain ⟨c, _, rfl⟩ := List.mem_map.1 ht
      rfl
  obtain ⟨h1, h2, h3, _, _⟩ := grouping_spec layer rootObject
  refine ⟨hperm, ?_, huuid, ?_, rfl, rfl, h2, h1, h3, disassembleLayer_eq T s layer _ _⟩
  · have := hperm.length_eq
    simpa using this
  · intro hnd
    have hmap : (disassembleLayer T s (some layer) rootObject distance).map (fun t => t.uuid) =
        ((disassembleLayer T s (some layer) rootObject distance).map
          (fun t => t.object)).map Obj.uuid := by
      rw [List.map_map]
      exact List.map_congr_left (fun t ht => huuid t ht)
    rw [hmap]
    exact ((hperm.map Obj.uuid).nodup_iff).2 hnd

/-! ## The fallback directions -/

theorem indexOf_get (children : List Obj) (hnd : (children.map Obj.path).Nodup) (i : Nat)
    (hi : i < children.length) : indexOf children (children.get ⟨i, hi⟩) = (i : Int) := by
  induction children generalizing i with
  | nil => simp at hi
  | cons o rest ih =>
    rw [List.map_cons, List.nodup_cons] at hnd
    cases i with
    | zero => simp [indexOf, Obj.same]
    | succ j =>
      have hj : j < rest.length := by simpa using hi
      have hne : o.same (rest.get ⟨j, hj⟩) = false := by
        simp only [Obj.same, beq_eq_false_iff_ne, ne_eq]
        intro h
        exact hnd.1 (h ▸ List.mem_map.2 ⟨_, List.get_mem rest j hj, rfl⟩)
      have := ih hnd.2 j hj
      simp only [List.get_eq_getElem, List.getElem_cons_succ] at hne this ⊢
      simp only [indexOf, hne, Bool.false_eq_true, if_false, this]
      have : ¬ ((j : Int) < 0) := by omega
      simp [this]

theorem Vector3.subVectors_self (v : Vector3 ℝ) : Vector3.subVectors v v = ⟨0, 0, 0⟩ := by
  simp [Vector3.subVectors]

/-- The direction of a parent group for an object at the centre of its parent's box. -/
theorem parentGroupDirection_at_center (T : Three ℝ) (hT : T.IsReal) (s : Transforms ℝ)
    (parent : Obj) (children : List Obj) (obj : Obj)
    (hc : T.getWorldPosition s obj = T.boxCenter s parent) :
    parentGroupDirection T s parent children obj =
      if s.position obj.path = ⟨0, 0, 0⟩ then
        radialDirection T (indexOf children obj) children.length
      else T.normalize (s.position obj.path) := by
  unfold parentGroupDirection
  simp only [hc, Vector3.subVectors_self, T.normalize_zero,
    (T.length_eq_zero_iff hT _).2 rfl, if_true, T.length_normalize_eq_zero_iff hT]

theorem radialDirection_real (T : Three ℝ) (hT : T.IsReal) (i count : Nat) :
    radialDirection T (i : Int) count =
      ⟨Real.cos (2 * Real.pi * i / count), 0, Real.sin (2 * Real.pi * i / count)⟩ := by
  simp only [radialDirection, hT.2.1, hT.2.2.1, hT.2.2.2, Int.cast_natCast]
  have : (i : ℝ) / (count : ℝ) * Real.pi * 2 = 2 * Real.pi * i / count := by ring
  rw [this]

/-- C16 (fallback chain of a parent group), in real arithmetic: for the object at index `i`
of a parent group (whose objects are pairwise different) that lies at the centre of the
parent's bounding box, the direction before conversion to local space is
`normalize(position)` when the local position is not zero, and otherwise
`(cos a, 0, sin a)` with `a = 2 * pi * i / groupSize`; in a group of four such objects at the
origin of their parent these are `(1, 0, 0)`, `(0, 0, 1)`, `(-1, 0, 0)` and `(0, 0, -1)`.
The target of the object is built from this direction, converted to local space. -/
theorem degenerate_direction_chain (T : Three ℝ) (hT : T.IsReal) (s : Transforms ℝ)
    (parent : Obj) (children : List Obj) (i : Nat) (hi : i < children.length)
    (hnd : (children.map Obj.path).Nodup)
    (hc : T.getWorldPosition s (children.get ⟨i, hi⟩) = T.boxCenter s parent) :
    (s.position (children.get ⟨i, hi⟩).path ≠ ⟨0, 0, 0⟩ →
        parentGroupDirection T s parent children (children.get ⟨i, hi⟩) =
          T.normalize (s.position (children.get ⟨i, hi⟩).path)) ∧
      (s.position (children.get ⟨i, hi⟩).path = ⟨0, 0, 0⟩ →
        parentGroupDirection T s parent children (children.get ⟨i, hi⟩) =
          ⟨Real.cos (2 * Real.pi * i / children.length), 0,
            Real.sin (2 * Real.pi * i / children.length)⟩) ∧
      (s.position (children.get ⟨i, hi⟩).path = ⟨0, 0, 0⟩ → children.length = 4 →
        ([⟨1, 0, 0⟩, ⟨0, 0, 1⟩, ⟨-1, 0, 0⟩, ⟨0, 0, -1⟩] : List (Vector3 ℝ)).get? i =
          some (parentGroupDirection T s parent children (children.get ⟨i, hi⟩))) ∧
      ∀ distance, parentGroupTarget T s parent children distance (children.get ⟨i, hi⟩) =
        makeTarget s (children.get ⟨i, hi⟩)
          (T.transformDirectionInverse s parent
            (parentGroupDirection T s parent children (children.get ⟨i, hi⟩)))
          distance := by
  have hdir := parentGroupDirection_at_center T hT s parent children _ hc
  have hzero : s.position (children.get ⟨i, hi⟩).path = ⟨0, 0, 0⟩ →
      parentGroupDirection T s parent children (children.get ⟨i, hi⟩) =
        ⟨Real.cos (2 * Real.pi * i / children.length), 0,
          Real.sin (2 * Real.pi * i / children.length)⟩ := by
    intro h0
    rw [hdir, if_pos h0, indexOf_get children hnd i hi, radialDirection_real T hT]
  refine ⟨fun hne => by rw [hdir, if_neg hne], hzero, ?_, fun _ => rfl⟩
  intro h0 h4
  rw [hzero h0, h4]
  have hi4 : i < 4 := h4 ▸ hi
  have h3 : (2 * Real.pi * (3 : ℝ) / 4) = 2 * Real.pi - Real.pi / 2 := by ring
  have h2 : (2 * Real.pi * (2 : ℝ) / 4) = Real.pi := by ring
  have h1 : (2 * Real.pi / 4) = Real.pi / 2 := by ring
  interval_cases i
  · simp
  · simp [h1]
  · simp [h2]
  · simp [h3, Real.cos_two_pi_sub, Real.sin_two_pi_sub]

theorem radialDirection_injective (i j count : Nat) (hi : i < count) (hj : j < count)
    (h : (⟨Real.cos (2 * Real.pi * i / count), 0, Real.sin (2 * Real.pi * i / count)⟩ :
        Vector3 ℝ) =
      ⟨Real.cos (2 * Real.pi * j / count), 0, Real.sin (2 * Real.pi * j / count)⟩) :
    i = j := by
  rw [Vector3.ext_iff3] at h
  obtain ⟨hcos, _, hsin⟩ := h
  simp only at hcos hsin
  obtain ⟨k, hk⟩ := Real.Angle.angle_eq_iff_two_pi_dvd_sub.1 (Real.Angle.cos_sin_inj hcos hsin)
  have hn : (0 : ℝ) < count := by
    have : 0 < count := by omega
    exact_mod_cast this
  have hpi := Real.pi_pos
  have hreal : (i : ℝ) - j = k * count := by
    have h2 : 2 * Real.pi * ((i : ℝ) - j) = 2 * Real.pi * (k * count) := by
      field_simp at hk
      linarith
    have h3 : (2 * Real.pi) ≠ 0 := by positivity
    exact mul_left_cancel₀ h3 h2
  have hint : (i : Int) - j = k * count := by exact_mod_cast hreal
  have hk0 : k = 0 := by
    by_contra hne
    rcases lt_or_gt_of_ne hne with hlt | hgt
    · have : k * (count : Int) ≤ -1 * count :=
        Int.mul_le_mul_of_nonneg_right (by omega) (by omega)
      omega
    · have : 1 * (count : Int) ≤ k * count :=
        Int.mul_le_mul_of_nonneg_right (by omega) (by omega)
      omega
  rw [hk0] at hint
  omega

theorem Matrix3.apply_combination (M : Matrix3 ℝ) (u v : Vector3 ℝ) (a b : ℝ) :
    M.apply ⟨u.x * a - v.x * b, u.y * a - v.y * b, u.z * a - v.z * b⟩ =
      ⟨(M.apply u).x * a - (M.apply v).x * b, (M.apply u).y * a - (M.apply v).y * b,
        (M.apply u).z * a - (M.apply v).z * b⟩ := by
  simp only [Matrix3.apply, Vector3.mk.injEq]
  refine ⟨by ring, by ring, by ring⟩

/-- With an invertible block, `transformDirection` sends different vectors of length one to
different vectors. -/
theorem transformDirection_injective (T : Three ℝ) (hT : T.IsReal) (M : Matrix3 ℝ)
    (hM : M.det ≠ 0) (u v : Vector3 ℝ) (hu : T.length u = 1) (hv : T.length v = 1)
    (h : T.transformDirection u M = T.transformDirection v M) : u = v := by
  have hu0 : u ≠ ⟨0, 0, 0⟩ := fun h0 => by
    rw [(T.length_eq_zero_iff hT u).2 h0] at hu; exact zero_ne_one hu
  have hv0 : v ≠ ⟨0, 0, 0⟩ := fun h0 => by
    rw [(T.length_eq_zero_iff hT v).2 h0] at hv; exact zero_ne_one hv
  have ha : T.length (M.apply u) ≠ 0 :=
    fun h0 => M.apply_ne_zero hM u hu0 ((T.length_eq_zero_iff hT _).1 h0)
  have hb : T.length (M.apply v) ≠ 0 :=
    fun h0 => M.apply_ne_zero hM v hv0 ((T.length_eq_zero_iff hT _).1 h0)
  have hapos : 0 < T.length (M.apply u) :=
    lt_of_le_of_ne (T.length_nonneg hT _) (Ne.symm ha)
  have hbpos : 0 < T.length (M.apply v) :=
    lt_of_le_of_ne (T.length_nonneg hT _) (Ne.symm hb)
  simp only [Three.transformDirection, Three.normalize, ha, hb, if_false, Vector3.divideScalar,
    Vector3.multiplyScalar, Vector3.mk.injEq] at h
  obtain ⟨h1, h2, h3⟩ := h
  generalize T.length (M.apply u) = la at *
  generalize T.length (M.apply v) = lb at *
  have hw : M.apply ⟨u.x * lb - v.x * la, u.y * lb - v.y * la, u.z * lb - v.z * la⟩ =
      ⟨0, 0, 0⟩ := by
    rw [M.apply_combination, Vector3.mk.injEq]
    field_simp at h1 h2 h3
    refine ⟨by linarith, by linarith, by linarith⟩
  have hw0 : (⟨u.x * lb - v.x * la, u.y * lb - v.y * la, u.z * lb - v.z * la⟩ : Vector3 ℝ) =
      ⟨0, 0, 0⟩ := by
    by_contra hne
    exact M.apply_ne_zero hM _ hne hw
  rw [Vector3.mk.injEq] at hw0
  obtain ⟨e1, e2, e3⟩ := hw0
  have su : u.x * u.x + u.y * u.y + u.z * u.z = 1 := by
    have := hu
    rw [T.length_real hT, Real.sqrt_eq_one] at this
    exact this
  have sv : v.x * v.x + v.y * v.y + v.z * v.z = 1 := by
    have := hv
    rw [T.length_real hT, Real.sqrt_eq_one] at this
    exact this
  have hsq : lb * lb = la * la := by
    have : (u.x * lb) * (u.x * lb) + (u.y * lb) * (u.y * lb) + (u.z * lb) * (u.z * lb) =
        (v.x * la) * (v.x * la) + (v.y * la) * (v.y * la) + (v.z * la) * (v.z * la) := by
      rw [sub_eq_zero.1 e1, sub_eq_zero.1 e2, sub_eq_zero.1 e3]
    nlinarith
  have hab : lb = la := by nlinarith
  rw [hab] at e1 e2 e3
  rw [Vector3.ext_iff3]
  refine ⟨?_, ?_, ?_⟩
  · exact mul_right_cancel₀ ha (sub_eq_zero.1 e1)
  · exact mul_right_cancel₀ ha (sub_eq_zero.1 e2)
  · exact mul_right_cancel₀ ha (sub_eq_zero.1 e3)

/-- C17 as the code has it (fallback distinctness), in real arithmetic: two different objects
of a parent group (whose objects are pairwise different) that both lie at the centre of the
parent's bounding box and both have the local position zero get different directions before
the conversion to local space, and also after it when the parent's world matrix is
invertible. -/
theorem fallback_distinct (T : Three ℝ) (hT : T.IsReal) (s : Transforms ℝ) (parent : Obj)
    (children : List Obj) (i j : Nat) (hi : i < children.length) (hj : j < children.length)
    (hij : i ≠ j) (hnd : (children.map Obj.path).Nodup)
    (hci : T.getWorldPosition s (children.get ⟨i, hi⟩) = T.boxCenter s parent)
    (hcj : T.getWorldPosition s (children.get ⟨j, hj⟩) = T.boxCenter s parent)
    (hpi : s.position (children.get ⟨i, hi⟩).path = ⟨0, 0, 0⟩)
    (hpj : s.position (children.get ⟨j, hj⟩).path = ⟨0, 0, 0⟩) :
    parentGroupDirection T s parent children (children.get ⟨i, hi⟩) ≠
        parentGroupDirection T s parent children (children.get ⟨j, hj⟩) ∧
      (T.InvertibleAt s parent →
        T.transformDirectionInverse s parent
            (parentGroupDirection T s parent children (children.get ⟨i, hi⟩)) ≠
          T.transformDirectionInverse s parent
            (parentGroupDirection T s parent children (children.get ⟨j, hj⟩))) := by
  have hne : parentGroupDirection T s parent children (children.get ⟨i, hi⟩) ≠
      parentGroupDirection T s parent children (children.get ⟨j, hj⟩) := by
    rw [parentGroupDirection_at_center T hT s parent children _ hci,
      parentGroupDirection_at_center T hT s parent children _ hcj, if_pos hpi, if_pos hpj,
      indexOf_get children hnd i hi, indexOf_get children hnd j hj,
      radialDirection_real T hT, radialDirection_real T hT]
    exact fun h => hij (radialDirection_injective i j children.length hi hj h)
  refine ⟨hne, ?_⟩
  rintro ⟨M, hdet, hM⟩ h
  rw [hM, hM] at h
  exact hne (transformDirection_injective T hT M hdet _ _
    (length_parentGroupDirection T hT s _ _ _) (length_parentGroupDirection T hT s _ _ _) h)

/-- C16 at the mesh `Y` of `pairTree`, everything at the origin. -/
theorem degenerate_direction_chain_witness :
    (translationThree Real.sqrt Real.cos Real.sin Real.pi (fun _ => ⟨0, 0, 0⟩)).IsReal ∧
      (([pairX, pairY].map Obj.path).Nodup) ∧
      (translationThree Real.sqrt Real.cos Real.sin Real.pi
          (fun _ => ⟨0, 0, 0⟩)).getWorldPosition originScene
          ([pairX, pairY].get ⟨1, by decide⟩) =
        (translationThree Real.sqrt Real.cos Real.sin Real.pi
          (fun _ => ⟨0, 0, 0⟩)).boxCenter originScene pairParent ∧
      (((originScene : Transforms ℝ).position ([pairX, pairY].get ⟨1, by decide⟩).path ≠
            ⟨0, 0, 0⟩ →
          parentGroupDirection
              (translationThree Real.sqrt Real.cos Real.sin Real.pi (fun _ => ⟨0, 0, 0⟩))
              originScene pairParent [pairX, pairY] ([pairX, pairY].get ⟨1, by decide⟩) =
            (translationThree Real.sqrt Real.cos Real.sin Real.pi
              (fun _ => ⟨0, 0, 0⟩)).normalize
              ((originScene : Transforms ℝ).position
                ([pairX, pairY].get ⟨1, by decide⟩).path)) ∧
        ((originScene : Transforms ℝ).position ([pairX, pairY].get ⟨1, by decide⟩).path =
            ⟨0, 0, 0⟩ →
          parentGroupDirection
              (translationThree Real.sqrt Real.cos Real.sin Real.pi (fun _ => ⟨0, 0, 0⟩))
              originScene pairParent [pairX, pairY] ([pairX, pairY].get ⟨1, by decide⟩) =
            ⟨Real.cos (2 * Real.pi * (1 : Nat) / ([pairX, pairY].length : Nat)), 0,
              Real.sin (2 * Real.pi * (1 : Nat) / ([pairX, pairY].length : Nat))⟩) ∧
        ((originScene : Transforms ℝ).position ([pairX, pairY].get ⟨1, by decide⟩).path =
            ⟨0, 0, 0⟩ → [pairX, pairY].length = 4 →
          ([⟨1, 0, 0⟩, ⟨0, 0, 1⟩, ⟨-1, 0, 0⟩, ⟨0, 0, -1⟩] : List (Vector3 ℝ)).get? 1 =
            some (parentGroupDirection
              (translationThree Real.sqrt Real.cos Real.sin Real.pi (fun _ => ⟨0, 0, 0⟩))
              originScene pairParent [pairX, pairY] ([pairX, pairY].get ⟨1, by decide⟩))) ∧
        ∀ distance, parentGroupTarget
            (translationThree Real.sqrt Real.cos Real.sin Real.pi (fun _ => ⟨0, 0, 0⟩))
            originScene pairParent [pairX, pairY] distance
            ([pairX, pairY].get ⟨1, by decide⟩) =
          makeTarget originScene ([pairX, pairY].get ⟨1, by decide⟩)
            ((translationThree Real.sqrt Real.cos Real.sin Real.pi
              (fun _ => ⟨0, 0, 0⟩)).transformDirectionInverse originScene pairParent
              (parentGroupDirection
                (translationThree Real.sqrt Real.cos Real.sin Real.pi (fun _ => ⟨0, 0, 0⟩))
                originScene pairParent [pairX, pairY] ([pairX, pairY].get ⟨1, by decide⟩)))
            distance) :=
  ⟨⟨rfl, rfl, rfl, rfl⟩, by decide,
    by simp [translationThree, translationWorldPosition, originScene, pairX, pairY,
      pairParent, Vector3.add],
    degenerate_direction_chain _ ⟨rfl, rfl, rfl, rfl⟩ originScene pairParent [pairX, pairY] 1
      (by decide) (by decide)
      (by simp [translationThree, translationWorldPosition, originScene, pairX, pairY,
        pairParent, Vector3.add])⟩

/-- C17 at the meshes `X` and `Y` of `pairTree`, everything at the origin. -/
theorem fallback_distinct_witness :
    (translationThree Real.sqrt Real.cos Real.sin Real.pi (fun _ => ⟨0, 0, 0⟩)).IsReal ∧
      (0 : Nat) ≠ 1 ∧ (([pairX, pairY].map Obj.path).Nodup) ∧
      (translationThree Real.sqrt Real.cos Real.sin Real.pi
          (fun _ => ⟨0, 0, 0⟩)).getWorldPosition originScene
          ([pairX, pairY].get ⟨0, by decide⟩) =
        (translationThree Real.sqrt Real.cos Real.sin Real.pi
          (fun _ => ⟨0, 0, 0⟩)).boxCenter originScene pairParent ∧
      (translationThree Real.sqrt Real.cos Real.sin Real.pi
          (fun _ => ⟨0, 0, 0⟩)).getWorldPosition originScene
          ([pairX, pairY].get ⟨1, by decide⟩) =
        (translationThree Real.sqrt Real.cos Real.sin Real.pi
          (fun _ => ⟨0, 0, 0⟩)).boxCenter originScene pairParent ∧
      (originScene : Transforms ℝ).position ([pairX, pairY].get ⟨0, by decide⟩).path =
        ⟨0, 0, 0⟩ ∧
      (originScene : Transforms ℝ).position ([pairX, pairY].get ⟨1, by decide⟩).path =
        ⟨0, 0, 0⟩ ∧
      (parentGroupDirection
            (translationThree Real.sqrt Real.cos Real.sin Real.pi (fun _ => ⟨0, 0, 0⟩))
            originScene pairParent [pairX, pairY] ([pairX, pairY].get ⟨0, by decide⟩) ≠
          parentGroupDirection
            (translationThree Real.sqrt Real.cos Real.sin Real.pi (fun _ => ⟨0, 0, 0⟩))
            originScene pairParent [pairX, pairY] ([pairX, pairY].get ⟨1, by decide⟩) ∧
        ((translationThree Real.sqrt Real.cos Real.sin Real.pi
            (fun _ => ⟨0, 0, 0⟩)).InvertibleAt originScene pairParent →
          (translationThree Real.sqrt Real.cos Real.sin Real.pi
              (fun _ => ⟨0, 0, 0⟩)).transformDirectionInverse originScene pairParent
              (parentGroupDirection
                (translationThree Real.sqrt Real.cos Real.sin Real.pi (fun _ => ⟨0, 0, 0⟩))
                originScene pairParent [pairX, pairY] ([pairX, pairY].get ⟨0, by decide⟩)) ≠
            (translationThree Real.sqrt Real.cos Real.sin Real.pi
              (fun _ => ⟨0, 0, 0⟩)).transformDirectionInverse originScene pairParent
              (parentGroupDirection
                (translationThree Real.sqrt Real.cos Real.sin Real.pi (fun _ => ⟨0, 0, 0⟩))
                originScene pairParent [pairX, pairY]
                ([pairX, pairY].get ⟨1, by decide⟩)))) :=
  ⟨⟨rfl, rfl, rfl, rfl⟩, by decide, by decide,
    by simp [translationThree, translationWorldPosition, originScene, pairX, pairY,
      pairParent, Vector3.add],
    by simp [translationThree, translationWorldPosition, originScene, pairX, pairY,
      pairParent, Vector3.add],
    rfl, rfl,
    fallback_distinct _ ⟨rfl, rfl, rfl, rfl⟩ originScene pairParent [pairX, pairY] 0 1
      (by decide) (by decide) (by decide) (by decide)
      (by simp [translationThree, translationWorldPosition, originScene, pairX, pairY,
        pairParent, Vector3.add])
      (by simp [translationThree, translationWorldPosition, originScene, pairX, pairY,
        pairParent, Vector3.add])
      rfl rfl⟩

/-- C17 as stated fails: in `pairTree` with the group `P` at the origin and its meshes `X`
and `Y` both at the local position `(1, 0, 0)`, which is the centre of the bounding box of `P`,
the two different siblings both lie at that centre, and `disassembleLayer` gives both the
direction `(1, 0, 0)`: the fallback `normalize(position)` applies, not the angular one. -/
theorem fallback_distinct_counterexample :
    pairX.same pairY = false ∧
      parentGroupsOf [pairX, pairY] (some pairTree) =
        [("P", { parent := pairParent, children := [pairX, pairY] })] ∧
      (translationThree Real.sqrt Real.cos Real.sin Real.pi
          (fun _ => ⟨1, 0, 0⟩)).getWorldPosition (sceneWithDepthAt 2 ⟨1, 0, 0⟩) pairX =
        (translationThree Real.sqrt Real.cos Real.sin Real.pi
          (fun _ => ⟨1, 0, 0⟩)).boxCenter (sceneWithDepthAt 2 ⟨1, 0, 0⟩) pairParent ∧
      (translationThree Real.sqrt Real.cos Real.sin Real.pi
          (fun _ => ⟨1, 0, 0⟩)).getWorldPosition (sceneWithDepthAt 2 ⟨1, 0, 0⟩) pairY =
        (translationThree Real.sqrt Real.cos Real.sin Real.pi
          (fun _ => ⟨1, 0, 0⟩)).boxCenter (sceneWithDepthAt 2 ⟨1, 0, 0⟩) pairParent ∧
      parentGroupDirection
          (translationThree Real.sqrt Real.cos Real.sin Real.pi (fun _ => ⟨1, 0, 0⟩))
          (sceneWithDepthAt 2 ⟨1, 0, 0⟩) pairParent [pairX, pairY] pairX = ⟨1, 0, 0⟩ ∧
      parentGroupDirection
          (translationThree Real.sqrt Real.cos Real.sin Real.pi (fun _ => ⟨1, 0, 0⟩))
          (sceneWithDepthAt 2 ⟨1, 0, 0⟩) pairParent [pairX, pairY] pairY = ⟨1, 0, 0⟩ ∧
      disassembleLayer
          (translationThree Real.sqrt Real.cos Real.sin Real.pi (fun _ => ⟨1, 0, 0⟩))
          (sceneWithDepthAt 2 ⟨1, 0, 0⟩) (some [pairX, pairY]) (some pairTree) 1 =
        [makeTarget (sceneWithDepthAt 2 ⟨1, 0, 0⟩) pairX ⟨1, 0, 0⟩ 1,
          makeTarget (sceneWithDepthAt 2 ⟨1, 0, 0⟩) pairY ⟨1, 0, 0⟩ 1] := by
  have hT : (translationThree Real.sqrt Real.cos Real.sin Real.pi
      (fun _ => (⟨1, 0, 0⟩ : Vector3 ℝ))).IsReal := ⟨rfl, rfl, rfl, rfl⟩
  have hwx : (translationThree Real.sqrt Real.cos Real.sin Real.pi
      (fun _ => ⟨1, 0, 0⟩)).getWorldPosition (sceneWithDepthAt 2 ⟨1, 0, 0⟩) pairX =
      (translationThree Real.sqrt Real.cos Real.sin Real.pi
        (fun _ => ⟨1, 0, 0⟩)).boxCenter (sceneWithDepthAt 2 ⟨1, 0, 0⟩) pairParent := by
    simp [translationThree, translationWorldPosition, sceneWithDepthAt, pairX, pairParent,
      Vector3.add, Obj.path]
  have hwy : (translationThree Real.sqrt Real.cos Real.sin Real.pi
      (fun _ => ⟨1, 0, 0⟩)).getWorldPosition (sceneWithDepthAt 2 ⟨1, 0, 0⟩) pairY =
      (translationThree Real.sqrt Real.cos Real.sin Real.pi
        (fun _ => ⟨1, 0, 0⟩)).boxCenter (sceneWithDepthAt 2 ⟨1, 0, 0⟩) pairParent := by
    simp [translationThree, translationWorldPosition, sceneWithDepthAt, pairY, pairParent,
      Vector3.add, Obj.path]
  have hn : (translationThree Real.sqrt Real.cos Real.sin Real.pi
      (fun _ => (⟨1, 0, 0⟩ : Vector3 ℝ))).normalize ⟨1, 0, 0⟩ = ⟨1, 0, 0⟩ := by
    simp [translationThree, Three.normalize, Three.length, Vector3.divideScalar,
      Vector3.multiplyScalar]
  have hpx : (sceneWithDepthAt 2 (⟨1, 0, 0⟩ : Vector3 ℝ)).position pairX.path = ⟨1, 0, 0⟩ := by
    simp [sceneWithDepthAt, pairX, pairParent, Obj.path]
  have hpy : (sceneWithDepthAt 2 (⟨1, 0, 0⟩ : Vector3 ℝ)).position pairY.path = ⟨1, 0, 0⟩ := by
    simp [sceneWithDepthAt, pairY, pairParent, Obj.path]
  have hne : (⟨1, 0, 0⟩ : Vector3 ℝ) ≠ ⟨0, 0, 0⟩ := by simp
  have hdx := parentGroupDirection_at_center _ hT (sceneWithDepthAt 2 ⟨1, 0, 0⟩) pairParent
    [pairX, pairY] pairX hwx
  have hdy := parentGroupDirection_at_center _ hT (sceneWithDepthAt 2 ⟨1, 0, 0⟩) pairParent
    [pairX, pairY] pairY hwy
  rw [hpx, if_neg hne, hn] at hdx
  rw [hpy, if_neg hne, hn] at hdy
  have hg : parentGroupsOf [pairX, pairY] (some pairTree) =
      [("P", { parent := pairParent, children := [pairX, pairY] })] := rfl
  have hr : rootObjectsOf [pairX, pairY] (some pairTree) = [] := rfl
  have htd : ∀ p, (translationThree Real.sqrt Real.cos Real.sin Real.pi
      (fun _ => (⟨1, 0, 0⟩ : Vector3 ℝ))).transformDirectionInverse
      (sceneWithDepthAt 2 ⟨1, 0, 0⟩) p ⟨1, 0, 0⟩ = ⟨1, 0, 0⟩ := by
    intro p
    simp [translationThree, Vector3.divideScalar, Vector3.multiplyScalar]
  refine ⟨by decide, hg, hwx, hwy, hdx, hdy, ?_⟩
  rw [disassembleLayer_eq, hg, hr]
  simp only [List.flatMap_cons, List.flatMap_nil, List.map_cons, List.map_nil,
    List.append_nil, parentGroupTarget_eq, hdx, hdy, htd]

/-- The direction of a root-level object whose world position is the mean of the group. -/
theorem root_group_direction_aux (T : Three ℝ) (hT : T.IsReal) (s : Transforms ℝ)
    (rootObjects : List Obj) (i : Nat) (hi : i < rootObjects.length)
    (hnd : (rootObjects.map Obj.path).Nodup)
    (heq : T.getWorldPosition s (rootObjects.get ⟨i, hi⟩) = rootCenter T s rootObjects) :
    rootGroupDirection T s rootObjects (rootObjects.get ⟨i, hi⟩) =
      ⟨Real.cos (2 * Real.pi * i / rootObjects.length), 0,
        Real.sin (2 * Real.pi * i / rootObjects.length)⟩ := by
  unfold rootGroupDirection
  simp only [heq, Vector3.subVectors_self, T.normalize_zero,
    (T.length_eq_zero_iff hT _).2 rfl, if_true]
  rw [indexOf_get rootObjects hnd i hi, radialDirection_real T hT]

/-- C18 as the code has it (root-level group), in real arithmetic: for the object at index
`i` of the root-level group (whose objects are pairwise different) the direction is
`normalize(worldPosition - rootCenter)` when the world position differs from the mean of the
group's world positions, and otherwise, whatever the local position is, `(cos a, 0, sin a)`
with `a = 2 * pi * i / groupSize`. The target of the object is built from this direction. -/
theorem root_group_direction (T : Three ℝ) (hT : T.IsReal) (s : Transforms ℝ)
    (rootObjects : List Obj) (i : Nat) (hi : i < rootObjects.length)
    (hnd : (rootObjects.map Obj.path).Nodup) :
    (T.getWorldPosition s (rootObjects.get ⟨i, hi⟩) ≠ rootCenter T s rootObjects →
        rootGroupDirection T s rootObjects (rootObjects.get ⟨i, hi⟩) =
          T.normalize (Vector3.subVectors (T.getWorldPosition s (rootObjects.get ⟨i, hi⟩))
            (rootCenter T s rootObjects))) ∧
      (T.getWorldPosition s (rootObjects.get ⟨i, hi⟩) = rootCenter T s rootObjects →
        rootGroupDirection T s rootObjects (rootObjects.get ⟨i, hi⟩) =
          ⟨Real.cos (2 * Real.pi * i / rootObjects.length), 0,
            Real.sin (2 * Real.pi * i / rootObjects.length)⟩) ∧
      ∀ distance, rootGroupTarget T s rootObjects distance (rootObjects.get ⟨i, hi⟩) =
        makeTarget s (rootObjects.get ⟨i, hi⟩)
          (rootGroupDirection T s rootObjects (rootObjects.get ⟨i, hi⟩)) distance := by
  refine ⟨?_, ?_, fun _ => rfl⟩
  · intro hne
    have hsub : Vector3.subVectors (T.getWorldPosition s (rootObjects.get ⟨i, hi⟩))
        (rootCenter T s rootObjects) ≠ ⟨0, 0, 0⟩ := by
      intro h0
      apply hne
      rw [Vector3.ext_iff3] at h0 ⊢
      simp only [Vector3.subVectors] at h0
      exact ⟨by linarith [h0.1], by linarith [h0.2.1], by linarith [h0.2.2]⟩
    unfold rootGroupDirection
    simp only [T.length_normalize_eq_zero_iff hT, hsub, if_false]
  · exact root_group_direction_aux T hT s rootObjects i hi hnd

/-- C18 as the code has it, at the two children of the root of `familyTree`, everything at the
origin. -/
theorem root_group_direction_witness :
    (translationThree Real.sqrt Real.cos Real.sin Real.pi (fun _ => ⟨0, 0, 0⟩)).IsReal ∧
      ((familyLayer.map Obj.path).Nodup) ∧
      (((translationThree Real.sqrt Real.cos Real.sin Real.pi
              (fun _ => ⟨0, 0, 0⟩)).getWorldPosition (originScene : Transforms ℝ)
              (familyLayer.get ⟨1, by decide⟩) ≠
            rootCenter (translationThree Real.sqrt Real.cos Real.sin Real.pi
              (fun _ => ⟨0, 0, 0⟩)) originScene familyLayer →
          rootGroupDirection
              (translationThree Real.sqrt Real.cos Real.sin Real.pi (fun _ => ⟨0, 0, 0⟩))
              originScene familyLayer (familyLayer.get ⟨1, by decide⟩) =
            (translationThree Real.sqrt Real.cos Real.sin Real.pi
              (fun _ => ⟨0, 0, 0⟩)).normalize
              (Vector3.subVectors
                ((translationThree Real.sqrt Real.cos Real.sin Real.pi
                  (fun _ => ⟨0, 0, 0⟩)).getWorldPosition originScene
                  (familyLayer.get ⟨1, by decide⟩))
                (rootCenter (translationThree Real.sqrt Real.cos Real.sin Real.pi
                  (fun _ => ⟨0, 0, 0⟩)) originScene familyLayer))) ∧
        ((translationThree Real.sqrt Real.cos Real.sin Real.pi
              (fun _ => ⟨0, 0, 0⟩)).getWorldPosition (originScene : Transforms ℝ)
              (familyLayer.get ⟨1, by decide⟩) =
            rootCenter (translationThree Real.sqrt Real.cos Real.sin Real.pi
              (fun _ => ⟨0, 0, 0⟩)) originScene familyLayer →
          rootGroupDirection
              (translationThree Real.sqrt Real.cos Real.sin Real.pi (fun _ => ⟨0, 0, 0⟩))
              originScene familyLayer (familyLayer.get ⟨1, by decide⟩) =
            ⟨Real.cos (2 * Real.pi * (1 : Nat) / (familyLayer.length : Nat)), 0,
              Real.sin (2 * Real.pi * (1 : Nat) / (familyLayer.length : Nat))⟩) ∧
        ∀ distance, rootGroupTarget
            (translationThree Real.sqrt Real.cos Real.sin Real.pi (fun _ => ⟨0, 0, 0⟩))
            originScene familyLayer distance (familyLayer.get ⟨1, by decide⟩) =
          makeTarget originScene (familyLayer.get ⟨1, by decide⟩)
            (rootGroupDirection
              (translationThree Real.sqrt Real.cos Real.sin Real.pi (fun _ => ⟨0, 0, 0⟩))
              originScene familyLayer (familyLayer.get ⟨1, by decide⟩)) distance) :=
  ⟨⟨rfl, rfl, rfl, rfl⟩, by decide,
    root_group_direction _ ⟨rfl, rfl, rfl, rfl⟩ originScene familyLayer 1 (by decide)
      (by decide)⟩

/-- C18 as stated fails: in `passThroughTree` with the only child `P` of the root at the local
position `(0, 1, 0)`, the world position of `P` is the mean of the root-level group, its local
position is not zero and `normalize(position)` is `(0, 1, 0)`, but `disassembleLayer` takes
the angular direction `(1, 0, 0)`. -/
theorem root_group_direction_counterexample :
    rootObjectsOf [passThroughChild] (some passThroughTree) = [passThroughChild] ∧
      (translationThree Real.sqrt Real.cos Real.sin Real.pi
          (fun _ => ⟨0, 0, 0⟩)).getWorldPosition (sceneWithDepthAt 1 ⟨0, 1, 0⟩)
          passThroughChild =
        rootCenter (translationThree Real.sqrt Real.cos Real.sin Real.pi (fun _ => ⟨0, 0, 0⟩))
          (sceneWithDepthAt 1 ⟨0, 1, 0⟩) [passThroughChild] ∧
      (sceneWithDepthAt 1 (⟨0, 1, 0⟩ : Vector3 ℝ)).position passThroughChild.path ≠
        ⟨0, 0, 0⟩ ∧
      (translationThree Real.sqrt Real.cos Real.sin Real.pi (fun _ => ⟨0, 0, 0⟩)).normalize
          ((sceneWithDepthAt 1 (⟨0, 1, 0⟩ : Vector3 ℝ)).position passThroughChild.path) =
        ⟨0, 1, 0⟩ ∧
      rootGroupDirection
          (translationThree Real.sqrt Real.cos Real.sin Real.pi (fun _ => ⟨0, 0, 0⟩))
          (sceneWithDepthAt 1 ⟨0, 1, 0⟩) [passThroughChild] passThroughChild = ⟨1, 0, 0⟩ ∧
      disassembleLayer
          (translationThree Real.sqrt Real.cos Real.sin Real.pi (fun _ => ⟨0, 0, 0⟩))
          (sceneWithDepthAt 1 ⟨0, 1, 0⟩) (some [passThroughChild]) (some passThroughTree) 1 =
        [makeTarget (sceneWithDepthAt 1 ⟨0, 1, 0⟩) passThroughChild ⟨1, 0, 0⟩ 1] := by
  have hT : (translationThree Real.sqrt Real.cos Real.sin Real.pi
      (fun _ => (⟨0, 0, 0⟩ : Vector3 ℝ))).IsReal := ⟨rfl, rfl, rfl, rfl⟩
  have hw : (translationThree Real.sqrt Real.cos Real.sin Real.pi
      (fun _ => ⟨0, 0, 0⟩)).getWorldPosition (sceneWithDepthAt 1 ⟨0, 1, 0⟩)
      passThroughChild =
      rootCenter (translationThree Real.sqrt Real.cos Real.sin Real.pi (fun _ => ⟨0, 0, 0⟩))
        (sceneWithDepthAt 1 ⟨0, 1, 0⟩) [passThroughChild] := by
    simp [rootCenter, translationThree, translationWorldPosition, sceneWithDepthAt,
      passThroughChild, Vector3.add, Vector3.divideScalar, Vector3.multiplyScalar, Obj.path]
  have hp : (sceneWithDepthAt 1 (⟨0, 1, 0⟩ : Vector3 ℝ)).position passThroughChild.path =
      ⟨0, 1, 0⟩ := by
    simp [sceneWithDepthAt, passThroughChild, Obj.path]
  have hn : (translationThree Real.sqrt Real.cos Real.sin Real.pi
      (fun _ => (⟨0, 0, 0⟩ : Vector3 ℝ))).normalize ⟨0, 1, 0⟩ = ⟨0, 1, 0⟩ := by
    simp [translationThree, Three.normalize, Three.length, Vector3.divideScalar,
      Vector3.multiplyScalar]
  have hd : rootGroupDirection
      (translationThree Real.sqrt Real.cos Real.sin Real.pi (fun _ => ⟨0, 0, 0⟩))
      (sceneWithDepthAt 1 ⟨0, 1, 0⟩) [passThroughChild] passThroughChild = ⟨1, 0, 0⟩ := by
    have h := (root_group_direction_aux _ hT (sceneWithDepthAt 1 ⟨0, 1, 0⟩)
      [passThroughChild] 0 (by decide) (by decide)) hw
    simpa using h
  have hr : rootObjectsOf [passThroughChild] (some passThroughTree) = [passThroughChild] := rfl
  have hg : parentGroupsOf [passThroughChild] (some passThroughTree) = [] := rfl
  refine ⟨hr, hw, by rw [hp]; simp, by rw [hp, hn], hd, ?_⟩
  rw [disassembleLayer_eq, hg, hr]
  simp only [List.flatMap_nil, List.nil_append, List.map_cons, List.map_nil,
    rootGroupTarget_eq, hd]

/-! ## The random fallback of `useLayerManager` and `useOptimizedLayerManager` -/

theorem foldl_congr_mem {σ τ : Type} (f g : σ → τ → σ) (xs : List τ) (a : σ)
    (h : ∀ (b : σ), ∀ x ∈ xs, f b x = g b x) : xs.foldl f a = xs.foldl g a := by
  induction xs generalizing a with
  | nil => rfl
  | cons x xs ih =>
    rw [List.foldl_cons, List.foldl_cons, h a x (List.mem_cons_self _ _)]
    exact ih _ (fun b y hy => h b y (List.mem_cons_of_mem _ hy))

/-- C19 as the code has it (target determinism): when no grouped object of the layer has both
a zero direction from the centre of its parent's box and a zero local position, the targets of
`useLayerManager.disassembleNextLayer` do not depend on the values of `Math.random()`, and the
same holds of `useOptimizedLayerManager`'s `disassemblyTargets` for the layers `layerGroups`.
For an object with both zero, the direction is built from two values of `Math.random()`. -/
theorem targets_independent_of_random {α : Type} [Field α] [DecidableEq α] (T : Three α)
    (s : Transforms α) (modelRef : Option Object3D) (layerGroups : List (List Obj))
    (distance : α)
    (h : ∀ layer ∈ layerGroups, ∀ g ∈ parentGroupsOf layer modelRef, ∀ c ∈ g.2.children,
      ¬ (T.length (T.normalize (Vector3.subVectors (T.getWorldPosition s c)
            (T.boxCenter s g.2.parent))) = 0 ∧
          T.length (T.normalize (s.position c.path)) = 0))
    (random random2 : Nat → α) :
    (∀ layer ∈ layerGroups,
        useLayerManager.disassembleNextLayerTargets T s random layer modelRef =
          useLayerManager.disassembleNextLayerTargets T s random2 layer modelRef) ∧
      useOptimizedLayerManager.disassemblyTargets T s random layerGroups modelRef distance =
        useOptimizedLayerManager.disassemblyTargets T s random2 layerGroups modelRef
          distance := by
  constructor
  · intro layer hl
    have hstep : ∀ (b : List (useLayerManager.TickTarget α) × Nat),
        ∀ g ∈ parentGroupsOf layer modelRef,
        g.2.children.foldl
            (useLayerManager.parentGroupStep T s random g.2.parent
              useLayerManager.disassembleDistance) b =
          g.2.children.foldl
            (useLayerManager.parentGroupStep T s random2 g.2.parent
              useLayerManager.disassembleDistance) b := by
      intro b g hg
      apply foldl_congr_mem
      intro b c hc
      have hnd := h layer hl g hg c hc
      unfold useLayerManager.parentGroupStep
      by_cases h1 : T.length (T.normalize (Vector3.subVectors (T.getWorldPosition s c)
          (T.boxCenter s g.2.parent))) = 0
      · have h2 : ¬ T.length (T.normalize (s.position c.path)) = 0 := fun h2 => hnd ⟨h1, h2⟩
        simp only [h1, h2, if_true, if_false]
      · simp only [h1, if_false]
    unfold useLayerManager.disassembleNextLayerTargets
    simp only
    rw [foldl_congr_mem _ _ _ _ hstep]
  · unfold useOptimizedLayerManager.disassemblyTargets
    congr 1
    apply foldl_congr_mem
    intro b layer hl
    have hstep : ∀ (a : List (useOptimizedLayerManager.LayerTarget α) × Nat),
        ∀ g ∈ parentGroupsOf layer modelRef,
        g.2.children.foldl
            (useOptimizedLayerManager.parentGroupStep T s random g.2.parent distance) a =
          g.2.children.foldl
            (useOptimizedLayerManager.parentGroupStep T s random2 g.2.parent distance) a := by
      intro a g hg
      apply foldl_congr_mem
      intro a c hc
      have hnd := h layer hl g hg c hc
      unfold useOptimizedLayerManager.parentGroupStep
      by_cases h1 : T.length (T.normalize (Vector3.subVectors (T.getWorldPosition s c)
          (T.boxCenter s g.2.parent))) = 0
      · have h2 : ¬ T.length (T.normalize (s.position c.path)) = 0 := fun h2 => hnd ⟨h1, h2⟩
        simp only [h1, h2, if_true, if_false]
      · simp only [h1, if_false]
    unfold useOptimizedLayerManager.layerStep
    simp only
    rw [foldl_congr_mem _ _ _ _ hstep]

/-- C19 as stated fails: in `pairTree` with everything at the origin the mesh `X` lies at the
centre of the box of its parent and has the local position zero; when `Math.random()` gives
`0`, `0` its target is `(0, 0.2, 0)` in `useLayerManager` and `(0, 0.3, 0)` in
`useOptimizedLayerManager` (distance `0.3`), and when it gives `0.5`, `0.5` the targets are
`(-0.2, 0, 0)` and `(-0.3, 0, 0)`. -/
theorem targets_depend_on_random :
    (useLayerManager.disassembleNextLayerTargets
          (translationThree Real.sqrt Real.cos Real.sin Real.pi (fun _ => ⟨0, 0, 0⟩))
          originScene (fun _ => 0) [pairX] (some pairTree)).map (fun t => t.targetPosition) =
        [⟨0, 2 / 10, 0⟩] ∧
      (useLayerManager.disassembleNextLayerTargets
          (translationThree Real.sqrt Real.cos Real.sin Real.pi (fun _ => ⟨0, 0, 0⟩))
          originScene (fun _ => 1 / 2) [pairX] (some pairTree)).map
          (fun t => t.targetPosition) =
        [⟨-(2 / 10), 0, 0⟩] ∧
      (useOptimizedLayerManager.disassemblyTargets
          (translationThree Real.sqrt Real.cos Real.sin Real.pi (fun _ => ⟨0, 0, 0⟩))
          originScene (fun _ => 0) [[pairX]] (some pairTree) (3 / 10)).map
          (fun l => l.map (fun t => t.targetPosition)) =
        [[⟨0, 3 / 10, 0⟩]] ∧
      (useOptimizedLayerManager.disassemblyTargets
          (translationThree Real.sqrt Real.cos Real.sin Real.pi (fun _ => ⟨0, 0, 0⟩))
          originScene (fun _ => 1 / 2) [[pairX]] (some pairTree) (3 / 10)).map
          (fun l => l.map (fun t => t.targetPosition)) =
        [[⟨-(3 / 10), 0, 0⟩]] ∧
      (⟨0, 2 / 10, 0⟩ : Vector3 ℝ) ≠ ⟨-(2 / 10), 0, 0⟩ ∧
      (⟨0, 3 / 10, 0⟩ : Vector3 ℝ) ≠ ⟨-(3 / 10), 0, 0⟩ := by
  have hg : parentGroupsOf [pairX] (some pairTree) =
      [("P", { parent := pairParent, children := [pairX] })] := rfl
  have hr : rootObjectsOf [pairX] (some pairTree) = [] := rfl
  have e1 : (1 / 2 : ℝ) * Real.pi * 2 = Real.pi := by ring
  have e2 : (1 / 2 : ℝ) * Real.pi = Real.pi / 2 := by ring
  have hd0 : useLayerManager.randomDirection
      (translationThree Real.sqrt Real.cos Real.sin Real.pi (fun _ => ⟨0, 0, 0⟩)) 0 0 =
      ⟨0, 1, 0⟩ := by
    simp [useLayerManager.randomDirection, translationThree]
  have hd1 : useLayerManager.randomDirection
      (translationThree Real.sqrt Real.cos Real.sin Real.pi (fun _ => ⟨0, 0, 0⟩))
      (1 / 2) (1 / 2) = ⟨-1, 0, 0⟩ := by
    simp only [useLayerManager.randomDirection, translationThree, e1, e2]
    simp
  have hw : (translationThree Real.sqrt Real.cos Real.sin Real.pi
      (fun _ => (⟨0, 0, 0⟩ : Vector3 ℝ))).getWorldPosition originScene pairX = ⟨0, 0, 0⟩ := by
    simp [translationThree, translationWorldPosition, originScene, pairX, pairParent,
      Vector3.add]
  have hstep0 : ∀ d : ℝ, (useLayerManager.parentGroupStep
      (translationThree Real.sqrt Real.cos Real.sin Real.pi (fun _ => ⟨0, 0, 0⟩))
      originScene (fun _ => 0) pairParent d ([], 0) pairX).1.map
      (fun t => t.targetPosition) = [⟨0, d, 0⟩] := by
    intro d
    simp only [useLayerManager.parentGroupStep, hw, hd0]
    simp [translationThree, originScene, Three.normalize, Three.length, Vector3.subVectors,
      Vector3.add, Vector3.divideScalar, Vector3.multiplyScalar]
  have hstep1 : ∀ d : ℝ, (useLayerManager.parentGroupStep
      (translationThree Real.sqrt Real.cos Real.sin Real.pi (fun _ => ⟨0, 0, 0⟩))
      originScene (fun _ => 1 / 2) pairParent d ([], 0) pairX).1.map
      (fun t => t.targetPosition) = [⟨-d, 0, 0⟩] := by
    intro d
    simp only [useLayerManager.parentGroupStep, hw, hd1]
    simp [translationThree, originScene, Three.normalize, Three.length, Vector3.subVectors,
      Vector3.add, Vector3.divideScalar, Vector3.multiplyScalar]
  have ostep0 : ∀ d : ℝ, (useOptimizedLayerManager.parentGroupStep
      (translationThree Real.sqrt Real.cos Real.sin Real.pi (fun _ => ⟨0, 0, 0⟩))
      originScene (fun _ => 0) pairParent d ([], 0) pairX).1.map
      (fun t => t.targetPosition) = [⟨0, d, 0⟩] := by
    intro d
    simp only [useOptimizedLayerManager.parentGroupStep, hw, hd0]
    simp [translationThree, originScene, Three.normalize, Three.length, Vector3.subVectors,
      Vector3.add, Vector3.divideScalar, Vector3.multiplyScalar]
  have ostep1 : ∀ d : ℝ, (useOptimizedLayerManager.parentGroupStep
      (translationThree Real.sqrt Real.cos Real.sin Real.pi (fun _ => ⟨0, 0, 0⟩))
      originScene (fun _ => 1 / 2) pairParent d ([], 0) pairX).1.map
      (fun t => t.targetPosition) = [⟨-d, 0, 0⟩] := by
    intro d
    simp only [useOptimizedLayerManager.parentGroupStep, hw, hd1]
    simp [translationThree, originScene, Three.normalize, Three.length, Vector3.subVectors,
      Vector3.add, Vector3.divideScalar, Vector3.multiplyScalar]
  refine ⟨?_, ?_, ?_, ?_, by simp, by simp⟩
  · simp only [useLayerManager.disassembleNextLayerTargets, hg, hr, List.foldl_cons,
      List.foldl_nil, List.length_nil, gt_iff_lt, lt_self_iff_false, if_false]
    exact hstep0 _
  · simp only [useLayerManager.disassembleNextLayerTargets, hg, hr, List.foldl_cons,
      List.foldl_nil, List.length_nil, gt_iff_lt, lt_self_iff_false, if_false]
    rw [hstep1]
    simp [useLayerManager.disassembleDistance]
  · simp only [useOptimizedLayerManager.disassemblyTargets,
      useOptimizedLayerManager.layerStep, hg, hr, List.foldl_cons, List.foldl_nil,
      List.length_nil, gt_iff_lt, lt_self_iff_false, if_false, List.nil_append, List.map_cons,
      List.map_nil]
    rw [ostep0]
  · simp only [useOptimizedLayerManager.disassemblyTargets,
      useOptimizedLayerManager.layerStep, hg, hr, List.foldl_cons, List.foldl_nil,
      List.length_nil, gt_iff_lt, lt_self_iff_false, if_false, List.nil_append, List.map_cons,
      List.map_nil]
    rw [ostep1]

/-- C19 as the code has it, at `pairTree` with the meshes `X` and `Y` at the local position
`(1, 0, 0)` and the centre of the box of `P` at the origin. -/
theorem targets_independent_of_random_witness :
    (∀ layer ∈ [[pairParent], [pairX, pairY]],
        ∀ g ∈ parentGroupsOf layer (some pairTree), ∀ c ∈ g.2.children,
        ¬ ((translationThree Real.sqrt Real.cos Real.sin Real.pi
              (fun _ => ⟨0, 0, 0⟩)).length
              ((translationThree Real.sqrt Real.cos Real.sin Real.pi
                (fun _ => ⟨0, 0, 0⟩)).normalize
                (Vector3.subVectors
                  ((translationThree Real.sqrt Real.cos Real.sin Real.pi
                    (fun _ => ⟨0, 0, 0⟩)).getWorldPosition (sceneWithDepthAt 2 ⟨1, 0, 0⟩) c)
                  ((translationThree Real.sqrt Real.cos Real.sin Real.pi
                    (fun _ => ⟨0, 0, 0⟩)).boxCenter (sceneWithDepthAt 2 ⟨1, 0, 0⟩)
                    g.2.parent))) = 0 ∧
            (translationThree Real.sqrt Real.cos Real.sin Real.pi
              (fun _ => ⟨0, 0, 0⟩)).length
              ((translationThree Real.sqrt Real.cos Real.sin Real.pi
                (fun _ => ⟨0, 0, 0⟩)).normalize
                ((sceneWithDepthAt 2 (⟨1, 0, 0⟩ : Vector3 ℝ)).position c.path)) = 0)) ∧
      ((∀ layer ∈ [[pairParent], [pairX, pairY]],
          useLayerManager.disassembleNextLayerTargets
              (translationThree Real.sqrt Real.cos Real.sin Real.pi (fun _ => ⟨0, 0, 0⟩))
              (sceneWithDepthAt 2 ⟨1, 0, 0⟩) (fun _ => 0) layer (some pairTree) =
            useLayerManager.disassembleNextLayerTargets
              (translationThree Real.sqrt Real.cos Real.sin Real.pi (fun _ => ⟨0, 0, 0⟩))
              (sceneWithDepthAt 2 ⟨1, 0, 0⟩) (fun _ => 1 / 2) layer (some pairTree)) ∧
        useOptimizedLayerManager.disassemblyTargets
            (translationThree Real.sqrt Real.cos Real.sin Real.pi (fun _ => ⟨0, 0, 0⟩))
            (sceneWithDepthAt 2 ⟨1, 0, 0⟩) (fun _ => 0) [[pairParent], [pairX, pairY]]
            (some pairTree) (3 / 10) =
          useOptimizedLayerManager.disassemblyTargets
            (translationThree Real.sqrt Real.cos Real.sin Real.pi (fun _ => ⟨0, 0, 0⟩))
            (sceneWithDepthAt 2 ⟨1, 0, 0⟩) (fun _ => 1 / 2) [[pairParent], [pairX, pairY]]
            (some pairTree) (3 / 10)) := by
  have hT : (translationThree Real.sqrt Real.cos Real.sin Real.pi
      (fun _ => (⟨0, 0, 0⟩ : Vector3 ℝ))).IsReal := ⟨rfl, rfl, rfl, rfl⟩
  have hyp : ∀ layer ∈ [[pairParent], [pairX, pairY]],
      ∀ g ∈ parentGroupsOf layer (some pairTree), ∀ c ∈ g.2.children,
      ¬ ((translationThree Real.sqrt Real.cos Real.sin Real.pi
            (fun _ => ⟨0, 0, 0⟩)).length
            ((translationThree Real.sqrt Real.cos Real.sin Real.pi
              (fun _ => ⟨0, 0, 0⟩)).normalize
              (Vector3.subVectors
                ((translationThree Real.sqrt Real.cos Real.sin Real.pi
                  (fun _ => ⟨0, 0, 0⟩)).getWorldPosition (sceneWithDepthAt 2 ⟨1, 0, 0⟩) c)
                ((translationThree Real.sqrt Real.cos Real.sin Real.pi
                  (fun _ => ⟨0, 0, 0⟩)).boxCenter (sceneWithDepthAt 2 ⟨1, 0, 0⟩)
                  g.2.parent))) = 0 ∧
          (translationThree Real.sqrt Real.cos Real.sin Real.pi
            (fun _ => ⟨0, 0, 0⟩)).length
            ((translationThree Real.sqrt Real.cos Real.sin Real.pi
              (fun _ => ⟨0, 0, 0⟩)).normalize
              ((sceneWithDepthAt 2 (⟨1, 0, 0⟩ : Vector3 ℝ)).position c.path)) = 0) := by
    intro layer hl g hg c hc hdeg
    have hzero := (Three.length_normalize_eq_zero_iff _ hT _).1 hdeg.2
    have h1 : parentGroupsOf [pairParent] (some pairTree) = [] := rfl
    have h2 : parentGroupsOf [pairX, pairY] (some pairTree) =
        [("P", { parent := pairParent, children := [pairX, pairY] })] := rfl
    simp only [List.mem_cons, List.mem_singleton, List.not_mem_nil, or_false] at hl
    rcases hl with rfl | rfl
    · rw [h1] at hg; cases hg
    · rw [h2] at hg
      simp only [List.mem_singleton] at hg
      subst hg
      simp only [List.mem_cons, List.mem_singleton, List.not_mem_nil, or_false] at hc
      rcases hc with rfl | rfl
      · simp [sceneWithDepthAt, pairX, pairParent, Obj.path] at hzero
      · simp [sceneWithDepthAt, pairY, pairParent, Obj.path] at hzero
  exact ⟨hyp, targets_independent_of_random _ _ _ _ _ hyp _ _⟩

namespace useLayerManager

/-- C20 as the code has it (progress of a tick): for an active animation `updateAnimation`
interpolates every target with `smoothStep(progress)` where
`progress = min((now - startTime) / duration, 1)`; this is at most 1, and when
`duration > 0` and `now` is not earlier than `startTime` it is at least 0 and equals
`clamp((now - startTime) / duration, 0, 1)`. -/
theorem tick_progress_clamp {α : Type} [LinearOrderedField α] (st : State α) (now : α)
    (ha : st.animationRef.isActive = true) :
    (updateAnimation st now).scene =
        st.animationRef.targets.foldl
          (fun s t =>
            s.setPosition t.object
              (Vector3.lerpVectors t.startPosition t.targetPosition
                (smoothStep (tickProgress st.animationRef now))))
          st.scene ∧
      tickProgress st.animationRef now =
        min ((now - st.animationRef.startTime) / st.animationRef.duration) 1 ∧
      tickProgress st.animationRef now ≤ 1 ∧
      (0 < st.animationRef.duration → st.animationRef.startTime ≤ now →
        0 ≤ tickProgress st.animationRef now ∧
          tickProgress st.animationRef now =
            max 0 (min 1 ((now - st.animationRef.startTime) / st.animationRef.duration))) := by
  refine ⟨?_, rfl, min_le_right _ _, ?_⟩
  · unfold updateAnimation
    simp only [ha, Bool.not_true, Bool.false_eq_true, if_false]
    split <;> rfl
  · intro hd hn
    have h0 : 0 ≤ (now - st.animationRef.startTime) / st.animationRef.duration :=
      div_nonneg (sub_nonneg.2 hn) (le_of_lt hd)
    have h1 : 0 ≤ tickProgress st.animationRef now := le_min h0 zero_le_one
    refine ⟨h1, ?_⟩
    unfold tickProgress at h1 ⊢
    rw [min_comm, max_eq_right]
    rwa [min_comm]

/-- C20 as the code has it, at `sampleTickState`. -/
theorem tick_progress_clamp_witness :
    sampleTickState.animationRef.isActive = true ∧
      ((updateAnimation sampleTickState 1250).scene =
          sampleTickState.animationRef.targets.foldl
            (fun s t =>
              s.setPosition t.object
                (Vector3.lerpVectors t.startPosition t.targetPosition
                  (smoothStep (tickProgress sampleTickState.animationRef 1250))))
            sampleTickState.scene ∧
        tickProgress sampleTickState.animationRef 1250 =
          min ((1250 - sampleTickState.animationRef.startTime) /
            sampleTickState.animationRef.duration) 1 ∧
        tickProgress sampleTickState.animationRef 1250 ≤ 1 ∧
        (0 < sampleTickState.animationRef.duration →
          sampleTickState.animationRef.startTime ≤ 1250 →
          0 ≤ tickProgress sampleTickState.animationRef 1250 ∧
            tickProgress sampleTickState.animationRef 1250 =
              max 0 (min 1 ((1250 - sampleTickState.animationRef.startTime) /
                sampleTickState.animationRef.duration)))) :=
  ⟨rfl, tick_progress_clamp sampleTickState 1250 rfl⟩

/-- C20 as stated fails: for `sampleAnimation`, which started at time 1000 and lasts 500, a
tick at time 500 computes the progress `-1`, which is negative and is not the clamped value
`0`. -/
theorem tick_progress_negative :
    sampleAnimation.isActive = true ∧ tickProgress sampleAnimation 500 = -1 ∧
      ¬ (0 ≤ tickProgress sampleAnimation 500) ∧
      tickProgress sampleAnimation 500 ≠
        max 0 (min 1 ((500 - sampleAnimation.startTime) / sampleAnimation.duration)) := by
  have h : tickProgress sampleAnimation 500 = -1 := by
    simp only [tickProgress, sampleAnimation]
    norm_num
  refine ⟨rfl, h, ?_, ?_⟩
  · rw [h]; norm_num
  · rw [h]
    simp only [sampleAnimation]
    norm_num

end useLayerManager

/-! ## The easing functions -/

theorem smoothStep_eq_quintic_iff {α : Type} [LinearOrderedField α] (t : α) :
    smoothStep t = t ^ 3 * (t * (6 * t - 15) + 10) ↔ t = 0 ∨ t = 1 / 2 ∨ t = 1 := by
  have key : smoothStep t - t ^ 3 * (t * (6 * t - 15) + 10) =
      -3 * (t * t * ((t - 1) * (t - 1) * (2 * t - 1))) := by
    simp only [smoothStep]; ring
  constructor
  · intro h
    have h0 : t * t * ((t - 1) * (t - 1) * (2 * t - 1)) = 0 := by
      have := sub_eq_zero.2 h
      rw [key] at this
      rcases mul_eq_zero.1 this with h3 | h3
      · norm_num at h3
      · exact h3
    rcases mul_eq_zero.1 h0 with h1 | h1
    · left
      rcases mul_eq_zero.1 h1 with h2 | h2 <;> exact h2
    · rcases mul_eq_zero.1 h1 with h2 | h2
      · right; right
        rcases mul_eq_zero.1 h2 with h3 | h3 <;> exact sub_eq_zero.1 h3
      · right; left
        have : 2 * t = 1 := sub_eq_zero.1 h2
        field_simp
        linarith
  · intro h
    apply sub_eq_zero.1
    rw [key]
    rcases h with h | h | h
    · rw [h]; ring
    · rw [h]; ring
    · rw [h]; ring

/-- C21 as the code has it (default easing): `animateTargets` with its default easing
interpolates every target at `eased = c * c * (3 - 2 * c)` with `c = clamp(progress, 0, 1)`,
since the exported `smoothStep` is the cubic `t * t * (3 - 2 * t)`; the quintic
`t^3 * (t * (6 * t - 15) + 10)` is the `smoothStep` of `useLayerManager`, and the exported
`smoothStep` agrees with it exactly at `t = 0`, `t = 1/2` and `t = 1`. -/
theorem default_easing_cubic {α : Type} [LinearOrderedField α] (s : Transforms α)
    (targets : List (AnimationTarget α)) (progress : α) :
    animateTargets s targets progress smoothStep =
        targets.foldl
          (fun s t =>
            s.setPosition t.object
              (Vector3.lerpVectors t.startPosition t.targetPosition
                (max 0 (min 1 progress) * max 0 (min 1 progress) *
                  (3 - 2 * max 0 (min 1 progress)))))
          s ∧
      (∀ t : α, smoothStep t = t * t * (3 - 2 * t)) ∧
      (∀ t : α, useLayerManager.smoothStep t = t ^ 3 * (t * (6 * t - 15) + 10)) ∧
      (∀ t : α, smoothStep t = t ^ 3 * (t * (6 * t - 15) + 10) ↔
        t = 0 ∨ t = 1 / 2 ∨ t = 1) := by
  refine ⟨rfl, fun _ => rfl, ?_, smoothStep_eq_quintic_iff⟩
  intro t
  simp only [useLayerManager.smoothStep]
  ring

/-- C21 as stated fails: at `t = 1/4`, inside `[0, 1]`, the exported `smoothStep` gives
`5/32` and the quintic gives `53/512`; `animateTargets` with the default easing and progress
`1/4` puts the mesh of `sampleTarget`, which moves from the origin to `(1, 0, 0)`, at
`(5/32, 0, 0)`, while the quintic would put it at `(53/512, 0, 0)`. -/
theorem default_easing_not_quintic :
    (0 : ℚ) ≤ 1 / 4 ∧ (1 / 4 : ℚ) ≤ 1 ∧
      smoothStep (1 / 4 : ℚ) = 5 / 32 ∧
      (1 / 4 : ℚ) ^ 3 * (1 / 4 * (6 * (1 / 4) - 15) + 10) = 53 / 512 ∧
      smoothStep (1 / 4 : ℚ) ≠ (1 / 4 : ℚ) ^ 3 * (1 / 4 * (6 * (1 / 4) - 15) + 10) ∧
      (animateTargets restScene [sampleTarget] (1 / 4) smoothStep).position pairX.path =
        ⟨5 / 32, 0, 0⟩ ∧
      Vector3.lerpVectors sampleTarget.startPosition sampleTarget.targetPosition
          ((1 / 4 : ℚ) ^ 3 * (1 / 4 * (6 * (1 / 4) - 15) + 10)) =
        ⟨53 / 512, 0, 0⟩ := by
  have hc : max (0 : ℚ) (min 1 (1 / 4)) = 1 / 4 := by
    rw [min_eq_right (by norm_num), max_eq_right (by norm_num)]
  refine ⟨by norm_num, by norm_num, by norm_num [smoothStep], by norm_num,
    by norm_num [smoothStep], ?_, ?_⟩
  · simp only [animateTargets, hc, List.foldl_cons, List.foldl_nil, Transforms.setPosition,
      Function.update_same, sampleTarget, Vector3.lerpVectors, smoothStep]
    norm_num
  · simp only [sampleTarget, Vector3.lerpVectors]
    norm_num

/-! ## The tick of `useLayerManager` at the end of an animation -/

/-- Writing positions to pairwise different objects: each object ends with its own value. -/
theorem foldl_setPosition_nodup {α τ : Type} (obj : τ → Obj) (val : τ → Vector3 α)
    (xs : List τ) (hnd : (xs.map (fun t => (obj t).path)).Nodup) (s : Transforms α) :
    ∀ t ∈ xs, (xs.foldl (fun s t => s.setPosition (obj t) (val t)) s).position (obj t).path =
      val t := by
  induction xs generalizing s with
  | nil => intro t ht; cases ht
  | cons x xs ih =>
    rw [List.map_cons, List.nodup_cons] at hnd
    intro t ht
    rw [List.foldl_cons]
    rcases List.mem_cons.1 ht with rfl | ht
    · rw [(foldl_setPosition_other obj val xs _).2.2 _ hnd.1]
      simp [Transforms.setPosition]
    · exact ih hnd.2 _ t ht

theorem Vector3.lerpVectors_one {α : Type} [Ring α] (a b : Vector3 α) :
    Vector3.lerpVectors a b 1 = b := by
  cases a; cases b
  simp [Vector3.lerpVectors]

namespace useLayerManager

/-- C22 (tick completion): for an active animation with a positive `duration` (the hook only
creates the duration 500) and targets on pairwise different objects (the hook creates one
target per object), a call of `updateAnimation` with `now - startTime >= duration` puts every
target object exactly at its `targetPosition`, leaves every other position and every rotation
and scale as they were, and clears `isActive` and `isAnimating`; when no animation is active
`updateAnimation` changes nothing. -/
theorem tick_completion {α : Type} [LinearOrderedField α] (st : State α) (now : α)
    (ha : st.animationRef.isActive = true) (hd : 0 < st.animationRef.duration)
    (hn : st.animationRef.duration ≤ now - st.animationRef.startTime)
    (hnd : (st.animationRef.targets.map (fun t => t.object.path)).Nodup) :
    (∀ t ∈ st.animationRef.targets,
        (updateAnimation st now).scene.position t.object.path = t.targetPosition) ∧
      (∀ p, p ∉ st.animationRef.targets.map (fun t => t.object.path) →
        (updateAnimation st now).scene.position p = st.scene.position p) ∧
      (updateAnimation st now).scene.rotation = st.scene.rotation ∧
      (updateAnimation st now).scene.scale = st.scene.scale ∧
      (updateAnimation st now).animationRef.isActive = false ∧
      (updateAnimation st now).isAnimating = false ∧
      (updateAnimation st now).animationRef.targets = st.animationRef.targets ∧
      ∀ (idle : State α) (time : α), idle.animationRef.isActive = false →
        updateAnimation idle time = idle := by
  have hp : tickProgress st.animationRef now = 1 := by
    unfold tickProgress
    exact min_eq_right ((one_le_div hd).2 hn)
  have hs : smoothStep (1 : α) = 1 := by
    simp only [smoothStep]; norm_num
  have hu : updateAnimation st now =
      { animationRef := { st.animationRef with isActive := false }
        isAnimating := false
        scene := st.animationRef.targets.foldl
          (fun s t => s.setPosition t.object t.targetPosition) st.scene } := by
    unfold updateAnimation
    simp only [ha, Bool.not_true, Bool.false_eq_true, if_false, hp, hs,
      Vector3.lerpVectors_one, ge_iff_le, le_refl, if_true]
  rw [hu]
  obtain ⟨h1, h2, h3⟩ := foldl_setPosition_other (fun t : TickTarget α => t.object)
    (fun t => t.targetPosition) st.animationRef.targets st.scene
  refine ⟨?_, h3, h1, h2, rfl, rfl, rfl, ?_⟩
  · exact foldl_setPosition_nodup (fun t : TickTarget α => t.object)
      (fun t => t.targetPosition) st.animationRef.targets hnd st.scene
  · intro idle time hi
    unfold updateAnimation
    simp [hi]

/-- C22 at `sampleTickState` (start 1000, duration 500), ticked at time 1500. -/
theorem tick_completion_witness :
    sampleTickState.animationRef.isActive = true ∧
      (0 : ℚ) < sampleTickState.animationRef.duration ∧
      sampleTickState.animationRef.duration ≤ 1500 - sampleTickState.animationRef.startTime ∧
      (sampleTickState.animationRef.targets.map (fun t => t.object.path)).Nodup ∧
      ((∀ t ∈ sampleTickState.animationRef.targets,
          (updateAnimation sampleTickState 1500).scene.position t.object.path =
            t.targetPosition) ∧
        (∀ p, p ∉ sampleTickState.animationRef.targets.map (fun t => t.object.path) →
          (updateAnimation sampleTickState 1500).scene.position p =
            sampleTickState.scene.position p) ∧
        (updateAnimation sampleTickState 1500).scene.rotation =
          sampleTickState.scene.rotation ∧
        (updateAnimation sampleTickState 1500).scene.scale = sampleTickState.scene.scale ∧
        (updateAnimation sampleTickState 1500).animationRef.isActive = false ∧
        (updateAnimation sampleTickState 1500).isAnimating = false ∧
        (updateAnimation sampleTickState 1500).animationRef.targets =
          sampleTickState.animationRef.targets ∧
        ∀ (idle : State ℚ) (time : ℚ), idle.animationRef.isActive = false →
          updateAnimation idle time = idle) :=
  ⟨rfl, by norm_num [sampleTickState, sampleAnimation],
    by norm_num [sampleTickState, sampleAnimation],
    by simp [sampleTickState, sampleAnimation],
    tick_completion sampleTickState 1500 rfl (by norm_num [sampleTickState, sampleAnimation])
      (by norm_num [sampleTickState, sampleAnimation])
      (by simp [sampleTickState, sampleAnimation])⟩

end useLayerManager

/-! ## `reassembleLayer` with ids that match no object -/

theorem foldl_find_isSome (xs : List Obj) (u : String) (acc : Option Obj)
    (h : u ∈ xs.map Obj.uuid) :
    (xs.foldl (fun found obj => if obj.uuid = u then some obj else found) acc).isSome =
      true := by
  induction xs generalizing acc with
  | nil => simp at h
  | cons x xs ih =>
    rw [List.foldl_cons]
    by_cases hm : u ∈ xs.map Obj.uuid
    · exact ih _ hm
    · have hx : x.uuid = u := by
        simp only [List.map_cons, List.mem_cons] at h
        rcases h with h | h
        · exact h.symm
        · exact absurd h hm
      rw [foldl_find_of_not_mem xs u _ hm]
      simp [hx]

/-- The search by uuid fails exactly for the ids of no object of the tree. -/
theorem findObject_eq_none_iff (r : Object3D) (u : String) :
    findObject r u = none ↔ u ∉ (traverse r).map Obj.uuid := by
  constructor
  · intro h hm
    have := foldl_find_isSome (traverse r) u none hm
    unfold findObject at h
    rw [h] at this
    cases this
  · intro h
    exact foldl_find_of_not_mem _ _ _ h

/-- C23 (missing-node skip): with a root, `reassembleLayer` returns without throwing; the
pairs `(uuid, targetPosition)` of its targets are, in the snapshot's order, exactly the
entries of the snapshot whose id is the uuid of an object of the tree, so an id that matches
no object gives no target; each target holds the object found under its id, with the object's
present position as `startPosition`. -/
theorem reassembleLayer_skips_missing {α : Type} (r : Object3D) (s : Transforms α)
    (savedPositions : JSMap String (Vector3 α)) :
    ∃ targets, reassembleLayer s savedPositions (some r) = .returned targets ∧
      targets.map (fun t => (t.uuid, t.targetPosition)) =
        savedPositions.filter (fun e => decide (e.1 ∈ (traverse r).map Obj.uuid)) ∧
      (∀ e ∈ savedPositions, e.1 ∉ (traverse r).map Obj.uuid →
        ∀ t ∈ targets, t.uuid ≠ e.1) ∧
      ∀ t ∈ targets, findObject r t.uuid = some t.object ∧ t.object ∈ traverse r ∧
        t.object.uuid = t.uuid ∧ t.startPosition = s.position t.object.path := by
  refine ⟨_, rfl, ?_⟩
  have key : ∀ (xs : JSMap String (Vector3 α)) (acc : List (AnimationTarget α)),
      (xs.foldl
          (fun animationTargets e =>
            match findObject r e.1 with
            | some foundObject =>
              animationTargets ++
                [{ object := foundObject
                   startPosition := s.position foundObject.path
                   targetPosition := e.2
                   uuid := e.1 }]
            | none => animationTargets)
          acc).map (fun t => (t.uuid, t.targetPosition)) =
          acc.map (fun t => (t.uuid, t.targetPosition)) ++
            xs.filter (fun e => decide (e.1 ∈ (traverse r).map Obj.uuid)) ∧
        ((∀ t ∈ acc, findObject r t.uuid = some t.object ∧ t.object ∈ traverse r ∧
            t.object.uuid = t.uuid ∧ t.startPosition = s.position t.object.path) →
          ∀ t ∈ xs.foldl
            (fun animationTargets e =>
              match findObject r e.1 with
              | some foundObject =>
                animationTargets ++
                  [{ object := foundObject
                     startPosition := s.position foundObject.path
                     targetPosition := e.2
                     uuid := e.1 }]
              | none => animationTargets)
            acc,
            findObject r t.uuid = some t.object ∧ t.object ∈ traverse r ∧
              t.object.uuid = t.uuid ∧ t.startPosition = s.position t.object.path) := by
    intro xs
    induction xs with
    | nil => intro acc; exact ⟨by simp, fun h => h⟩
    | cons e xs ih =>
      intro acc
      rw [List.foldl_cons]
      cases hf : findObject r e.1 with
      | none =>
        have hm : e.1 ∉ (traverse r).map Obj.uuid := (findObject_eq_none_iff r e.1).1 hf
        obtain ⟨h1, h2⟩ := ih acc
        refine ⟨?_, h2⟩
        rw [h1, List.filter_cons]
        simp [hm]
      | some o =>
        have hm : e.1 ∈ (traverse r).map Obj.uuid := by
          by_contra hm
          rw [(findObject_eq_none_iff r e.1).2 hm] at hf
          cases hf
        obtain ⟨h1, h2⟩ := ih
          (acc ++ [{ object := o, startPosition := s.position o.path, targetPosition := e.2,
                     uuid := e.1 }])
        refine ⟨?_, ?_⟩
        · simp only at h1 ⊢
          rw [h1, List.filter_cons]
          simp [hm]
        · intro hacc
          apply h2
          intro t ht
          rcases List.mem_append.1 ht with ht | ht
          · exact hacc t ht
          · rw [List.mem_singleton] at ht
            subst ht
            obtain ⟨ho1, ho2⟩ := ModelDisassemblyManager.findObject_some r e.1 o hf
            exact ⟨hf, ho1, ho2, rfl⟩
  obtain ⟨h1, h2⟩ := key savedPositions []
  have hmap := h1
  simp only [List.map_nil, List.nil_append] at hmap
  refine ⟨hmap, ?_, h2 (fun t ht => by cases ht)⟩
  intro e _ hmiss t ht hte
  have : (t.uuid, t.targetPosition) ∈
      savedPositions.filter (fun e => decide (e.1 ∈ (traverse r).map Obj.uuid)) := by
    rw [← hmap]
    exact List.mem_map.2 ⟨t, ht, rfl⟩
  have := (List.mem_filter.1 this).2
  simp only [decide_eq_true_eq] at this
  exact hmiss (hte ▸ this)

/-- C24 (null root): `initializeModelLayers` called with `null` (or `undefined`) returns
normally with no layer and with an empty `originalPositions`, whatever the scene holds. -/
theorem initializeModelLayers_null {α : Type} (s : Transforms α) :
    (initializeModelLayers none s).layers = [] ∧
      (initializeModelLayers none s).originalPositions = [] ∧
      (initializeModelLayers none s).layers.length = 0 ∧
      (initializeModelLayers none s).originalPositions.isEmpty = true :=
  ⟨rfl, rfl, rfl, rfl⟩

namespace ModelDisassemblyManager

variable {α : Type}

/-! ## The manager of an empty model, and the guards of the commands -/

/-- On the manager of a `null` root every command returns at once and changes nothing. -/
theorem call_new_none [Field α] [DecidableEq α] (T : Three α) (scene : Transforms α)
    (c : Call α) : call T (new none scene) c = (new none scene, c.idle) := by
  cases c with
  | disassembleNext distance =>
    simp [call, disassembleNext, canDisassemble, new, init, initializeModelLayers, Call.idle]
  | reassemblePrevious =>
    simp [call, reassemblePrevious, canReassemble, new, init, initializeModelLayers,
      Call.idle]
  | reset =>
    simp [call, reset, new, init, initializeModelLayers, Call.idle]

/-- C25 (commands on an empty model): the manager constructed with a `null` root has no
layers, and every finite sequence of `disassembleNext`, `reassemblePrevious` and `reset` calls
on it ends without an exception, with `null` returned by every `disassembleNext` and
`reassemblePrevious`, and leaves the manager as constructed: `currentLayer = 0`, the stack
empty, and the scene untouched. -/
theorem empty_model_commands [Field α] [DecidableEq α] (T : Three α) (scene : Transforms α)
    (calls : List (Call α)) :
    (new none scene).layers = [] ∧
      (callAll T (new none scene) calls).2 = calls.map Call.idle ∧
      (∀ o ∈ (callAll T (new none scene) calls).2, o ≠ Outcome.threw) ∧
      (callAll T (new none scene) calls).1 = new none scene ∧
      (callAll T (new none scene) calls).1.currentLayer = 0 ∧
      (callAll T (new none scene) calls).1.animationStack = [] ∧
      (callAll T (new none scene) calls).1.scene = scene := by
  have h : callAll T (new none scene) calls = (new none scene, calls.map Call.idle) := by
    induction calls with
    | nil => rfl
    | cons c cs ih =>
      simp only [callAll, call_new_none, ih, List.map_cons]
  rw [h]
  refine ⟨rfl, rfl, ?_, rfl, rfl, rfl, rfl⟩
  intro o ho
  obtain ⟨c, _, rfl⟩ := List.mem_map.1 ho
  cases c <;> simp [Call.idle]

/-- C28 (redundant stack guard): in every reachable state `canReassemble()` is true exactly
when `currentLayer > 0` and `isAnimating` is false, the stack being as deep as
`currentLayer`; and when `layers` is not empty and `isAnimating` is false, `canDisassemble()`
or `canReassemble()` is true. -/
theorem redundant_stack_guard [Field α] [DecidableEq α] (T : Three α) (s0 : Transforms α)
    (m : ModelDisassemblyManager α) (h : Reachable T s0 m) :
    (m.canReassemble = true ↔ 0 < m.currentLayer ∧ m.isAnimating = false) ∧
      (m.canReassemble = (decide (m.currentLayer > 0) && !m.isAnimating)) ∧
      (m.layers ≠ [] → m.isAnimating = false →
        m.canDisassemble = true ∨ m.canReassemble = true) := by
  obtain ⟨_, _, h3, h4, _⟩ := reachable_inv T s0 m h
  have hiff : m.canReassemble = true ↔ 0 < m.currentLayer ∧ m.isAnimating = false := by
    simp only [canReassemble, Bool.and_eq_true, decide_eq_true_eq, Bool.not_eq_true',
      gt_iff_lt, h3]
    constructor
    · rintro ⟨⟨h1, h2⟩, _⟩; exact ⟨h1, h2⟩
    · rintro ⟨h1, h2⟩; exact ⟨⟨h1, h2⟩, h1⟩
  refine ⟨hiff, ?_, ?_⟩
  · simp only [canReassemble, h3]
    cases decide (m.currentLayer > 0) <;> cases m.isAnimating <;> rfl
  · intro hl ha
    by_cases hlt : m.currentLayer < m.layers.length
    · left
      simp [canDisassemble, hlt, ha]
    · right
      rw [hiff]
      refine ⟨?_, ha⟩
      have hpos : 0 < m.layers.length := List.length_pos.2 hl
      omega

/-- C28 at the manager of `familyTree` after one `disassembleNext`. -/
theorem redundant_stack_guard_witness :
    Reachable sampleThree restScene
        (disassembleNext sampleThree (new (some familyTree) restScene) 2).1 ∧
      (((disassembleNext sampleThree (new (some familyTree) restScene) 2).1.canReassemble =
            true ↔
          0 < (disassembleNext sampleThree (new (some familyTree) restScene) 2).1.currentLayer ∧
            (disassembleNext sampleThree (new (some familyTree) restScene) 2).1.isAnimating =
              false) ∧
        ((disassembleNext sampleThree (new (some familyTree) restScene) 2).1.canReassemble =
          (decide ((disassembleNext sampleThree
              (new (some familyTree) restScene) 2).1.currentLayer > 0) &&
            !(disassembleNext sampleThree (new (some familyTree) restScene) 2).1.isAnimating)) ∧
        ((disassembleNext sampleThree (new (some familyTree) restScene) 2).1.layers ≠ [] →
          (disassembleNext sampleThree (new (some familyTree) restScene) 2).1.isAnimating =
            false →
          (disassembleNext sampleThree (new (some familyTree) restScene) 2).1.canDisassemble =
              true ∨
            (disassembleNext sampleThree (new (some familyTree) restScene) 2).1.canReassemble =
              true)) :=
  ⟨Reachable.disassembleNext 2 (Reachable.new _ _),
    redundant_stack_guard sampleThree restScene _
      (Reachable.disassembleNext 2 (Reachable.new _ _))⟩

end ModelDisassemblyManager

/-! ## The shape of the easing curves -/

/-- The first derivative of the quintic easing. -/
theorem useLayerManager.deriv_smoothStep :
    deriv (useLayerManager.smoothStep : ℝ → ℝ) =
      fun t => 30 * t ^ 4 - 60 * t ^ 3 + 30 * t ^ 2 := by
  have hs : (useLayerManager.smoothStep : ℝ → ℝ) =
      fun t => 6 * t ^ 5 - 15 * t ^ 4 + 10 * t ^ 3 := by
    funext t
    simp only [useLayerManager.smoothStep]
    ring
  rw [hs]
  funext t
  have h := (((hasDerivAt_pow 5 t).const_mul 6).sub ((hasDerivAt_pow 4 t).const_mul 15)).add
    ((hasDerivAt_pow 3 t).const_mul 10)
  have h2 : HasDerivAt (fun t : ℝ => 6 * t ^ 5 - 15 * t ^ 4 + 10 * t ^ 3)
      (30 * t ^ 4 - 60 * t ^ 3 + 30 * t ^ 2) t := by
    convert h using 1
    norm_num
    ring
  exact h2.deriv

/-- The second derivative of the quintic easing. -/
theorem useLayerManager.deriv_deriv_smoothStep :
    deriv (deriv (useLayerManager.smoothStep : ℝ → ℝ)) =
      fun t => 120 * t ^ 3 - 180 * t ^ 2 + 60 * t := by
  rw [useLayerManager.deriv_smoothStep]
  funext t
  have h := (((hasDerivAt_pow 4 t).const_mul 30).sub ((hasDerivAt_pow 3 t).const_mul 60)).add
    ((hasDerivAt_pow 2 t).const_mul 30)
  have h2 : HasDerivAt (fun t : ℝ => 30 * t ^ 4 - 60 * t ^ 3 + 30 * t ^ 2)
      (120 * t ^ 3 - 180 * t ^ 2 + 60 * t) t := by
    convert h using 1
    norm_num
    ring
  exact h2.deriv

/-- C26 (endpoints of the quintic easing): the easing
`s(t) = t * t * t * (t * (t * 6 - 15) + 10)` of `useLayerManager`, as a function of a real
`t`, has `s(0) = 0`, `s(1) = 1`, and its first and second derivatives vanish at `0` and at
`1`. -/
theorem quintic_easing_endpoints :
    useLayerManager.smoothStep (0 : ℝ) = 0 ∧ useLayerManager.smoothStep (1 : ℝ) = 1 ∧
      deriv (useLayerManager.smoothStep : ℝ → ℝ) 0 = 0 ∧
      deriv (useLayerManager.smoothStep : ℝ → ℝ) 1 = 0 ∧
      deriv (deriv (useLayerManager.smoothStep : ℝ → ℝ)) 0 = 0 ∧
      deriv (deriv (useLayerManager.smoothStep : ℝ → ℝ)) 1 = 0 := by
  refine ⟨?_, ?_, ?_, ?_, ?_, ?_⟩
  · simp [useLayerManager.smoothStep]
  · simp only [useLayerManager.smoothStep]; norm_num
  · rw [useLayerManager.deriv_smoothStep]; norm_num
  · rw [useLayerManager.deriv_smoothStep]; norm_num
  · rw [useLayerManager.deriv_deriv_smoothStep]; norm_num
  · rw [useLayerManager.deriv_deriv_smoothStep]; norm_num

theorem clamp_bounds {α : Type} [LinearOrderedField α] (p : α) :
    0 ≤ max 0 (min 1 p) ∧ max 0 (min 1 p) ≤ 1 :=
  ⟨le_max_left _ _, max_le zero_le_one (min_le_left _ _)⟩

theorem clamp_mono {α : Type} [LinearOrderedField α] (p q : α) (h : p ≤ q) :
    max 0 (min 1 p) ≤ max 0 (min 1 q) :=
  max_le_max (le_refl _) (min_le_min (le_refl _) h)

theorem smoothStep_bounds {α : Type} [LinearOrderedField α] (c : α) (h0 : 0 ≤ c)
    (h1 : c ≤ 1) : 0 ≤ smoothStep c ∧ smoothStep c ≤ 1 := by
  simp only [smoothStep]
  have h2 : 0 ≤ 1 - c := sub_nonneg.2 h1
  constructor
  · exact mul_nonneg (mul_nonneg h0 h0) (by linarith)
  · have : 1 - c * c * (3 - 2 * c) = (1 - c) * (1 - c) * (1 + 2 * c) := by ring
    have h3 : 0 ≤ (1 - c) * (1 - c) * (1 + 2 * c) :=
      mul_nonneg (mul_nonneg h2 h2) (by linarith)
    linarith

theorem smoothStep_mono {α : Type} [LinearOrderedField α] (a b : α) (h0 : 0 ≤ a)
    (hab : a ≤ b) (h1 : b ≤ 1) : smoothStep a ≤ smoothStep b := by
  simp only [smoothStep]
  have hd : 0 ≤ b - a := sub_nonneg.2 hab
  have hb0 : 0 ≤ b := le_trans h0 hab
  have ha1 : a ≤ 1 := le_trans hab h1
  have key : b * b * (3 - 2 * b) - a * a * (3 - 2 * a) =
      (b - a) * (a * (3 - 2 * a - b) + b * (3 - 2 * b - a)) := by ring
  have h2 : 0 ≤ a * (3 - 2 * a - b) + b * (3 - 2 * b - a) :=
    add_nonneg (mul_nonneg h0 (by linarith)) (mul_nonneg hb0 (by linarith))
  have h3 := mul_nonneg hd h2
  linarith

/-- C27 (no overshoot): with the default easing `animateTargets` puts each object (the
objects of the targets being pairwise different) at
`startPosition + (targetPosition - startPosition) * e` where
`e = smoothStep(clamp(progress, 0, 1))`; for every progress, also outside `[0, 1]`, `e` lies in
`[0, 1]`, is `0` for `progress <= 0` and `1` for `progress >= 1`, and does not decrease when
the progress grows. -/
theorem no_overshoot {α : Type} [LinearOrderedField α] (s : Transforms α)
    (targets : List (AnimationTarget α)) (progress : α)
    (hnd : (targets.map (fun t => t.object.path)).Nodup) :
    (∀ t ∈ targets,
        (animateTargets s targets progress smoothStep).position t.object.path =
          t.startPosition.add
            ((Vector3.subVectors t.targetPosition t.startPosition).multiplyScalar
              (smoothStep (max 0 (min 1 progress))))) ∧
      0 ≤ smoothStep (max 0 (min 1 progress)) ∧
      smoothStep (max 0 (min 1 progress)) ≤ 1 ∧
      (∀ p : α, p ≤ 0 → smoothStep (max 0 (min 1 p)) = 0) ∧
      (∀ p : α, 1 ≤ p → smoothStep (max 0 (min 1 p)) = 1) ∧
      (∀ p q : α, p ≤ q → smoothStep (max 0 (min 1 p)) ≤ smoothStep (max 0 (min 1 q))) := by
  obtain ⟨hc0, hc1⟩ := clamp_bounds progress
  obtain ⟨hb0, hb1⟩ := smoothStep_bounds _ hc0 hc1
  refine ⟨?_, hb0, hb1, ?_, ?_, ?_⟩
  · intro t ht
    have := foldl_setPosition_nodup (fun t : AnimationTarget α => t.object)
      (fun t => Vector3.lerpVectors t.startPosition t.targetPosition
        (smoothStep (max 0 (min 1 progress)))) targets hnd s t ht
    simp only [animateTargets]
    rw [this]
    rfl
  · intro p hp
    have : max 0 (min 1 p) = 0 := max_eq_left (le_trans (min_le_right _ _) hp)
    rw [this]
    simp [smoothStep]
  · intro p hp
    have : max 0 (min 1 p) = 1 := by
      rw [min_eq_left hp]; exact max_eq_right zero_le_one
    rw [this]
    exact smoothStep_one
  · intro p q hpq
    exact smoothStep_mono _ _ (clamp_bounds p).1 (clamp_mono p q hpq) (clamp_bounds q).2

/-- C27 at `sampleTarget` with the progress `3/2`, beyond the end of the animation. -/
theorem no_overshoot_witness :
    ([sampleTarget].map (fun t => t.object.path)).Nodup ∧
      ((∀ t ∈ [sampleTarget],
          (animateTargets restScene [sampleTarget] (3 / 2) smoothStep).position
              t.object.path =
            t.startPosition.add
              ((Vector3.subVectors t.targetPosition t.startPosition).multiplyScalar
                (smoothStep (max 0 (min 1 (3 / 2 : ℚ)))))) ∧
        0 ≤ smoothStep (max 0 (min 1 (3 / 2 : ℚ))) ∧
        smoothStep (max 0 (min 1 (3 / 2 : ℚ))) ≤ 1 ∧
        (∀ p : ℚ, p ≤ 0 → smoothStep (max 0 (min 1 p)) = 0) ∧
        (∀ p : ℚ, 1 ≤ p → smoothStep (max 0 (min 1 p)) = 1) ∧
        (∀ p q : ℚ, p ≤ q →
          smoothStep (max 0 (min 1 p)) ≤ smoothStep (max 0 (min 1 q)))) :=
  ⟨by simp, no_overshoot restScene [sampleTarget] (3 / 2) (by simp)⟩

/-! ## Root-level groups of one and of two objects -/

theorem rootCenter_singleton (T : Three ℝ) (s : Transforms ℝ) (obj : Obj) :
    rootCenter T s [obj] = T.getWorldPosition s obj := by
  simp [rootCenter, Vector3.add, Vector3.divideScalar, Vector3.multiplyScalar]

/-- The direction of the only object of a root-level group. -/
theorem rootGroupDirection_singleton (T : Three ℝ) (hT : T.IsReal) (s : Transforms ℝ)
    (obj : Obj) : rootGroupDirection T s [obj] obj = ⟨1, 0, 0⟩ := by
  have h := root_group_direction_aux T hT s [obj] 0 (by simp) (by simp)
    (by simp [rootCenter_singleton])
  simpa using h

theorem Three.normalize_neg (T : Three ℝ) (v : Vector3 ℝ) :
    T.normalize (v.multiplyScalar (-1)) = (T.normalize v).multiplyScalar (-1) := by
  have hl : T.length (v.multiplyScalar (-1)) = T.length v := by
    simp only [Three.length, Vector3.multiplyScalar]
    congr 1
    ring
  simp only [Three.normalize, hl, Vector3.divideScalar]
  simp only [Vector3.multiplyScalar]
  rw [Vector3.ext_iff3]
  refine ⟨by ring, by ring, by ring⟩

/-- C29 (single root-level object), in real arithmetic: when the root-level group of the layer
holds exactly one object, `disassembleLayer` gives it the direction `(1, 0, 0)` whatever its
position is, and its target, the last of the returned ones, starts at the object's local
position and ends at that position plus `(distance, 0, 0)`. -/
theorem single_root_level (T : Three ℝ) (hT : T.IsReal) (s : Transforms ℝ)
    (layer : List Obj) (rootObject : Option Object3D) (distance : ℝ) (obj : Obj)
    (h : rootObjectsOf layer rootObject = [obj]) :
    rootGroupDirection T s (rootObjectsOf layer rootObject) obj = ⟨1, 0, 0⟩ ∧
      disassembleLayer T s (some layer) rootObject distance =
        (parentGroupsOf layer rootObject).flatMap
            (fun g => g.2.children.map
              (parentGroupTarget T s g.2.parent g.2.children distance)) ++
          [makeTarget s obj ⟨1, 0, 0⟩ distance] ∧
      (makeTarget s obj ⟨1, 0, 0⟩ distance).startPosition = s.position obj.path ∧
      (makeTarget s obj ⟨1, 0, 0⟩ distance).targetPosition =
        (s.position obj.path).add ⟨distance, 0, 0⟩ := by
  refine ⟨?_, ?_, rfl, ?_⟩
  · rw [h]; exact rootGroupDirection_singleton T hT s obj
  · rw [disassembleLayer_eq, h]
    simp only [List.map_cons, List.map_nil, rootGroupTarget_eq,
      rootGroupDirection_singleton T hT s obj]
  · simp [makeTarget, Vector3.multiplyScalar]

/-- C29 at `passThroughTree`, whose root has the single child `P`, at the local position
`(0, 1, 0)`. -/
theorem single_root_level_witness :
    (translationThree Real.sqrt Real.cos Real.sin Real.pi (fun _ => ⟨0, 0, 0⟩)).IsReal ∧
      rootObjectsOf [passThroughChild] (some passThroughTree) = [passThroughChild] ∧
      (rootGroupDirection
            (translationThree Real.sqrt Real.cos Real.sin Real.pi (fun _ => ⟨0, 0, 0⟩))
            (sceneWithDepthAt 1 ⟨0, 1, 0⟩)
            (rootObjectsOf [passThroughChild] (some passThroughTree)) passThroughChild =
          ⟨1, 0, 0⟩ ∧
        disassembleLayer
            (translationThree Real.sqrt Real.cos Real.sin Real.pi (fun _ => ⟨0, 0, 0⟩))
            (sceneWithDepthAt 1 ⟨0, 1, 0⟩) (some [passThroughChild]) (some passThroughTree)
            2 =
          (parentGroupsOf [passThroughChild] (some passThroughTree)).flatMap
              (fun g => g.2.children.map
                (parentGroupTarget
                  (translationThree Real.sqrt Real.cos Real.sin Real.pi (fun _ => ⟨0, 0, 0⟩))
                  (sceneWithDepthAt 1 ⟨0, 1, 0⟩) g.2.parent g.2.children 2)) ++
            [makeTarget (sceneWithDepthAt 1 ⟨0, 1, 0⟩) passThroughChild ⟨1, 0, 0⟩ 2] ∧
        (makeTarget (sceneWithDepthAt 1 (⟨0, 1, 0⟩ : Vector3 ℝ)) passThroughChild ⟨1, 0, 0⟩
            2).startPosition =
          (sceneWithDepthAt 1 (⟨0, 1, 0⟩ : Vector3 ℝ)).position passThroughChild.path ∧
        (makeTarget (sceneWithDepthAt 1 (⟨0, 1, 0⟩ : Vector3 ℝ)) passThroughChild ⟨1, 0, 0⟩
            2).targetPosition =
          ((sceneWithDepthAt 1 (⟨0, 1, 0⟩ : Vector3 ℝ)).position passThroughChild.path).add
            ⟨2, 0, 0⟩) :=
  ⟨⟨rfl, rfl, rfl, rfl⟩, rfl,
    single_root_level _ ⟨rfl, rfl, rfl, rfl⟩ (sceneWithDepthAt 1 ⟨0, 1, 0⟩) [passThroughChild]
      (some passThroughTree) 2 passThroughChild rfl⟩

/-- The directions of the two objects of a root-level group with different world
positions. -/
theorem rootGroupDirection_pair (T : Three ℝ) (hT : T.IsReal) (s : Transforms ℝ)
    (a b : Obj) (hw : T.getWorldPosition s a ≠ T.getWorldPosition s b) :
    rootGroupDirection T s [a, b] a =
        T.normalize (Vector3.subVectors (T.getWorldPosition s a) (rootCenter T s [a, b])) ∧
      rootGroupDirection T s [a, b] b =
        (T.normalize (Vector3.subVectors (T.getWorldPosition s a)
          (rootCenter T s [a, b]))).multiplyScalar (-1) := by
  have hc : rootCenter T s [a, b] =
      ⟨((T.getWorldPosition s a).x + (T.getWorldPosition s b).x) * (1 / 2),
        ((T.getWorldPosition s a).y + (T.getWorldPosition s b).y) * (1 / 2),
        ((T.getWorldPosition s a).z + (T.getWorldPosition s b).z) * (1 / 2)⟩ := by
    simp [rootCenter, Vector3.add, Vector3.divideScalar, Vector3.multiplyScalar]
  have hb : Vector3.subVectors (T.getWorldPosition s b) (rootCenter T s [a, b]) =
      (Vector3.subVectors (T.getWorldPosition s a) (rootCenter T s [a, b])).multiplyScalar
        (-1) := by
    rw [hc, Vector3.ext_iff3]
    simp only [Vector3.subVectors, Vector3.multiplyScalar]
    refine ⟨by ring, by ring, by ring⟩
  have hne : Vector3.subVectors (T.getWorldPosition s a) (rootCenter T s [a, b]) ≠
      ⟨0, 0, 0⟩ := by
    intro h0
    apply hw
    rw [hc, Vector3.ext_iff3] at h0
    simp only [Vector3.subVectors] at h0
    rw [Vector3.ext_iff3]
    exact ⟨by linarith [h0.1], by linarith [h0.2.1], by linarith [h0.2.2]⟩
  have hla : ¬ T.length (T.normalize (Vector3.subVectors (T.getWorldPosition s a)
      (rootCenter T s [a, b]))) = 0 := by
    rw [T.length_normalize hT _ hne]; exact one_ne_zero
  have hlb : ¬ T.length ((T.normalize (Vector3.subVectors (T.getWorldPosition s a)
      (rootCenter T s [a, b]))).multiplyScalar (-1)) = 0 := by
    rw [T.length_multiplyScalar hT, T.length_normalize hT _ hne]
    norm_num
  constructor
  · unfold rootGroupDirection
    simp only [hla, if_false]
  · unfold rootGroupDirection
    simp only [hb, T.normalize_neg, hlb, if_false]

/-- C30 (symmetric pair), in real arithmetic: when the root-level group of the layer holds
exactly two objects and their world positions differ, `disassembleLayer` gives them opposite
directions of length one, and the displacements `targetPosition - startPosition` of their two
targets, the last two of the returned ones, are the negatives of each other. -/
theorem symmetric_pair (T : Three ℝ) (hT : T.IsReal) (s : Transforms ℝ)
    (layer : List Obj) (rootObject : Option Object3D) (distance : ℝ) (a b : Obj)
    (h : rootObjectsOf layer rootObject = [a, b])
    (hw : T.getWorldPosition s a ≠ T.getWorldPosition s b) :
    rootGroupDirection T s (rootObjectsOf layer rootObject) b =
        (rootGroupDirection T s (rootObjectsOf layer rootObject) a).multiplyScalar (-1) ∧
      T.length (rootGroupDirection T s (rootObjectsOf layer rootObject) a) = 1 ∧
      T.length (rootGroupDirection T s (rootObjectsOf layer rootObject) b) = 1 ∧
      disassembleLayer T s (some layer) rootObject distance =
        (parentGroupsOf layer rootObject).flatMap
            (fun g => g.2.children.map
              (parentGroupTarget T s g.2.parent g.2.children distance)) ++
          [rootGroupTarget T s [a, b] distance a, rootGroupTarget T s [a, b] distance b] ∧
      (rootGroupTarget T s [a, b] distance a).object = a ∧
      (rootGroupTarget T s [a, b] distance b).object = b ∧
      Vector3.subVectors (rootGroupTarget T s [a, b] distance b).targetPosition
          (rootGroupTarget T s [a, b] distance b).startPosition =
        (Vector3.subVectors (rootGroupTarget T s [a, b] distance a).targetPosition
          (rootGroupTarget T s [a, b] distance a).startPosition).multiplyScalar (-1) := by
  obtain ⟨ha, hb⟩ := rootGroupDirection_pair T hT s a b hw
  rw [h]
  refine ⟨by rw [ha, hb], length_rootGroupDirection T hT s _ _,
    length_rootGroupDirection T hT s _ _, ?_, rfl, rfl, ?_⟩
  · rw [disassembleLayer_eq, h]
    rfl
  · rw [rootGroupTarget_eq, rootGroupTarget_eq, ha, hb]
    simp only [makeTarget, Vector3.sub_add_cancel_left]
    rw [Vector3.ext_iff3]
    simp only [Vector3.multiplyScalar]
    refine ⟨by ring, by ring, by ring⟩

/-- C30 at the two children `A` and `B` of the root of `familyTree`, `A` at the local position
`(1, 0, 0)` and `B` at the origin. -/
theorem symmetric_pair_witness :
    (translationThree Real.sqrt Real.cos Real.sin Real.pi (fun _ => ⟨0, 0, 0⟩)).IsReal ∧
      rootObjectsOf familyLayer (some familyTree) =
        [familyLayer.get ⟨0, by decide⟩, familyLayer.get ⟨1, by decide⟩] ∧
      (translationThree Real.sqrt Real.cos Real.sin Real.pi
          (fun _ => ⟨0, 0, 0⟩)).getWorldPosition (sceneWithFirstAt ⟨1, 0, 0⟩)
          (familyLayer.get ⟨0, by decide⟩) ≠
        (translationThree Real.sqrt Real.cos Real.sin Real.pi
          (fun _ => ⟨0, 0, 0⟩)).getWorldPosition (sceneWithFirstAt ⟨1, 0, 0⟩)
          (familyLayer.get ⟨1, by decide⟩) ∧
      Vector3.subVectors
          (rootGroupTarget
            (translationThree Real.sqrt Real.cos Real.sin Real.pi (fun _ => ⟨0, 0, 0⟩))
            (sceneWithFirstAt ⟨1, 0, 0⟩)
            [familyLayer.get ⟨0, by decide⟩, familyLayer.get ⟨1, by decide⟩] 2
            (familyLayer.get ⟨1, by decide⟩)).targetPosition
          (rootGroupTarget
            (translationThree Real.sqrt Real.cos Real.sin Real.pi (fun _ => ⟨0, 0, 0⟩))
            (sceneWithFirstAt ⟨1, 0, 0⟩)
            [familyLayer.get ⟨0, by decide⟩, familyLayer.get ⟨1, by decide⟩] 2
            (familyLayer.get ⟨1, by decide⟩)).startPosition =
        (Vector3.subVectors
          (rootGroupTarget
            (translationThree Real.sqrt Real.cos Real.sin Real.pi (fun _ => ⟨0, 0, 0⟩))
            (sceneWithFirstAt ⟨1, 0, 0⟩)
            [familyLayer.get ⟨0, by decide⟩, familyLayer.get ⟨1, by decide⟩] 2
            (familyLayer.get ⟨0, by decide⟩)).targetPosition
          (rootGroupTarget
            (translationThree Real.sqrt Real.cos Real.sin Real.pi (fun _ => ⟨0, 0, 0⟩))
            (sceneWithFirstAt ⟨1, 0, 0⟩)
            [familyLayer.get ⟨0, by decide⟩, familyLayer.get ⟨1, by decide⟩] 2
            (familyLayer.get ⟨0, by decide⟩)).startPosition).multiplyScalar (-1) := by
  have hw : (translationThree Real.sqrt Real.cos Real.sin Real.pi
      (fun _ => ⟨0, 0, 0⟩)).getWorldPosition (sceneWithFirstAt ⟨1, 0, 0⟩)
      (familyLayer.get ⟨0, by decide⟩) ≠
      (translationThree Real.sqrt Real.cos Real.sin Real.pi
        (fun _ => ⟨0, 0, 0⟩)).getWorldPosition (sceneWithFirstAt ⟨1, 0, 0⟩)
        (familyLayer.get ⟨1, by decide⟩) := by
    simp [translationThree, translationWorldPosition, sceneWithFirstAt, familyLayer, Obj.path,
      Vector3.add]
  exact ⟨⟨rfl, rfl, rfl, rfl⟩, rfl, hw,
    (symmetric_pair _ ⟨rfl, rfl, rfl, rfl⟩ (sceneWithFirstAt ⟨1, 0, 0⟩) familyLayer
      (some familyTree) 2 _ _ rfl hw).2.2.2.2.2.2⟩

end Disassembly
